import Mathlib

/-!
# Asynchronous I/O engine of BRLTTY (`Programs/async.c`)

A shallow embedding of the event engine in `Programs/async.c`, for the build
that is neither WINDOWS nor select based (the `poll` backend, `HAVE_SYS_POLL_H`).

Conventions of the embedding.

* `size_t` values are natural numbers below `2 ^ 64`; additions and
  subtractions on them are taken modulo `2 ^ 64`.  `int` is 32 bits wide,
  `ssize_t` 64 bits; `time_t`, `suseconds_t` and `long int` values are
  integers.
* A `Queue` (queue.c is not part of the sources at hand) is a list whose first
  item is the head; an `Element *` is the position of the item in the list.
* Function pointers are functions; the pointer to one of the two static
  `FunctionMethods` tables is a `MethodsRef`.
* `operation->function` always points to the entry whose queue holds the
  operation; hooks receive that entry as an explicit argument.
* What the outside world supplies (allocation outcomes, results of `read`,
  `write` and `poll`, the clock) is an explicit argument.
* Calls whose order the properties speak about are recorded as `Event`s.
-/

namespace Async

/-! ## Data model -/

/-- One more than the largest `size_t`. -/
def SIZE_MODULUS : Nat := 2 ^ 64

/-- Conversion of a 64 bit value to `int` (two's complement, 32 bits). -/
def toInt32 (x : Int) : Int :=
  let r := x % 2 ^ 32
  if r < 2 ^ 31 then r else r - 2 ^ 32

/-- The address of one of the two static `FunctionMethods` tables:
`methods` in `asyncRead` and `methods` in `asyncWrite`. -/
inductive MethodsRef where
  | read
  | write
  deriving DecidableEq, Repr

/-- The record `FunctionKey`. -/
structure FunctionKey where
  fileDescriptor : Int
  methods : MethodsRef
  deriving DecidableEq, Repr

/-- The record `InputResult` handed to an input callback. -/
structure InputResult where
  data : Nat
  buffer : List Nat
  size : Nat
  length : Nat
  error : Int
  end_ : Bool
  deriving DecidableEq, Repr

/-- The record `OutputResult` handed to an output callback. -/
structure OutputResult where
  data : Nat
  buffer : List Nat
  size : Nat
  error : Int
  count : Nat
  deriving DecidableEq, Repr

/-- An `InputCallback`: returns the number of leading bytes it consumed. -/
abbrev InputCallback := InputResult → Nat

/-- An `OutputCallback`: its return type is `void`. -/
abbrev OutputCallback := OutputResult → Unit

/-- The union `TransferDirectionUnion`; a callback pointer may be null. -/
inductive TransferDirectionUnion where
  | input (callback : Option InputCallback) (end_ : Bool)
  | output (callback : Option OutputCallback)

/-- The member `direction.input.end`; an output variant has no such member
(there it is storage outside `direction.output`). -/
def TransferDirectionUnion.inputEnd : TransferDirectionUnion → Bool
  | .input _ e => e
  | .output _ => false

/-- The assignment `direction.input.end = 1`. -/
def TransferDirectionUnion.setInputEnd : TransferDirectionUnion → TransferDirectionUnion
  | .input cb _ => .input cb true
  | .output cb => .output cb

/-- The record `TransferExtension`; `buffer` is the flexible array member. -/
structure TransferExtension where
  direction : TransferDirectionUnion
  size : Nat
  length : Nat
  buffer : List Nat

/-- The record `OperationEntry` (without the back pointer `function`). -/
structure OperationEntry where
  extension : TransferExtension
  data : Nat
  finished : Bool
  error : Int

/-- The record `FunctionEntry` of the poll backend. -/
structure FunctionEntry where
  fileDescriptor : Int
  methods : MethodsRef
  operations : List OperationEntry
  events : Int

/-- The key under which `testFunctionEntry` finds an entry. -/
def FunctionEntry.key (function : FunctionEntry) : FunctionKey :=
  ⟨function.fileDescriptor, function.methods⟩

/-- The record `struct timeval`. -/
structure TimeVal where
  tv_sec : Int
  tv_usec : Int
  deriving DecidableEq, Repr

/-- The record `AlarmEntry`; `callback` is the address of the callback. -/
structure AlarmEntry where
  time : TimeVal
  callback : Nat
  data : Nat
  deriving DecidableEq, Repr

/-- The record `struct pollfd`, which is `MonitorEntry` in this build. -/
structure MonitorEntry where
  fd : Int
  events : Int
  revents : Int
  deriving DecidableEq, Repr

/-- A call (or a queue change) the engine performs, in the order performed. -/
inductive Event where
  /-- The call `startOperation(operation)` (it runs the hook when installed). -/
  | startOperation (key : FunctionKey) (data : Nat)
  /-- The call `finishOperation(operation)`. -/
  | finishOperation (key : FunctionKey) (data : Nat)
  /-- The call of an installed input callback. -/
  | inputCallback (key : FunctionKey) (result : InputResult)
  /-- The call of an installed output callback. -/
  | outputCallback (key : FunctionKey) (result : OutputResult)
  /-- The call of an alarm callback, with its data. -/
  | alarmCallback (callback : Nat) (data : Nat)
  /-- The call `awaitOperation(monitorArray, monitorCount, timeout-elapsed)`. -/
  | awaitOperation (count : Nat) (timeout : Int)
  /-- An operation was linked into the queue of its function. -/
  | enqueued (key : FunctionKey) (data : Nat)
  /-- The call `deleteElement(operationElement)` in `asyncWait`. -/
  | retired (key : FunctionKey) (data : Nat)
  deriving DecidableEq, Repr

/-- The outcome of the one `read` or `write` call of a finish hook:
its return value, `errno`, and (for `read`) the bytes delivered. -/
structure Sys where
  result : Int
  errno : Int
  bytes : List Nat
  deriving DecidableEq, Repr

/-- The record `FunctionMethods`: five hooks, each of which may be null.
(`endFunction` is null in both tables of this build, so that deleting a
function entry calls no hook.) -/
structure FunctionMethods where
  beginFunction : Option (FunctionEntry → FunctionEntry)
  endFunction : Option (FunctionEntry → Unit)
  startOperation : Option (FunctionEntry → OperationEntry → OperationEntry)
  finishOperation : Option (Sys → FunctionEntry → OperationEntry → OperationEntry)
  invokeCallback : Option (FunctionEntry → OperationEntry → OperationEntry × Int × List Event)

/-! ## Queue (queue.c) -/

/-- Modelled from the spec: queue.c is missing; `enqueue(item)` is an "ordered
insert when comparator is present, else append".  With a comparator the item
goes in front of the first queued item it compares before (a nonzero result of
`compare item queued`), and to the tail when there is none.  `ok` is whether
the element could be allocated; the result is the new queue and the position
of the new element. -/
def enqueueItem {α : Type} (compare : Option (α → α → Int)) (ok : Bool)
    (queue : List α) (item : α) : Option (List α × Nat) :=
  if ok then
    match compare with
    | none => some (queue ++ [item], queue.length)
    | some cmp =>
      let front := queue.takeWhile (fun queued => cmp item queued == 0)
      some (front ++ item :: queue.drop front.length, front.length)
  else none

/-- Modelled from the spec: queue.c is missing; `delete(element)` unlinks the
element at the given position. -/
def deleteElement {α : Type} (queue : List α) (element : Nat) : List α :=
  queue.eraseIdx element

/-- Modelled from the spec: queue.c is missing; `requeue(element)` is "move to
tail". -/
def requeueElement {α : Type} (queue : List α) (element : Nat) : List α :=
  match queue[element]? with
  | some item => queue.eraseIdx element ++ [item]
  | none => queue

/-- Modelled from the spec: queue.c is missing; `process(predicate, ctx)` is a
"linear scan from head; predicate returns 0 to continue, nonzero to stop and
yield the current element".  The predicate may update its context, and has no
result (`none`) where the C code dereferences a null pointer. -/
def processQueue {α σ : Type} (test : α → σ → Option (Bool × σ)) :
    List α → σ → Option (Option Nat × σ)
  | [], data => some (none, data)
  | item :: rest, data =>
    match test item data with
    | none => none
    | some (true, data1) => some (some 0, data1)
    | some (false, data1) =>
      match processQueue test rest data1 with
      | none => none
      | some (found, data2) => some (found.map (· + 1), data2)

/-! ## Transfers -/

/-- The function `setUnixTransferResult`; `count` is an `ssize_t`. -/
def setUnixTransferResult (errno : Int) (operation : OperationEntry) (count : Int) :
    OperationEntry :=
  let extension := operation.extension
  if count = -1 then
    { operation with error := errno, finished := true }
  else if count = 0 then
    { operation with
      extension := { extension with direction := extension.direction.setInputEnd }
      finished := true }
  else
    { operation with
      extension := { extension with
        length := (((extension.length : Int) + count) % (SIZE_MODULUS : Int)).toNat }
      finished := true }

/-- What `read` leaves in the buffer: `count` bytes stored from offset `length`. -/
def storeBytes (buffer : List Nat) (length : Nat) (bytes : List Nat) (count : Int) : List Nat :=
  if 0 < count then
    buffer.take length ++
      (bytes.take count.toNat ++ buffer.drop (length + min count.toNat bytes.length))
  else buffer

/-- The function `finishUnixRead`; the result of `read` is kept in an `int`. -/
def finishUnixRead (sys : Sys) (_function : FunctionEntry) (operation : OperationEntry) :
    OperationEntry :=
  let extension := operation.extension
  let result := toInt32 sys.result
  let operation1 := { operation with
    extension := { extension with
      buffer := storeBytes extension.buffer extension.length sys.bytes sys.result } }
  setUnixTransferResult sys.errno operation1 result

/-- The function `finishUnixWrite`; the result of `write` is kept in an `int`. -/
def finishUnixWrite (sys : Sys) (_function : FunctionEntry) (operation : OperationEntry) :
    OperationEntry :=
  let result := toInt32 sys.result
  setUnixTransferResult sys.errno operation result

/-- The call `memmove(buffer, &buffer[src], n)`. -/
def memmove (buffer : List Nat) (src n : Nat) : List Nat :=
  (buffer.drop src).take n ++ buffer.drop n

/-- The member `direction.input.callback`.  The table and the variant agree
in every operation the engine creates; an output variant counts as holding no
input callback. -/
def TransferDirectionUnion.inputCallback : TransferDirectionUnion → Option InputCallback
  | .input callback _ => callback
  | .output _ => none

/-- The member `direction.output.callback`; an input variant counts as
holding no output callback. -/
def TransferDirectionUnion.outputCallback : TransferDirectionUnion → Option OutputCallback
  | .input _ _ => none
  | .output callback => callback

/-- The `InputResult` that `invokeInputCallback` fills in. -/
def inputResult (operation : OperationEntry) : InputResult :=
  { data := operation.data, buffer := operation.extension.buffer,
    size := operation.extension.size, length := operation.extension.length,
    error := operation.error, end_ := operation.extension.direction.inputEnd }

/-- The `OutputResult` that `invokeOutputCallback` fills in. -/
def outputResult (operation : OperationEntry) : OutputResult :=
  { data := operation.data, buffer := operation.extension.buffer,
    size := operation.extension.size, error := operation.error,
    count := operation.extension.length }

/-- The function `invokeInputCallback`. -/
def invokeInputCallback (function : FunctionEntry) (operation : OperationEntry) :
    OperationEntry × Int × List Event :=
  let extension := operation.extension
  let count : Nat :=
    match extension.direction.inputCallback with
    | some callback => callback (inputResult operation) % SIZE_MODULUS
    | none => extension.length
  let events : List Event :=
    match extension.direction.inputCallback with
    | some _ => [Event.inputCallback function.key (inputResult operation)]
    | none => []
  let extension1 : TransferExtension :=
    if count ≠ 0 then
      { extension with
        length := (extension.length + SIZE_MODULUS - count) % SIZE_MODULUS
        buffer := memmove extension.buffer count
          ((extension.length + SIZE_MODULUS - count) % SIZE_MODULUS) }
    else extension
  let operation1 := { operation with extension := extension1 }
  if operation1.error ≠ 0 then (operation1, 0, events)
  else if extension1.length = 0 then (operation1, 0, events)
  else (operation1, 1, events)

/-- The function `invokeOutputCallback`. -/
def invokeOutputCallback (function : FunctionEntry) (operation : OperationEntry) :
    OperationEntry × Int × List Event :=
  let extension := operation.extension
  let events : List Event :=
    match extension.direction.outputCallback with
    | some _ => [Event.outputCallback function.key (outputResult operation)]
    | none => []
  if operation.error ≠ 0 then (operation, 0, events)
  else
    ({ operation with finished := false },
      if extension.length < extension.size then 1 else 0, events)

/-! ## Function registry and operations -/

/-- The function `beginUnixInputFunction` (`POLLIN` is 1). -/
def beginUnixInputFunction (function : FunctionEntry) : FunctionEntry :=
  { function with events := 1 }

/-- The function `beginUnixOutputFunction` (`POLLOUT` is 4). -/
def beginUnixOutputFunction (function : FunctionEntry) : FunctionEntry :=
  { function with events := 4 }

/-- The two static tables: `methods` of `asyncRead` and `methods` of
`asyncWrite`, as initialised when WINDOWS is not defined. -/
def MethodsRef.deref : MethodsRef → FunctionMethods
  | .read =>
    { beginFunction := some beginUnixInputFunction
      endFunction := none
      startOperation := none
      finishOperation := some finishUnixRead
      invokeCallback := some invokeInputCallback }
  | .write =>
    { beginFunction := some beginUnixOutputFunction
      endFunction := none
      startOperation := none
      finishOperation := some finishUnixWrite
      invokeCallback := some invokeOutputCallback }

/-- The two process wide queues: the static `functions` of `getFunctionQueue`
and the static `alarms` of `getAlarmQueue`; `none` is the null pointer. -/
structure Engine where
  functions : Option (List FunctionEntry)
  alarms : Option (List AlarmEntry)

/-- The state of a process that has not called the engine yet. -/
def Engine.initial : Engine := ⟨none, none⟩

/-- The entries of the function registry (none while it does not exist). -/
def Engine.entries (engine : Engine) : List FunctionEntry :=
  engine.functions.getD []

/-- The queued alarms (none while the alarm queue does not exist). -/
def Engine.alarmEntries (engine : Engine) : List AlarmEntry :=
  engine.alarms.getD []

/-- Outcomes of the allocations one submission may perform. -/
structure Alloc where
  /-- The call `malloc(sizeof(*extension) + size)` succeeds. -/
  extension : Bool
  /-- The call `malloc(sizeof(*operation))` succeeds. -/
  operation : Bool
  /-- The call `newQueue(deallocateFunctionEntry, NULL)` succeeds. -/
  functionQueue : Bool
  /-- The call `malloc(sizeof(*function))` succeeds. -/
  function : Bool
  /-- The call `newQueue(deallocateOperationEntry, NULL)` succeeds. -/
  operationQueue : Bool
  /-- The call `enqueueItem(functions, function)` succeeds. -/
  functionElement : Bool
  /-- The call `enqueueItem(function->operations, operation)` succeeds. -/
  operationElement : Bool
  deriving DecidableEq, Repr

/-- The function `getFunctionQueue`: the value of the static `functions`
after the call (which is also what the call returns). -/
def getFunctionQueue (create : Bool) (ok : Bool) (functions : Option (List FunctionEntry)) :
    Option (List FunctionEntry) :=
  match functions with
  | some queue => some queue
  | none => if create && ok then some [] else none

/-- The function `testFunctionEntry`. -/
def testFunctionEntry (function : FunctionEntry) (key : FunctionKey) : Bool :=
  function.fileDescriptor == key.fileDescriptor && function.methods == key.methods

/-- The function `getFunctionElement`: the registry after the call and the
position of the element returned (`none` for a null result). -/
def getFunctionElement (fileDescriptor : Int) (methods : MethodsRef) (create : Bool)
    (a : Alloc) (registry : Option (List FunctionEntry)) :
    Option (List FunctionEntry) × Option Nat :=
  match getFunctionQueue create a.functionQueue registry with
  | none => (none, none)
  | some functions =>
    let key : FunctionKey := ⟨fileDescriptor, methods⟩
    match processQueue (fun item data => some (testFunctionEntry item data, data)) functions key with
    | some (some element, _) => (some functions, some element)
    | _ =>
      if create && a.function && a.operationQueue then
        let function : FunctionEntry :=
          { fileDescriptor := fileDescriptor, methods := methods, operations := [], events := 0 }
        let function1 :=
          match methods.deref.beginFunction with
          | some hook => hook function
          | none => function
        match enqueueItem none a.functionElement functions function1 with
        | some (functions1, element) => (some functions1, some element)
        | none => (some functions, none)
      else (some functions, none)

/-- The function `startOperation`. -/
def startOperation (function : FunctionEntry) (operation : OperationEntry) :
    OperationEntry × List Event :=
  let events := [Event.startOperation function.key operation.data]
  match function.methods.deref.startOperation with
  | some hook => (hook function operation, events)
  | none => (operation, events)

/-- The function `finishOperation`. -/
def finishOperation (sys : Sys) (function : FunctionEntry) (operation : OperationEntry) :
    OperationEntry × List Event :=
  let events := [Event.finishOperation function.key operation.data]
  match function.methods.deref.finishOperation with
  | some hook => (hook sys function operation, events)
  | none => (operation, events)

/-- The function `createOperation`: the registry after the call, the value
returned, and the calls made. -/
def createOperation (fileDescriptor : Int) (methods : MethodsRef)
    (extension : TransferExtension) (data : Nat) (a : Alloc)
    (registry : Option (List FunctionEntry)) :
    Option (List FunctionEntry) × Int × List Event :=
  if a.operation then
    match getFunctionElement fileDescriptor methods true a registry with
    | (some functions, some functionElement) =>
      match functions[functionElement]? with
      | none => (some functions, 0, [])
      | some function =>
        let new : Bool := function.operations.length == 0
        let operation : OperationEntry :=
          { extension := extension, data := data, finished := false, error := 0 }
        match enqueueItem none a.operationElement function.operations operation with
        | some (operations, operationElement) =>
          let function1 := { function with operations := operations }
          let (operation1, events) :=
            if new then startOperation function1 operation else (operation, [])
          let function2 :=
            { function1 with operations := operations.set operationElement operation1 }
          (some (functions.set functionElement function2), 1,
            Event.enqueued function.key data :: events)
        | none =>
          if new then (some (deleteElement functions functionElement), 0, [])
          else (some functions, 0, [])
    | (functions, _) => (functions, 0, [])
  else (registry, 0, [])

/-- The function `createTransferOperation`; a null `buffer` leaves the new
bytes as allocated (taken to be zero). -/
def createTransferOperation (fileDescriptor : Int) (methods : MethodsRef)
    (direction : TransferDirectionUnion) (size : Nat) (buffer : Option (List Nat))
    (data : Nat) (a : Alloc) (registry : Option (List FunctionEntry)) :
    Option (List FunctionEntry) × Int × List Event :=
  if a.extension then
    let fresh := List.replicate size 0
    let extension : TransferExtension :=
      { direction := direction, size := size, length := 0
        buffer :=
          match buffer with
          | some bytes => bytes.take size ++ fresh.drop (min size bytes.length)
          | none => fresh }
    createOperation fileDescriptor methods extension data a registry
  else (registry, 0, [])

/-- The function `createInputOperation`. -/
def createInputOperation (fileDescriptor : Int) (methods : MethodsRef)
    (callback : Option InputCallback) (size : Nat) (data : Nat) (a : Alloc)
    (registry : Option (List FunctionEntry)) :
    Option (List FunctionEntry) × Int × List Event :=
  createTransferOperation fileDescriptor methods (.input callback false) size none data a registry

/-- The function `createOutputOperation`. -/
def createOutputOperation (fileDescriptor : Int) (methods : MethodsRef)
    (callback : Option OutputCallback) (size : Nat) (buffer : Option (List Nat))
    (data : Nat) (a : Alloc) (registry : Option (List FunctionEntry)) :
    Option (List FunctionEntry) × Int × List Event :=
  createTransferOperation fileDescriptor methods (.output callback) size buffer data a registry

/-- The function `asyncRead`. -/
def asyncRead (fileDescriptor : Int) (size : Nat) (callback : Option InputCallback)
    (data : Nat) (a : Alloc) (engine : Engine) : Engine × Int × List Event :=
  let r := createInputOperation fileDescriptor .read callback size data a engine.functions
  ({ engine with functions := r.1 }, r.2)

/-- The function `asyncWrite`. -/
def asyncWrite (fileDescriptor : Int) (buffer : Option (List Nat)) (size : Nat)
    (callback : Option OutputCallback) (data : Nat) (a : Alloc) (engine : Engine) :
    Engine × Int × List Event :=
  let r := createOutputOperation fileDescriptor .write callback size buffer data a engine.functions
  ({ engine with functions := r.1 }, r.2)

/-! ## Alarms -/

/-- The function `compareAlarmEntries`. -/
def compareAlarmEntries (alarm1 alarm2 : AlarmEntry) : Int :=
  if alarm2.time.tv_sec < alarm1.time.tv_sec then 0
  else if alarm2.time.tv_sec > alarm1.time.tv_sec then 1
  else if alarm2.time.tv_usec > alarm1.time.tv_usec then 1 else 0

/-- Outcomes of the allocations `asyncAbsoluteAlarm` may perform. -/
structure AlarmAlloc where
  /-- The call `newQueue(deallocateAlarmEntry, compareAlarmEntries)` succeeds. -/
  alarmQueue : Bool
  /-- The call `malloc(sizeof(*alarm))` succeeds. -/
  alarm : Bool
  /-- The call `enqueueItem(alarms, alarm)` succeeds. -/
  alarmElement : Bool
  deriving DecidableEq, Repr

/-- The function `getAlarmQueue`: the value of the static `alarms` after the
call (which is also what the call returns). -/
def getAlarmQueue (create : Bool) (ok : Bool) (alarms : Option (List AlarmEntry)) :
    Option (List AlarmEntry) :=
  match alarms with
  | some queue => some queue
  | none => if create && ok then some [] else none

/-- The function `asyncAbsoluteAlarm`. -/
def asyncAbsoluteAlarm (time : TimeVal) (callback : Nat) (data : Nat) (a : AlarmAlloc)
    (engine : Engine) : Engine × Int :=
  match getAlarmQueue true a.alarmQueue engine.alarms with
  | some alarms =>
    if a.alarm then
      let alarm : AlarmEntry := { time := time, callback := callback, data := data }
      match enqueueItem (some compareAlarmEntries) a.alarmElement alarms alarm with
      | some (alarms1, _) => ({ engine with alarms := some alarms1 }, 1)
      | none => ({ engine with alarms := some alarms }, 0)
    else ({ engine with alarms := some alarms }, 0)
  | none => (engine, 0)

/-- Modelled from the spec: misc.c, which defines `millisecondsBetween`, is
missing; the spec speaks of the "milliseconds-until-head".  Whole
milliseconds from `from_` to `to_`, the microseconds divided as C divides. -/
def millisecondsBetween (from_ to_ : TimeVal) : Int :=
  (to_.tv_sec - from_.tv_sec) * 1000 + (to_.tv_usec - from_.tv_usec).tdiv 1000

/-! ## The drive loop -/

/-- The function `initializeMonitor` of the poll backend. -/
def initializeMonitor (function : FunctionEntry) (_operation : OperationEntry) : MonitorEntry :=
  { fd := function.fileDescriptor, events := function.events, revents := 0 }

/-- The function `testMonitor` of the poll backend. -/
def testMonitor (monitor : MonitorEntry) : Bool :=
  monitor.revents != 0

/-- The function `addMonitor`; `add` holds the monitors filled so far.  There
is no result when the queue of the function is empty (`getFirstOperation`
then reads through a null element). -/
def addMonitor (function : FunctionEntry) (add : List MonitorEntry) :
    Option (Bool × List MonitorEntry) :=
  match function.operations with
  | [] => none
  | operation :: _ =>
    if operation.finished then some (true, add)
    else some (false, add ++ [initializeMonitor function operation])

/-- The function `findMonitor`; `find` holds the monitors from `find->monitor`
on.  There is no result when that is past the end of the array. -/
def findMonitor (_function : FunctionEntry) (find : List MonitorEntry) :
    Option (Bool × List MonitorEntry) :=
  match find with
  | [] => none
  | monitor :: rest => if testMonitor monitor then some (true, find) else some (false, rest)

/-- What `poll` stores: the reported `revents` of each monitor, in order
(nothing reported is 0). -/
def setRevents : List MonitorEntry → List Int → List MonitorEntry
  | [], _ => []
  | monitor :: monitors, [] => { monitor with revents := 0 } :: setRevents monitors []
  | monitor :: monitors, r :: rs => { monitor with revents := r } :: setRevents monitors rs

/-- The function `awaitOperation` of the poll backend.  `poll` is what the
system call reports: `none` when it fails (result -1), else the `revents` it
stores; its result is then the number of monitors with nonzero `revents`. -/
def awaitOperation (poll : Option (List Int)) (monitors : List MonitorEntry) :
    List MonitorEntry × Int :=
  match poll with
  | none => (monitors, 0)
  | some revents =>
    let monitors1 := setRevents monitors revents
    (monitors1, if (monitors1.filter testMonitor).length > 0 then 1 else 0)

/-- What the outside world supplies during one turn of the loop of `asyncWait`. -/
structure IterEnv where
  /-- The call `malloc(ARRAY_SIZE(monitorArray, monitorCount))` succeeds. -/
  monitorArray : Bool
  /-- What `poll` reports. -/
  poll : Option (List Int)
  /-- What the `read` or `write` of the finish hook reports. -/
  sys : Sys
  deriving DecidableEq, Repr

/-- The first half of the dispatch of `asyncWait`, on the function chosen:
finish the head unless already finished, invoke its callback hook, and either
clear its error or delete it.  The result is the queue of the function
afterwards and the calls made; there is none when a null element or a null
hook is dereferenced. -/
def dispatchHead (sys : Sys) (function : FunctionEntry) :
    Option (List OperationEntry × List Event) :=
  match function.operations with
  | [] => none
  | operation :: rest =>
    let finished : OperationEntry × List Event :=
      if !operation.finished then finishOperation sys function operation else (operation, [])
    match function.methods.deref.invokeCallback with
    | none => none
    | some invokeCallback =>
      let called := invokeCallback function finished.1
      if called.2.1 ≠ 0 then
        some ({ called.1 with error := 0 } :: rest, finished.2 ++ called.2.2)
      else
        some (rest, finished.2 ++ called.2.2 ++ [Event.retired function.key called.1.data])

/-- The dispatch of `asyncWait` (the block under `if (functionElement)`):
the registry afterwards and the calls made. -/
def dispatch (sys : Sys) (functions : List FunctionEntry) (functionElement : Nat) :
    Option (List FunctionEntry × List Event) :=
  match functions[functionElement]? with
  | none => none
  | some function =>
    match dispatchHead sys function with
    | none => none
    | some (operations, events) =>
      match operations with
      | head :: tail =>
        let started := startOperation { function with operations := operations } head
        some (requeueElement
            (functions.set functionElement { function with operations := started.1 :: tail })
            functionElement,
          events ++ started.2)
      | [] => some (deleteElement functions functionElement, events)

/-- The block of `asyncWait` that fills the monitor array (from
`prepareMonitors()` to the test of `functionElement`): the element whose head
is already finished, if `addMonitor` met one, and the monitors filled.  There
is no result when a null pointer is dereferenced. -/
def monitorFunctions (monitorArray : Bool) (functions : Option (List FunctionEntry)) :
    Option (Option Nat × List MonitorEntry) :=
  match functions with
  | none => some (none, [])
  | some queue =>
    if queue.length ≠ 0 then
      if monitorArray then processQueue addMonitor queue []
      else some (none, [])
    else some (none, [])

/-- The block `if (!functionElement)` of `asyncWait`: the element to dispatch
and the calls made.  The `long int` value `timeout-elapsed` is converted to
the `int timeout` parameter of `awaitOperation`. -/
def awaitFunction (timeout elapsed : Int) (poll : Option (List Int))
    (functions : Option (List FunctionEntry)) (functionElement : Option Nat)
    (monitors : List MonitorEntry) : Option (Option Nat × List Event) :=
  match functionElement with
  | some element => some (some element, [])
  | none =>
    let events := [Event.awaitOperation monitors.length (toInt32 (timeout - elapsed))]
    if (awaitOperation poll monitors).2 ≠ 0 then
      match processQueue findMonitor (functions.getD []) (awaitOperation poll monitors).1 with
      | none => none
      | some (found, _) => some (found, events)
    else some (none, events)

/-- The part of one turn of the loop of `asyncWait` after the alarm block,
with `timeout` as that block leaves it. -/
def awaitAndDispatch (timeout elapsed : Int) (env : IterEnv) (engine : Engine) :
    Option (Engine × List Event) :=
  let functions := getFunctionQueue false false engine.functions
  match monitorFunctions env.monitorArray functions with
  | none => none
  | some (functionElement, monitors) =>
    match awaitFunction timeout elapsed env.poll functions functionElement monitors with
    | none => none
    | some (none, events) => some (engine, events)
    | some (some element, events) =>
      match dispatch env.sys (functions.getD []) element with
      | none => none
      | some (functions1, events1) =>
        some ({ engine with functions := some functions1 }, events ++ events1)

/-- One turn of the loop of `asyncWait`, from `long int timeout = duration` to
the closing brace, with `elapsed` as the loop holds it.  There is no result
when a null pointer is dereferenced. -/
def asyncWaitIteration (duration elapsed : Int) (start : TimeVal) (env : IterEnv)
    (engine : Engine) : Option (Engine × List Event) :=
  match engine.alarms with
  | some (alarm :: rest) =>
    if millisecondsBetween start alarm.time ≤ elapsed then
      some ({ engine with alarms := some rest },
        [Event.alarmCallback alarm.callback alarm.data])
    else if millisecondsBetween start alarm.time < duration then
      awaitAndDispatch (millisecondsBetween start alarm.time) elapsed env engine
    else awaitAndDispatch duration elapsed env engine
  | _ => awaitAndDispatch duration elapsed env engine

/-- One reading of the clock at the loop condition, with what the outside
world supplies during the turn before it. -/
structure Turn where
  env : IterEnv
  /-- The value of `millisecondsSince(&start)` in the loop condition. -/
  elapsedAfter : Int
  deriving DecidableEq, Repr

/-- The loop of `asyncWait`, one turn for each element of `turns`. -/
def asyncWaitLoop (duration : Int) (start : TimeVal) :
    Int → List Turn → Engine → Option (Engine × List Event)
  | _, [], engine => some (engine, [])
  | elapsed, turn :: turns, engine =>
    match asyncWaitIteration duration elapsed start turn.env engine with
    | none => none
    | some (engine1, events1) =>
      if turn.elapsedAfter < duration then
        match asyncWaitLoop duration start turn.elapsedAfter turns engine1 with
        | none => none
        | some (engine2, events2) => some (engine2, events1 ++ events2)
      else some (engine1, events1)

/-- The function `asyncWait`, with the clock readings and outcomes of its turns. -/
def asyncWait (duration : Int) (start : TimeVal) (turns : List Turn) (engine : Engine) :
    Option (Engine × List Event) :=
  asyncWaitLoop duration start 0 turns engine

/-! ## Runs of the engine -/

/-- A call into the engine: a submission, an alarm, or one turn of the loop
of `asyncWait`, each with what the outside world supplies to it. -/
inductive Action where
  | createOperation (fileDescriptor : Int) (methods : MethodsRef)
      (extension : TransferExtension) (data : Nat) (a : Alloc)
  | asyncRead (fileDescriptor : Int) (size : Nat) (callback : Option InputCallback)
      (data : Nat) (a : Alloc)
  | asyncWrite (fileDescriptor : Int) (buffer : Option (List Nat)) (size : Nat)
      (callback : Option OutputCallback) (data : Nat) (a : Alloc)
  | asyncAbsoluteAlarm (time : TimeVal) (callback : Nat) (data : Nat) (a : AlarmAlloc)
  | iteration (duration elapsed : Int) (start : TimeVal) (env : IterEnv)

/-- The effect of one action: the engine afterwards and the calls made. -/
def step (action : Action) (engine : Engine) : Option (Engine × List Event) :=
  match action with
  | .createOperation fileDescriptor methods extension data a =>
    let r := createOperation fileDescriptor methods extension data a engine.functions
    some ({ engine with functions := r.1 }, r.2.2)
  | .asyncRead fileDescriptor size callback data a =>
    let r := asyncRead fileDescriptor size callback data a engine
    some (r.1, r.2.2)
  | .asyncWrite fileDescriptor buffer size callback data a =>
    let r := asyncWrite fileDescriptor buffer size callback data a engine
    some (r.1, r.2.2)
  | .asyncAbsoluteAlarm time callback data a =>
    some ((asyncAbsoluteAlarm time callback data a engine).1, [])
  | .iteration duration elapsed start env =>
    asyncWaitIteration duration elapsed start env engine

/-- The effect of a sequence of actions on an engine with the calls `trace`
made so far: the engine afterwards and all calls made, oldest first. -/
def run (engine : Engine) (trace : List Event) : List Action → Option (Engine × List Event)
  | [] => some (engine, trace)
  | action :: actions =>
    match step action engine with
    | none => none
    | some (engine1, events) => run engine1 (trace ++ events) actions

/-! ## Relative alarms -/

/-- The function `normalizeTime`; `/` and `%` are those of C. -/
def normalizeTime (time : TimeVal) : TimeVal :=
  { tv_sec := time.tv_sec + time.tv_usec.tdiv 1000000
    tv_usec := time.tv_usec.tmod 1000000 }

/-- The function `adjustTime`; `amount` is an `int`, and so are `quotient`
and `remainder`, none of which can overflow. -/
def adjustTime (time : TimeVal) (amount : Int) : TimeVal :=
  let quotient := amount.tdiv 1000
  let remainder := amount.tmod 1000
  let quotient1 := if remainder < 0 then quotient - 1 else quotient
  let remainder1 := if remainder < 0 then remainder + 1000 else remainder
  normalizeTime
    { tv_sec := time.tv_sec + quotient1, tv_usec := time.tv_usec + remainder1 * 1000 }

/-- The function `asyncRelativeAlarm`; `now` is what `gettimeofday` reports. -/
def asyncRelativeAlarm (interval : Int) (callback : Nat) (data : Nat) (a : AlarmAlloc)
    (now : TimeVal) (engine : Engine) : Engine × Int :=
  asyncAbsoluteAlarm (adjustTime now interval) callback data a engine

/-! ## Vocabulary of the theorems -/

/-- The value of `count` in `invokeInputCallback` after the callback ran. -/
def consumedCount (operation : OperationEntry) : Nat :=
  match operation.extension.direction.inputCallback with
  | some callback => callback (inputResult operation) % SIZE_MODULUS
  | none => operation.extension.length

/-- Events a dispatch may emit before it retires or restarts the head: the
finish call and installed callbacks, all for the given function and data. -/
def CallEvents (key : FunctionKey) (data : Nat) (events : List Event) : Prop :=
  ∀ e ∈ events, e = Event.finishOperation key data ∨
    (∃ r : InputResult, e = Event.inputCallback key r ∧ r.data = data) ∨
    (∃ r : OutputResult, e = Event.outputCallback key r ∧ r.data = data)

/-- Events that are calls of `awaitOperation`. -/
def AwaitEvents (events : List Event) : Prop :=
  ∀ e ∈ events, ∃ count timeout, e = Event.awaitOperation count timeout

/-- The data of an operation linked into the queue of `key` by this event. -/
def Event.enqueuedAt (key : FunctionKey) : Event → Option Nat
  | .enqueued k data => if k = key then some data else none
  | _ => none

/-- The data of an operation deleted from the queue of `key` by this event. -/
def Event.retiredAt (key : FunctionKey) : Event → Option Nat
  | .retired k data => if k = key then some data else none
  | _ => none

/-- The data of the operation of `key` whose callback this event calls. -/
def Event.callbackAt (key : FunctionKey) : Event → Option Nat
  | .inputCallback k result => if k = key then some result.data else none
  | .outputCallback k result => if k = key then some result.data else none
  | _ => none

/-- The operation this event starts, as function key and data. -/
def Event.started : Event → Option (FunctionKey × Nat)
  | .startOperation k data => some (k, data)
  | _ => none

/-- The data of the operations submitted to `key`, in submission order. -/
def submittedData (key : FunctionKey) (trace : List Event) : List Nat :=
  trace.filterMap (Event.enqueuedAt key)

/-- The data of the operations of `key` retired, in the order retired. -/
def retiredData (key : FunctionKey) (trace : List Event) : List Nat :=
  trace.filterMap (Event.retiredAt key)

/-- The operations started, in the order of the calls. -/
def startedOperations (trace : List Event) : List (FunctionKey × Nat) :=
  trace.filterMap Event.started

/-- Lexicographic `≤` on `(tv_sec, tv_usec)`. -/
def TimeVal.le (t1 t2 : TimeVal) : Prop :=
  t1.tv_sec < t2.tv_sec ∨ (t1.tv_sec = t2.tv_sec ∧ t1.tv_usec ≤ t2.tv_usec)

/-- Lexicographic `<` on `(tv_sec, tv_usec)`. -/
def TimeVal.lt (t1 t2 : TimeVal) : Prop :=
  t1.tv_sec < t2.tv_sec ∨ (t1.tv_sec = t2.tv_sec ∧ t1.tv_usec < t2.tv_usec)

instance (t1 t2 : TimeVal) : Decidable (TimeVal.le t1 t2) := by
  unfold TimeVal.le
  exact inferInstance

instance (t1 t2 : TimeVal) : Decidable (TimeVal.lt t1 t2) := by
  unfold TimeVal.lt
  exact inferInstance

/-- What holds of the function registry and the calls made so far in every
state the engine reaches: no queue is empty, no two entries share a key, the
queue of an entry holds the operations submitted to its key and not yet
retired, in submission order, and a key without entry has none pending. -/
def RegistryInvariant (entries : List FunctionEntry) (trace : List Event) : Prop :=
  (∀ f ∈ entries, f.operations ≠ []) ∧
  (entries.map FunctionEntry.key).Nodup ∧
  (∀ f ∈ entries, submittedData f.key trace =
    retiredData f.key trace ++ f.operations.map (·.data)) ∧
  (∀ key, (∀ f ∈ entries, f.key ≠ key) → submittedData key trace = retiredData key trace)

/-- The alarm queue is in ascending order of time. -/
def AlarmsSorted (alarms : List AlarmEntry) : Prop :=
  alarms.Pairwise (fun a b => TimeVal.le a.time b.time)

/-- What holds of the engine and the calls made so far in every state it
reaches. -/
def EngineInvariant (engine : Engine) (trace : List Event) : Prop :=
  RegistryInvariant engine.entries trace ∧ AlarmsSorted engine.alarmEntries

/-- The milliseconds from `start` to the time of the head alarm, and
`duration` when no alarm is queued. -/
def alarmHorizon (duration : Int) (start : TimeVal) (engine : Engine) : Int :=
  match engine.alarms with
  | some (alarm :: _) => millisecondsBetween start alarm.time
  | _ => duration

/-- The timeouts of the calls of `awaitOperation` among the events. -/
def awaitTimeouts (events : List Event) : List Int :=
  events.filterMap fun
    | .awaitOperation _ timeout => some timeout
    | _ => none

/-- A submission hands in an operation with nothing transferred yet, as
`createTransferOperation`, the one caller of `createOperation`, does. -/
def Action.fresh : Action → Prop
  | .createOperation _ _ extension _ _ => extension.length = 0
  | _ => True

/-- No queued operation carries an error, and a queued read that is not
finished holds no bytes. -/
def UnfinishedReadsEmpty (entries : List FunctionEntry) : Prop :=
  ∀ f ∈ entries, ∀ op ∈ f.operations,
    op.error = 0 ∧ (f.methods = .read → op.finished = false → op.extension.length = 0)

/-- The result handed to the output callback of `key` by this event. -/
def Event.outputAt (key : FunctionKey) : Event → Option OutputResult
  | .outputCallback k result => if k = key then some result else none
  | _ => none

/-- The results handed to the output callbacks of `key`, in call order. -/
def outputCalls (key : FunctionKey) (trace : List Event) : List OutputResult :=
  trace.filterMap (Event.outputAt key)

/-- The running totals of `counts` on top of `total`. -/
def partialSums (total : Nat) : List Nat → List Nat
  | [] => []
  | count :: counts => (total + count) :: partialSums (total + count) counts

/-- A write of `size` bytes of which `length` are written, waiting to be
finished. -/
def writeOperation (callback : OutputCallback) (size length : Nat) (buffer : List Nat)
    (data : Nat) : OperationEntry :=
  { extension :=
      { direction := .output (some callback), size := size, length := length, buffer := buffer }
    data := data, finished := false, error := 0 }

/-- A turn of `asyncWait(100)` in which the first descriptor polls writable
and `write` accepts `count` bytes. -/
def writeTurn (count : Nat) : Action :=
  .iteration 100 0 ⟨0, 0⟩ ⟨true, some [4], ⟨count, 0, []⟩⟩

/-- Every operation queued for writing waits to be finished and carries no
error. -/
def WritesUnfinished (entries : List FunctionEntry) : Prop :=
  ∀ f ∈ entries, f.methods = .write → ∀ op ∈ f.operations, op.finished = false ∧ op.error = 0

/-- The operation after `count` more of its bytes were transferred. -/
def OperationEntry.advanced (operation : OperationEntry) (count : Nat) : OperationEntry :=
  { operation with
    extension := { operation.extension with length := operation.extension.length + count } }

/-- The registry entries a function leaves behind for its queue. -/
def FunctionEntry.remaining (function : FunctionEntry) (operations : List OperationEntry) :
    List FunctionEntry :=
  match operations with
  | [] => []
  | _ :: _ => [{ function with operations := operations }]

/-- The position of the entry of `key` in the registry. -/
def positionOf (key : FunctionKey) : List FunctionEntry → Option Nat
  | [] => none
  | function :: functions =>
    if function.key = key then some 0 else (positionOf key functions).map (· + 1)

/-- Successive dispatches on the function of `key`, one for each outcome of
its finish hook, each in the registry as the one before left it: the
registry afterwards and the calls of each dispatch. -/
def dispatchEach (key : FunctionKey) :
    List Sys → List FunctionEntry → Option (List FunctionEntry × List (List Event))
  | [], functions => some (functions, [])
  | sys :: outcomes, functions =>
    match positionOf key functions with
    | none => none
    | some functionElement =>
      match dispatch sys functions functionElement with
      | none => none
      | some (functions1, events) =>
        match dispatchEach key outcomes functions1 with
        | none => none
        | some (functions2, calls) => some (functions2, events :: calls)

/-- A `write` that accepts `count` bytes. -/
def accepted (count : Nat) : Sys := ⟨count, 0, []⟩

/-! ## Inputs of the worked examples -/

/-- A read of capacity 4 holding 3 bytes, whose callback consumes 2. -/
def sampleInput : OperationEntry :=
  { extension :=
      { direction := .input (some (fun _ => 2)) false, size := 4, length := 3,
        buffer := [10, 11, 12, 13] }
    data := 0, finished := true, error := 0 }

/-- The function entry of descriptor 5 for reading, as `sampleInput` sees it. -/
def sampleReader : FunctionEntry := ⟨5, .read, [], 1⟩

/-- A write of 8 bytes of which 3 are written, not yet finished again. -/
def sampleOutput : OperationEntry :=
  { extension :=
      { direction := .output (some (fun _ => ())), size := 8, length := 3,
        buffer := [65, 66, 67, 68, 69, 70, 71, 72] }
    data := 7, finished := false, error := 0 }

/-- A `write` that accepts 3 bytes. -/
def threeBytes : Sys := ⟨3, 0, []⟩

/-- A read of capacity 16 holding nothing yet. -/
def emptyInput : OperationEntry :=
  { extension :=
      { direction := .input none false, size := 16, length := 0,
        buffer := List.replicate 16 0 }
    data := 9, finished := false, error := 0 }

/-- A `read` that delivers the five bytes of "hello". -/
def helloBytes : Sys := ⟨5, 0, [104, 101, 108, 108, 111]⟩

/-- Every allocation of a submission succeeds. -/
def allAllocated : Alloc := ⟨true, true, true, true, true, true, true⟩

/-- The submission `asyncWrite(3, "ABCDEFGH", 8, callback, 7)`. -/
def submitWrite : Action :=
  .asyncWrite 3 (some [65, 66, 67, 68, 69, 70, 71, 72]) 8 (some (fun _ => ())) 7 allAllocated

/-- A turn of `asyncWait(100)` in which descriptor 3 polls writable and
`write` accepts 3 bytes. -/
def partialWriteTurn : Action :=
  .iteration 100 0 ⟨0, 0⟩ ⟨true, some [4], threeBytes⟩

/-- The time 10.999500 s. -/
def sampleTime : TimeVal := ⟨10, 999500⟩

/-- An engine whose only alarm is due 70 ms after time 0. -/
def alarmedEngine : Engine := ⟨none, some [⟨⟨0, 70000⟩, 0, 3⟩]⟩

/-- A turn in which nothing is allocated, polled or transferred. -/
def idleEnv : IterEnv := ⟨false, none, ⟨0, 0, []⟩⟩

/-- The submission `asyncRead(5, 16, callback, 9)`, whose callback consumes
all it is shown. -/
def submitRead : Action :=
  .asyncRead 5 16 (some (fun result => result.length)) 9 allAllocated

/-- A `read` that reports the end of the stream. -/
def endOfStream : Sys := ⟨0, 0, []⟩

/-- The operation `submitRead` queues. -/
def pendingRead : OperationEntry :=
  { extension :=
      { direction := .input (some (fun result => result.length)) false, size := 16, length := 0,
        buffer := List.replicate 16 0 }
    data := 9, finished := false, error := 0 }

/-- The function entry `submitRead` creates. -/
def readerEntry : FunctionEntry := ⟨5, .read, [pendingRead], 1⟩

/-- A turn of `asyncWait(100)` in which descriptor 3 polls writable and
`write` accepts 2 bytes. -/
def finalWriteTurn : Action :=
  .iteration 100 0 ⟨0, 0⟩ ⟨true, some [4], ⟨2, 0, []⟩⟩

/-- The submission `asyncRead(5, 16, callback, 9)`, whose callback consumes
two bytes at each call. -/
def submitChunkedRead : Action :=
  .asyncRead 5 16 (some (fun _ => 2)) 9 allAllocated

/-- A turn of `asyncWait(100)` in which descriptor 5 polls readable and `read`
delivers the five bytes of "hello". -/
def helloTurn : Action :=
  .iteration 100 0 ⟨0, 0⟩ ⟨true, some [1], helloBytes⟩

/-- A turn of `asyncWait(100)` in which descriptor 5 does not poll readable; a
`read` would deliver "hello". -/
def quietTurn : Action :=
  .iteration 100 0 ⟨0, 0⟩ ⟨true, some [0], helloBytes⟩

/-- A turn in which `poll` times out with nothing ready. -/
def timedOut : IterEnv := ⟨true, some [], ⟨0, 0, []⟩⟩

/-- Two turns of `asyncWait(100)`: after the first the clock reads 30 days
before the start, after the second 100 ms after it. -/
def clockSetBack : List Turn := [⟨timedOut, -2592000000⟩, ⟨timedOut, 100⟩]

/-- Two turns of `asyncWait(100)`: after the first the clock reads 40 ms after
the start, after the second 100 ms. -/
def steadyClock : List Turn := [⟨timedOut, 40⟩, ⟨timedOut, 100⟩]

/-- The function entry `submitWrite` creates. -/
def writerEntry : FunctionEntry :=
  ⟨3, .write, [writeOperation (fun _ => ()) 8 0 [65, 66, 67, 68, 69, 70, 71, 72] 7], 4⟩

end Async

/-! # Lock descriptors (`Programs/lock.c`)

The functions that create lock descriptors, for a build with `CAN_LOCK`.  A
pointer is the address of its block (`none` is the null pointer). -/

namespace Lock

/-- What a call of `newLockDescriptor` leaves behind: the pointer returned and
the block, if any, that was allocated and then given to `free`. -/
structure NewLock where
  lock : Option Nat
  freed : Option Nat
  deriving DecidableEq, Repr

/-- The function `newLockDescriptor`.  `allocation` is what `malloc` returns
and `constructed` whether `constructLockDescriptor` reports success. -/
def newLockDescriptor (allocation : Option Nat) (constructed : Bool) : NewLock :=
  match allocation with
  | some lock =>
    if constructed then { lock := some lock, freed := none }
    else { lock := some lock, freed := some lock }
  | none => { lock := none, freed := none }

/-- The function `getLockDescriptor`: the value of `*lock` after the call
(which is also what the call returns) and what a call of `newLockDescriptor`
it made left behind. -/
def getLockDescriptor (lock : Option Nat) (allocation : Option Nat) (constructed : Bool) :
    Option Nat × Option NewLock :=
  match lock with
  | some descriptor => (some descriptor, none)
  | none =>
    ((newLockDescriptor allocation constructed).lock,
      some (newLockDescriptor allocation constructed))

end Lock

namespace Async

/-! # Theorems -/

/-! ## Transfers -/

theorem memmove_getElem? (buffer : List Nat) (src n i : Nat) (hi : i < n)
    (hn : src + n ≤ buffer.length) : (memmove buffer src n)[i]? = buffer[src + i]? := by
  unfold memmove
  have h1 : i < ((buffer.drop src).take n).length := by
    simp [List.length_take, List.length_drop]; omega
  rw [List.getElem?_append_left h1, List.getElem?_take_of_lt hi, List.getElem?_drop]

theorem invokeInputCallback_operation (function : FunctionEntry) (operation : OperationEntry) :
    (invokeInputCallback function operation).1 =
      { operation with extension :=
        if consumedCount operation ≠ 0 then
          { operation.extension with
            length := (operation.extension.length + SIZE_MODULUS - consumedCount operation)
              % SIZE_MODULUS
            buffer := memmove operation.extension.buffer (consumedCount operation)
              ((operation.extension.length + SIZE_MODULUS - consumedCount operation)
                % SIZE_MODULUS) }
        else operation.extension } := by
  unfold invokeInputCallback consumedCount
  simp only []
  split_ifs <;> rfl

theorem sizeSub_eq (l n : Nat) (hn : n ≤ l) (hl : l < SIZE_MODULUS) :
    (l + SIZE_MODULUS - n) % SIZE_MODULUS = l - n := by
  have : l + SIZE_MODULUS - n = (l - n) + SIZE_MODULUS := by omega
  rw [this, Nat.add_mod_right]
  exact Nat.mod_eq_of_lt (by omega)

theorem invokeInputCallback_result (function : FunctionEntry) (operation : OperationEntry) :
    (invokeInputCallback function operation).2.1 =
      if (invokeInputCallback function operation).1.error ≠ 0 then 0
      else if (invokeInputCallback function operation).1.extension.length = 0 then 0 else 1 := by
  unfold invokeInputCallback
  simp only []
  split_ifs <;> rfl

theorem invokeInputCallback_error (function : FunctionEntry) (operation : OperationEntry) :
    (invokeInputCallback function operation).1.error = operation.error := by
  unfold invokeInputCallback
  simp only []
  split_ifs <;> rfl

theorem dispatchHead_read (sys : Sys) (fd events : Int) (operation : OperationEntry)
    (rest : List OperationEntry) :
    dispatchHead sys ⟨fd, .read, operation :: rest, events⟩ =
      (let function : FunctionEntry := ⟨fd, .read, operation :: rest, events⟩
       let finished : OperationEntry × List Event :=
         if !operation.finished then finishOperation sys function operation else (operation, [])
       let called := invokeInputCallback function finished.1
       if called.2.1 ≠ 0 then
         some ({ called.1 with error := 0 } :: rest, finished.2 ++ called.2.2)
       else
         some (rest, finished.2 ++ called.2.2 ++ [Event.retired function.key called.1.data])) := by
  rfl

theorem cons_ne_self {α : Type} (a : α) (l : List α) : a :: l ≠ l := by
  intro h
  have := congrArg List.length h
  simp at this

theorem dispatchHead_write (sys : Sys) (fd events : Int) (operation : OperationEntry)
    (rest : List OperationEntry) :
    dispatchHead sys ⟨fd, .write, operation :: rest, events⟩ =
      (let function : FunctionEntry := ⟨fd, .write, operation :: rest, events⟩
       let finished : OperationEntry × List Event :=
         if !operation.finished then finishOperation sys function operation else (operation, [])
       let called := invokeOutputCallback function finished.1
       if called.2.1 ≠ 0 then
         some ({ called.1 with error := 0 } :: rest, finished.2 ++ called.2.2)
       else
         some (rest, finished.2 ++ called.2.2 ++ [Event.retired function.key called.1.data])) := by
  rfl

theorem toInt32_of_range (x : Int) (h1 : -(2 ^ 31) ≤ x) (h2 : x < 2 ^ 31) : toInt32 x = x := by
  unfold toInt32
  simp only []
  split_ifs with h <;> omega

/-! ## Registry, dispatch and loop turn -/

theorem processQueue_pure {α σ : Type} (p : α → σ → Bool) (l : List α) (key : σ) :
    ∃ found, processQueue (fun item data => some (p item data, data)) l key = some (found, key) ∧
      (∀ i, found = some i → ∃ x, l[i]? = some x ∧ p x key = true) ∧
      (found = none → ∀ x ∈ l, p x key = false) := by
  induction l with
  | nil => exact ⟨none, rfl, by simp, by simp⟩
  | cons x xs ih =>
    obtain ⟨found, h1, h2, h3⟩ := ih
    cases hp : p x key with
    | true =>
      refine ⟨some 0, by simp [processQueue, hp], ?_, by simp⟩
      intro i hi
      cases hi
      exact ⟨x, by simp, hp⟩
    | false =>
      refine ⟨found.map (· + 1), by simp [processQueue, hp, h1], ?_, ?_⟩
      · intro i hi
        cases found with
        | none => simp at hi
        | some j =>
          simp at hi
          subst hi
          obtain ⟨y, hy1, hy2⟩ := h2 j rfl
          exact ⟨y, by simpa using hy1, hy2⟩
      · intro hnone
        cases found with
        | none =>
          intro y hy
          rcases List.mem_cons.mp hy with rfl | hy
          · exact hp
          · exact h3 rfl y hy
        | some j => simp at hnone

theorem testFunctionEntry_iff (function : FunctionEntry) (key : FunctionKey) :
    testFunctionEntry function key = true ↔ function.key = key := by
  cases key
  simp [testFunctionEntry, FunctionEntry.key]

theorem beginFunction_fields (fd : Int) (m : MethodsRef) :
    ∃ f0 : FunctionEntry, f0.key = ⟨fd, m⟩ ∧ f0.operations = [] ∧
      (match m.deref.beginFunction with
        | some hook => hook { fileDescriptor := fd, methods := m, operations := [], events := 0 }
        | none => { fileDescriptor := fd, methods := m, operations := [], events := 0 }) = f0 := by
  cases m <;> refine ⟨_, ?_, ?_, rfl⟩ <;> rfl

theorem getFunctionElement_cases (fd : Int) (m : MethodsRef) (a : Alloc)
    (registry : Option (List FunctionEntry)) :
    (getFunctionElement fd m true a registry).2 = none ∧
        ((getFunctionElement fd m true a registry).1 = registry ∨
          (getFunctionElement fd m true a registry).1 = some (registry.getD [])) ∨
    (∃ i f, (registry.getD [])[i]? = some f ∧ f.key = ⟨fd, m⟩ ∧
        getFunctionElement fd m true a registry = (some (registry.getD []), some i)) ∨
    (∃ f0 : FunctionEntry, f0.key = ⟨fd, m⟩ ∧ f0.operations = [] ∧
        (∀ f ∈ registry.getD [], f.key ≠ ⟨fd, m⟩) ∧
        getFunctionElement fd m true a registry =
          (some (registry.getD [] ++ [f0]), some (registry.getD []).length)) := by
  unfold getFunctionElement
  cases hq : getFunctionQueue true a.functionQueue registry with
  | none =>
    left
    cases registry with
    | none => simp
    | some q => simp [getFunctionQueue] at hq
  | some functions =>
    have hfun : functions = registry.getD [] := by
      cases registry with
      | none =>
        simp only [getFunctionQueue] at hq
        split_ifs at hq
        · simp at hq; simp [hq]
      | some q => simp [getFunctionQueue] at hq; simp [hq]
    subst hfun
    obtain ⟨found, h1, h2, h3⟩ := processQueue_pure testFunctionEntry (registry.getD [])
      (⟨fd, m⟩ : FunctionKey)
    simp only [h1]
    cases found with
    | some i =>
      right; left
      obtain ⟨f, hf1, hf2⟩ := h2 i rfl
      exact ⟨i, f, hf1, (testFunctionEntry_iff _ _).mp hf2, rfl⟩
    | none =>
      have hno : ∀ f ∈ registry.getD [], f.key ≠ ⟨fd, m⟩ := by
        intro f hf hk
        have := h3 rfl f hf
        rw [(testFunctionEntry_iff _ _).mpr hk] at this
        cases this
      obtain ⟨f0, hk, ho, hb⟩ := beginFunction_fields fd m
      simp only [hb]
      by_cases hc : (true && a.function && a.operationQueue) = true
      · simp only [hc, if_true]
        cases he : a.functionElement with
        | true =>
          right; right
          exact ⟨f0, hk, ho, hno, by simp [enqueueItem]⟩
        | false =>
          left
          simp [enqueueItem]
      · left
        simp only [hc]
        simp

theorem startOperation_eq (function : FunctionEntry) (operation : OperationEntry) :
    startOperation function operation =
      (operation, [Event.startOperation function.key operation.data]) := by
  cases hm : function.methods <;> simp [startOperation, hm, MethodsRef.deref]

theorem set_append_length {α : Type} (l : List α) (x y : α) :
    (l ++ [x]).set l.length y = l ++ [y] := by
  induction l with
  | nil => rfl
  | cons z zs ih => simp [ih]

theorem createOperation_cases_any (fd : Int) (m : MethodsRef) (ext : TransferExtension)
    (data : Nat) (a : Alloc) (registry : Option (List FunctionEntry)) :
    ((createOperation fd m ext data a registry).2.1 = 0 ∧
      (createOperation fd m ext data a registry).2.2 = [] ∧
      ((createOperation fd m ext data a registry).1 = registry ∨
        (createOperation fd m ext data a registry).1 = some (registry.getD []) ∨
        ∃ i f, (registry.getD [])[i]? = some f ∧ f.operations = [] ∧
          (createOperation fd m ext data a registry).1 = some ((registry.getD []).eraseIdx i))) ∨
    (∃ i f, (registry.getD [])[i]? = some f ∧ f.key = ⟨fd, m⟩ ∧
      createOperation fd m ext data a registry =
        (some ((registry.getD []).set i
          { f with operations := f.operations ++ [⟨ext, data, false, 0⟩] }), 1,
          Event.enqueued ⟨fd, m⟩ data ::
            (if f.operations.length == 0 then [Event.startOperation ⟨fd, m⟩ data] else []))) ∨
    (∃ f0 : FunctionEntry, f0.key = ⟨fd, m⟩ ∧ (∀ f ∈ registry.getD [], f.key ≠ ⟨fd, m⟩) ∧
      f0.operations = [⟨ext, data, false, 0⟩] ∧
      createOperation fd m ext data a registry =
        (some (registry.getD [] ++ [f0]), 1,
          [Event.enqueued ⟨fd, m⟩ data, Event.startOperation ⟨fd, m⟩ data])) := by
  unfold createOperation
  cases hop : a.operation with
  | false => left; simp
  | true =>
    simp only [if_true]
    rcases getFunctionElement_cases fd m a registry with ⟨h1, h2⟩ | ⟨i, f, hf, hk, hg⟩ |
      ⟨f0, hk, ho, hno, hg⟩
    · left
      rcases hp : getFunctionElement fd m true a registry with ⟨q, e⟩
      rw [hp] at h1 h2
      simp only at h1 h2
      subst h1
      cases q with
      | none => simp_all
      | some val =>
        simp only [Option.some.injEq] at h2
        refine ⟨rfl, rfl, ?_⟩
        rcases h2 with h2 | h2
        · exact Or.inl h2
        · exact Or.inr (Or.inl (congrArg some h2))
    · rw [hg]
      simp only [hf]
      cases he : a.operationElement with
      | false =>
        left
        cases hlen : (f.operations.length == 0) with
        | false => simp [enqueueItem, hlen]
        | true =>
          refine ⟨by simp [enqueueItem, hlen], by simp [enqueueItem, hlen],
            Or.inr (Or.inr ⟨i, f, hf, ?_, ?_⟩)⟩
          · simpa using hlen
          · simp [enqueueItem, hlen, deleteElement]
      | true =>
        right; left
        refine ⟨i, f, hf, hk, ?_⟩
        have hk' := hk
        simp only [FunctionEntry.key, FunctionKey.mk.injEq] at hk'
        cases hlen : (f.operations.length == 0) <;>
          simp [enqueueItem, hlen, hk, startOperation_eq, set_append_length, FunctionEntry.key,
            hk'.1, hk'.2]
    · rw [hg]
      simp only [List.getElem?_concat_length, ho]
      cases he : a.operationElement with
      | false =>
        left
        simp [enqueueItem, he, deleteElement, ho, List.eraseIdx_append_of_length_le]
      | true =>
        right; right
        refine ⟨{ f0 with operations := [⟨ext, data, false, 0⟩] }, hk, hno, rfl, ?_⟩
        have hk' := hk
        simp only [FunctionEntry.key, FunctionKey.mk.injEq] at hk'
        simp [enqueueItem, he, startOperation_eq, ho, hk, FunctionEntry.key, hk'.1, hk'.2]

theorem createOperation_cases (fd : Int) (m : MethodsRef) (ext : TransferExtension) (data : Nat)
    (a : Alloc) (registry : Option (List FunctionEntry))
    (hinv : ∀ f ∈ registry.getD [], f.operations ≠ []) :
    ((createOperation fd m ext data a registry).2.1 = 0 ∧
      (createOperation fd m ext data a registry).2.2 = [] ∧
      (createOperation fd m ext data a registry).1.getD [] = registry.getD []) ∨
    (∃ i f, (registry.getD [])[i]? = some f ∧ f.key = ⟨fd, m⟩ ∧
      createOperation fd m ext data a registry =
        (some ((registry.getD []).set i
          { f with operations := f.operations ++ [⟨ext, data, false, 0⟩] }), 1,
          [Event.enqueued ⟨fd, m⟩ data])) ∨
    (∃ f0 : FunctionEntry, f0.key = ⟨fd, m⟩ ∧ (∀ f ∈ registry.getD [], f.key ≠ ⟨fd, m⟩) ∧
      f0.operations = [⟨ext, data, false, 0⟩] ∧
      createOperation fd m ext data a registry =
        (some (registry.getD [] ++ [f0]), 1,
          [Event.enqueued ⟨fd, m⟩ data, Event.startOperation ⟨fd, m⟩ data])) := by
  rcases createOperation_cases_any fd m ext data a registry with ⟨h1, h2, h3⟩ |
    ⟨i, f, hf, hk, hc⟩ | h
  · left
    refine ⟨h1, h2, ?_⟩
    rcases h3 with h3 | h3 | ⟨i, f, hf, hemp, _⟩
    · rw [h3]
    · rw [h3]
      rfl
    · exact absurd hemp (hinv f (List.getElem?_mem hf))
  · right; left
    refine ⟨i, f, hf, hk, ?_⟩
    have hne : f.operations ≠ [] := hinv f (List.getElem?_mem hf)
    have hlen : (f.operations.length == 0) = false := by
      cases hfo : f.operations with
      | nil => exact absurd hfo hne
      | cons x xs => simp
    rw [hc, hlen]
    rfl
  · right; right
    exact h

theorem createOperation_members (fd : Int) (m : MethodsRef) (ext : TransferExtension)
    (data : Nat) (a : Alloc) (registry : Option (List FunctionEntry)) :
    ∀ f ∈ (createOperation fd m ext data a registry).1.getD [], ∀ op ∈ f.operations,
      (∃ g ∈ registry.getD [], op ∈ g.operations) ∨ op.extension = ext := by
  intro f hf op hop
  rcases createOperation_cases_any fd m ext data a registry with ⟨_, _, h3⟩ |
    ⟨i, g, hg, hk, hc⟩ | ⟨f0, _, _, hops, hc⟩
  · rcases h3 with h3 | h3 | ⟨i, g, hg, _, h3⟩
    · rw [h3] at hf
      exact Or.inl ⟨f, hf, hop⟩
    · rw [h3] at hf
      exact Or.inl ⟨f, hf, hop⟩
    · rw [h3] at hf
      exact Or.inl ⟨f, List.mem_of_mem_eraseIdx hf, hop⟩
  · rw [hc] at hf
    simp only [Option.getD_some] at hf
    rcases List.mem_or_eq_of_mem_set hf with hf | rfl
    · exact Or.inl ⟨f, hf, hop⟩
    · simp only [List.mem_append, List.mem_singleton] at hop
      rcases hop with hop | rfl
      · exact Or.inl ⟨g, List.getElem?_mem hg, hop⟩
      · exact Or.inr rfl
  · rw [hc] at hf
    simp only [Option.getD_some, List.mem_append, List.mem_singleton] at hf
    rcases hf with hf | rfl
    · exact Or.inl ⟨f, hf, hop⟩
    · rw [hops] at hop
      simp only [List.mem_singleton] at hop
      subst hop
      exact Or.inr rfl

theorem eraseIdx_set_self {α : Type} (l : List α) (i : Nat) (x : α) :
    (l.set i x).eraseIdx i = l.eraseIdx i := by
  induction l generalizing i with
  | nil => simp
  | cons y ys ih =>
    cases i with
    | zero => simp
    | succ j => simp [ih]

theorem requeueElement_set {α : Type} (l : List α) (i : Nat) (x y : α) (h : l[i]? = some y) :
    requeueElement (l.set i x) i = l.eraseIdx i ++ [x] := by
  have hi : i < l.length := by
    rcases Nat.lt_or_ge i l.length with h1 | h1
    · exact h1
    · rw [List.getElem?_eq_none h1] at h; cases h
  unfold requeueElement
  rw [List.getElem?_set_self hi, eraseIdx_set_self]

theorem setUnixTransferResult_data (errno : Int) (operation : OperationEntry) (count : Int) :
    (setUnixTransferResult errno operation count).data = operation.data := by
  unfold setUnixTransferResult
  simp only []
  split_ifs <;> rfl

theorem finishOperation_eq (sys : Sys) (function : FunctionEntry) (operation : OperationEntry) :
    (finishOperation sys function operation).1.data = operation.data ∧
    (finishOperation sys function operation).2 =
      [Event.finishOperation function.key operation.data] := by
  cases hm : function.methods <;>
    simp [finishOperation, hm, MethodsRef.deref, finishUnixRead, finishUnixWrite,
      setUnixTransferResult_data]

theorem invokeInputCallback_data (function : FunctionEntry) (operation : OperationEntry) :
    (invokeInputCallback function operation).1.data = operation.data ∧
    CallEvents function.key operation.data (invokeInputCallback function operation).2.2 := by
  unfold invokeInputCallback CallEvents
  simp only []
  cases operation.extension.direction.inputCallback <;>
    (constructor
     · split_ifs <;> rfl
     · split_ifs <;> simp [inputResult])

theorem invokeOutputCallback_data (function : FunctionEntry) (operation : OperationEntry) :
    (invokeOutputCallback function operation).1.data = operation.data ∧
    CallEvents function.key operation.data (invokeOutputCallback function operation).2.2 := by
  unfold invokeOutputCallback CallEvents
  simp only []
  cases operation.extension.direction.outputCallback <;>
    (constructor
     · split_ifs <;> rfl
     · split_ifs <;> simp [outputResult])

theorem invokeCallback_cases (function : FunctionEntry) :
    ∃ hook, function.methods.deref.invokeCallback = some hook ∧
      ∀ operation, (hook function operation).1.data = operation.data ∧
        CallEvents function.key operation.data (hook function operation).2.2 := by
  cases hm : function.methods
  · exact ⟨invokeInputCallback, rfl, fun op => invokeInputCallback_data function op⟩
  · exact ⟨invokeOutputCallback, rfl, fun op => invokeOutputCallback_data function op⟩

theorem callEvents_append {key : FunctionKey} {data : Nat} {e1 e2 : List Event}
    (h1 : CallEvents key data e1) (h2 : CallEvents key data e2) :
    CallEvents key data (e1 ++ e2) := by
  intro e he
  rcases List.mem_append.mp he with h | h
  · exact h1 e h
  · exact h2 e h

theorem dispatchHead_cases (sys : Sys) (f : FunctionEntry) (op : OperationEntry)
    (rest : List OperationEntry) (h : f.operations = op :: rest) :
    ∃ evc, CallEvents f.key op.data evc ∧
      ((∃ op' : OperationEntry, op'.data = op.data ∧
          dispatchHead sys f = some (op' :: rest, evc)) ∨
        dispatchHead sys f = some (rest, evc ++ [Event.retired f.key op.data])) := by
  obtain ⟨hook, hh, hdata⟩ := invokeCallback_cases f
  unfold dispatchHead
  simp only [h, hh]
  have hfin : ((if (!op.finished) = true then finishOperation sys f op else (op, [])).1.data
      = op.data) ∧ CallEvents f.key op.data
        (if (!op.finished) = true then finishOperation sys f op else (op, [])).2 := by
    cases op.finished
    · simp only [Bool.not_false, if_true]
      refine ⟨(finishOperation_eq sys f op).1, ?_⟩
      rw [(finishOperation_eq sys f op).2]
      intro e he
      simp at he
      exact Or.inl he
    · simp [CallEvents]
  generalize (if (!op.finished) = true then finishOperation sys f op else (op, [])) = fin at hfin
  obtain ⟨hd, hev⟩ := hdata fin.1
  rw [hfin.1] at hd hev
  refine ⟨fin.2 ++ (hook f fin.1).2.2, callEvents_append hfin.2 hev, ?_⟩
  by_cases hr : (hook f fin.1).2.1 = 0
  · right
    simp [hr, hd]
  · left
    exact ⟨{ (hook f fin.1).1 with error := 0 }, hd, by simp [hr]⟩

theorem dispatch_cases (sys : Sys) (functions : List FunctionEntry) (i : Nat) (f : FunctionEntry)
    (op : OperationEntry) (rest : List OperationEntry) (hf : functions[i]? = some f)
    (h : f.operations = op :: rest) :
    ∃ evc, CallEvents f.key op.data evc ∧
      ((∃ op' : OperationEntry, op'.data = op.data ∧
          dispatch sys functions i =
            some (functions.eraseIdx i ++ [{ f with operations := op' :: rest }],
              evc ++ [Event.startOperation f.key op.data])) ∨
        (∃ x xs, rest = x :: xs ∧
          dispatch sys functions i =
            some (functions.eraseIdx i ++ [{ f with operations := rest }],
              evc ++ [Event.retired f.key op.data, Event.startOperation f.key x.data])) ∨
        (rest = [] ∧
          dispatch sys functions i =
            some (functions.eraseIdx i, evc ++ [Event.retired f.key op.data]))) := by
  obtain ⟨evc, hev, hd⟩ := dispatchHead_cases sys f op rest h
  refine ⟨evc, hev, ?_⟩
  unfold dispatch
  simp only [hf]
  rcases hd with ⟨op', hop', hd⟩ | hd
  · left
    refine ⟨op', hop', ?_⟩
    simp only [hd, startOperation_eq, requeueElement_set _ _ _ _ hf, hop']
    rfl
  · right
    cases rest with
    | nil =>
      right
      simp [hd, deleteElement]
    | cons x xs =>
      left
      refine ⟨x, xs, rfl, ?_⟩
      simp only [hd, startOperation_eq, requeueElement_set _ _ _ _ hf]
      simp [FunctionEntry.key]

theorem processQueue_addMonitor (l : List FunctionEntry) (acc : List MonitorEntry)
    (hinv : ∀ f ∈ l, f.operations ≠ []) :
    ∃ found monitors, processQueue addMonitor l acc = some (found, monitors) ∧
      (∀ i, found = some i → i < l.length) ∧
      (found = none → monitors.length = acc.length + l.length) := by
  induction l generalizing acc with
  | nil => exact ⟨none, acc, rfl, by simp, by simp⟩
  | cons f fs ih =>
    have hf : f.operations ≠ [] := hinv f (List.mem_cons_self _ _)
    cases hops : f.operations with
    | nil => exact absurd hops hf
    | cons op rest =>
      cases hfin : op.finished with
      | true =>
        exact ⟨some 0, acc, by simp [processQueue, addMonitor, hops, hfin], by simp, by simp⟩
      | false =>
        obtain ⟨found, monitors, h1, h2, h3⟩ :=
          ih (acc ++ [initializeMonitor f op]) (fun g hg => hinv g (List.mem_cons_of_mem _ hg))
        refine ⟨found.map (· + 1), monitors, by simp [processQueue, addMonitor, hops, hfin, h1],
          ?_, ?_⟩
        · intro i hi
          cases found with
          | none => simp at hi
          | some j =>
            simp at hi
            have := h2 j rfl
            simp
            omega
        · intro hn
          cases found with
          | none =>
            have := h3 rfl
            simp at this
            simp
            omega
          | some j => simp at hn

theorem processQueue_findMonitor (l : List FunctionEntry) (monitors : List MonitorEntry)
    (hlen : l.length ≤ monitors.length) :
    ∃ found rest, processQueue findMonitor l monitors = some (found, rest) ∧
      (∀ i, found = some i → i < l.length) := by
  induction l generalizing monitors with
  | nil => exact ⟨none, monitors, rfl, by simp⟩
  | cons f fs ih =>
    cases monitors with
    | nil => simp at hlen
    | cons m ms =>
      cases ht : testMonitor m with
      | true => exact ⟨some 0, m :: ms, by simp [processQueue, findMonitor, ht], by simp⟩
      | false =>
        obtain ⟨found, rest, h1, h2⟩ := ih ms (by simpa using hlen)
        refine ⟨found.map (· + 1), rest, by simp [processQueue, findMonitor, ht, h1], ?_⟩
        intro i hi
        cases found with
        | none => simp at hi
        | some j =>
          simp at hi
          have := h2 j rfl
          simp
          omega

theorem setRevents_length (monitors : List MonitorEntry) (revents : List Int) :
    (setRevents monitors revents).length = monitors.length := by
  induction monitors generalizing revents with
  | nil => simp [setRevents]
  | cons m ms ih =>
    cases revents <;> simp [setRevents, ih]

theorem awaitOperation_length (poll : Option (List Int)) (monitors : List MonitorEntry) :
    (awaitOperation poll monitors).1.length = monitors.length := by
  cases poll <;> simp [awaitOperation, setRevents_length]

theorem awaitOperation_nil (poll : Option (List Int)) : (awaitOperation poll []).2 = 0 := by
  cases poll <;> simp [awaitOperation, setRevents]

theorem getFunctionQueue_false (functions : Option (List FunctionEntry)) :
    getFunctionQueue false false functions = functions := by
  cases functions <;> rfl

theorem monitorFunctions_cases (monitorArray : Bool) (functions : Option (List FunctionEntry))
    (hinv : ∀ f ∈ functions.getD [], f.operations ≠ []) :
    ∃ found monitors, monitorFunctions monitorArray functions = some (found, monitors) ∧
      (∀ i, found = some i → i < (functions.getD []).length) ∧
      (found = none → monitors = [] ∨ monitors.length = (functions.getD []).length) := by
  unfold monitorFunctions
  cases functions with
  | none => exact ⟨none, [], rfl, by simp, by simp⟩
  | some queue =>
    by_cases hq : queue.length ≠ 0
    · cases monitorArray with
      | false => exact ⟨none, [], by simp [hq], by simp, by simp⟩
      | true =>
        obtain ⟨found, monitors, h1, h2, h3⟩ := processQueue_addMonitor queue [] hinv
        refine ⟨found, monitors, by simp [hq, h1], h2, ?_⟩
        intro hn
        right
        simpa using h3 hn
    · exact ⟨none, [], by simp [hq], by simp, by simp⟩

theorem awaitFunction_cases (timeout elapsed : Int) (poll : Option (List Int))
    (functions : Option (List FunctionEntry)) (found : Option Nat) (monitors : List MonitorEntry)
    (h2 : ∀ i, found = some i → i < (functions.getD []).length)
    (h3 : found = none → monitors = [] ∨ monitors.length = (functions.getD []).length) :
    ∃ element events, awaitFunction timeout elapsed poll functions found monitors =
        some (element, events) ∧ AwaitEvents events ∧
      (∀ i, element = some i → i < (functions.getD []).length) := by
  unfold awaitFunction
  cases found with
  | some i => exact ⟨some i, [], rfl, by simp [AwaitEvents], h2⟩
  | none =>
    have hev : AwaitEvents [Event.awaitOperation monitors.length (toInt32 (timeout - elapsed))] := by
      intro e he
      simp at he
      exact ⟨_, _, he⟩
    by_cases hr : (awaitOperation poll monitors).2 ≠ 0
    · rcases h3 rfl with hm | hm
      · subst hm
        exact absurd (awaitOperation_nil poll) hr
      · obtain ⟨element, rest, h4, h5⟩ := processQueue_findMonitor (functions.getD [])
          (awaitOperation poll monitors).1 (by rw [awaitOperation_length, hm])
        exact ⟨element, _, by simp [hr, h4], hev, h5⟩
    · exact ⟨none, _, by simp [hr], hev, by simp⟩

theorem dispatch_isSome (sys : Sys) (functions : List FunctionEntry) (i : Nat)
    (hinv : ∀ f ∈ functions, f.operations ≠ []) (hi : i < functions.length) :
    ∃ f functions1 events1, functions[i]? = some f ∧
      dispatch sys functions i = some (functions1, events1) := by
  have hf : functions[i]? = some functions[i] := List.getElem?_eq_getElem hi
  have hne := hinv _ (List.getElem?_mem hf)
  cases hops : (functions[i]).operations with
  | nil => exact absurd hops hne
  | cons op rest =>
    obtain ⟨evc, _, hd⟩ := dispatch_cases sys functions i _ op rest hf hops
    rcases hd with ⟨op', _, hd⟩ | ⟨x, xs, _, hd⟩ | ⟨_, hd⟩ <;> exact ⟨_, _, _, hf, hd⟩

theorem awaitAndDispatch_cases (timeout elapsed : Int) (env : IterEnv)
    (engine : Engine) (hinv : ∀ f ∈ engine.entries, f.operations ≠ []) :
    (∃ events, AwaitEvents events ∧
      awaitAndDispatch timeout elapsed env engine = some (engine, events)) ∨
    (∃ i f functions1 events events1, engine.entries[i]? = some f ∧ AwaitEvents events ∧
      dispatch env.sys engine.entries i = some (functions1, events1) ∧
      awaitAndDispatch timeout elapsed env engine =
        some ({ engine with functions := some functions1 }, events ++ events1)) := by
  unfold awaitAndDispatch
  simp only [getFunctionQueue_false]
  obtain ⟨found, monitors, h1, h2, h3⟩ := monitorFunctions_cases env.monitorArray
    engine.functions hinv
  obtain ⟨element, events, h4, h5, h6⟩ := awaitFunction_cases timeout elapsed env.poll
    engine.functions found monitors h2 h3
  simp only [h1, h4]
  cases element with
  | none => left; exact ⟨events, h5, rfl⟩
  | some i =>
    right
    obtain ⟨f, functions1, events1, hf, hd⟩ := dispatch_isSome env.sys (engine.functions.getD [])
      i hinv (h6 i rfl)
    refine ⟨i, f, functions1, events, events1, hf, h5, hd, ?_⟩
    simp only [hd]

theorem asyncWaitIteration_cases (duration elapsed : Int) (start : TimeVal) (env : IterEnv)
    (engine : Engine) (hinv : ∀ f ∈ engine.entries, f.operations ≠ []) :
    (∃ alarm rest, engine.alarms = some (alarm :: rest) ∧
      asyncWaitIteration duration elapsed start env engine =
        some ({ engine with alarms := some rest },
          [Event.alarmCallback alarm.callback alarm.data])) ∨
    (∃ events, AwaitEvents events ∧
      asyncWaitIteration duration elapsed start env engine = some (engine, events)) ∨
    (∃ i f functions1 events events1, engine.entries[i]? = some f ∧ AwaitEvents events ∧
      dispatch env.sys engine.entries i = some (functions1, events1) ∧
      asyncWaitIteration duration elapsed start env engine =
        some ({ engine with functions := some functions1 }, events ++ events1)) := by
  unfold asyncWaitIteration
  split
  · rename_i alarm rest ha
    split_ifs with h1 h2
    · left; exact ⟨alarm, rest, ha, rfl⟩
    · right; exact awaitAndDispatch_cases _ elapsed env engine hinv
    · right; exact awaitAndDispatch_cases _ elapsed env engine hinv
  · right; exact awaitAndDispatch_cases _ elapsed env engine hinv

/-! ## The invariant of the registry -/

/-- An event list that neither links nor deletes an operation. -/
theorem submittedData_append (key : FunctionKey) (t1 t2 : List Event) :
    submittedData key (t1 ++ t2) = submittedData key t1 ++ submittedData key t2 := by
  simp [submittedData]

theorem retiredData_append (key : FunctionKey) (t1 t2 : List Event) :
    retiredData key (t1 ++ t2) = retiredData key t1 ++ retiredData key t2 := by
  simp [retiredData]

theorem callEvents_quiet {key : FunctionKey} {data : Nat} {events : List Event}
    (h : CallEvents key data events) (k : FunctionKey) :
    submittedData k events = [] ∧ retiredData k events = [] ∧ startedOperations events = [] := by
  simp only [submittedData, retiredData, startedOperations, List.filterMap_eq_nil_iff]
  refine ⟨?_, ?_, ?_⟩ <;>
  · intro e he
    rcases h e he with rfl | ⟨r, rfl, _⟩ | ⟨r, rfl, _⟩ <;> rfl

theorem awaitEvents_quiet {events : List Event} (h : AwaitEvents events) (k : FunctionKey) :
    submittedData k events = [] ∧ retiredData k events = [] ∧ startedOperations events = [] ∧
    ∀ e ∈ events, Event.callbackAt k e = none := by
  simp only [submittedData, retiredData, startedOperations, List.filterMap_eq_nil_iff]
  refine ⟨?_, ?_, ?_, ?_⟩ <;>
  · intro e he
    obtain ⟨c, t, rfl⟩ := h e he
    rfl

theorem perm_cons_eraseIdx {α : Type} (l : List α) (i : Nat) (x : α) (h : l[i]? = some x) :
    l.Perm (x :: l.eraseIdx i) := by
  induction l generalizing i with
  | nil => simp at h
  | cons y ys ih =>
    cases i with
    | zero =>
      simp at h
      subst h
      simp
    | succ j =>
      simp at h
      simp only [List.eraseIdx_cons_succ]
      exact ((ih j h).cons y).trans (List.Perm.swap x y _)

theorem registryInvariant_perm {l1 l2 : List FunctionEntry} {trace : List Event}
    (hp : l1.Perm l2) (h : RegistryInvariant l1 trace) : RegistryInvariant l2 trace := by
  obtain ⟨h1, h2, h3, h4⟩ := h
  refine ⟨fun f hf => h1 f (hp.mem_iff.mpr hf), ?_, fun f hf => h3 f (hp.mem_iff.mpr hf), ?_⟩
  · exact (List.Perm.nodup_iff (hp.map _)).mp h2
  · intro key hk
    exact h4 key (fun f hf => hk f (hp.mem_iff.mp hf))

/-- Events that leave every queue alone keep the invariant. -/
theorem registryInvariant_same {l : List FunctionEntry} {trace events : List Event}
    (h : RegistryInvariant l trace)
    (hq : ∀ k, submittedData k events = [] ∧ retiredData k events = []) :
    RegistryInvariant l (trace ++ events) := by
  obtain ⟨h1, h2, h3, h4⟩ := h
  refine ⟨h1, h2, ?_, ?_⟩
  · intro f hf
    rw [submittedData_append, retiredData_append, (hq f.key).1, (hq f.key).2]
    simpa using h3 f hf
  · intro key hk
    rw [submittedData_append, retiredData_append, (hq key).1, (hq key).2]
    simpa using h4 key hk

/-- Replacing the queue of one entry keeps the invariant when the events
account for the change. -/
theorem registryInvariant_update {f f' : FunctionEntry} {R : List FunctionEntry}
    {trace events : List Event} (h : RegistryInvariant (f :: R) trace)
    (hkey : f'.key = f.key) (hne : f'.operations ≠ [])
    (hq : ∀ k, k ≠ f.key → submittedData k events = [] ∧ retiredData k events = [])
    (hb : f.operations.map (·.data) ++ submittedData f.key events =
      retiredData f.key events ++ f'.operations.map (·.data)) :
    RegistryInvariant (f' :: R) (trace ++ events) := by
  obtain ⟨h1, h2, h3, h4⟩ := h
  have hnot : ∀ g ∈ R, g.key ≠ f.key := by
    intro g hg heq
    simp only [List.map_cons, List.nodup_cons] at h2
    exact h2.1 (heq ▸ List.mem_map_of_mem _ hg)
  refine ⟨?_, ?_, ?_, ?_⟩
  · intro g hg
    rcases List.mem_cons.mp hg with rfl | hg
    · exact hne
    · exact h1 g (List.mem_cons_of_mem _ hg)
  · simpa [hkey] using h2
  · intro g hg
    rw [submittedData_append, retiredData_append]
    rcases List.mem_cons.mp hg with rfl | hg
    · rw [hkey, h3 f (List.mem_cons_self _ _), List.append_assoc, hb, List.append_assoc]
    · rw [(hq g.key (hnot g hg)).1, (hq g.key (hnot g hg)).2]
      simpa using h3 g (List.mem_cons_of_mem _ hg)
  · intro key hk
    have hkf : key ≠ f.key := by
      intro heq
      exact hk f' (List.mem_cons_self _ _) (by rw [hkey, heq])
    rw [submittedData_append, retiredData_append, (hq key hkf).1, (hq key hkf).2]
    have := h4 key (by
      intro g hg
      rcases List.mem_cons.mp hg with rfl | hg
      · exact fun heq => hkf heq.symm
      · exact hk g (List.mem_cons_of_mem _ hg))
    simpa using this

/-- Adding an entry for a key without entry keeps the invariant when the
events account for its queue. -/
theorem registryInvariant_add {f0 : FunctionEntry} {l : List FunctionEntry}
    {trace events : List Event} (h : RegistryInvariant l trace)
    (hnew : ∀ f ∈ l, f.key ≠ f0.key) (hne : f0.operations ≠ [])
    (hq : ∀ k, k ≠ f0.key → submittedData k events = [] ∧ retiredData k events = [])
    (hb : submittedData f0.key events =
      retiredData f0.key events ++ f0.operations.map (·.data)) :
    RegistryInvariant (f0 :: l) (trace ++ events) := by
  obtain ⟨h1, h2, h3, h4⟩ := h
  refine ⟨?_, ?_, ?_, ?_⟩
  · intro g hg
    rcases List.mem_cons.mp hg with rfl | hg
    · exact hne
    · exact h1 g hg
  · simp only [List.map_cons, List.nodup_cons]
    refine ⟨?_, h2⟩
    intro hmem
    obtain ⟨g, hg, hgk⟩ := List.mem_map.mp hmem
    exact hnew g hg hgk
  · intro g hg
    rw [submittedData_append, retiredData_append]
    rcases List.mem_cons.mp hg with rfl | hg
    · rw [h4 _ hnew, hb, List.append_assoc]
    · rw [(hq g.key (hnew g hg)).1, (hq g.key (hnew g hg)).2]
      simpa using h3 g hg
  · intro key hk
    have hkf : key ≠ f0.key := fun heq => hk f0 (List.mem_cons_self _ _) heq.symm
    rw [submittedData_append, retiredData_append, (hq key hkf).1, (hq key hkf).2]
    simpa using h4 key (fun g hg => hk g (List.mem_cons_of_mem _ hg))

/-- Removing an entry keeps the invariant when the events account for all
of its queue. -/
theorem registryInvariant_remove {f : FunctionEntry} {R : List FunctionEntry}
    {trace events : List Event} (h : RegistryInvariant (f :: R) trace)
    (hq : ∀ k, k ≠ f.key → submittedData k events = [] ∧ retiredData k events = [])
    (hb : f.operations.map (·.data) ++ submittedData f.key events = retiredData f.key events) :
    RegistryInvariant R (trace ++ events) := by
  obtain ⟨h1, h2, h3, h4⟩ := h
  have hnot : ∀ g ∈ R, g.key ≠ f.key := by
    intro g hg heq
    simp only [List.map_cons, List.nodup_cons] at h2
    exact h2.1 (heq ▸ List.mem_map_of_mem _ hg)
  refine ⟨fun g hg => h1 g (List.mem_cons_of_mem _ hg), ?_, ?_, ?_⟩
  · simp only [List.map_cons, List.nodup_cons] at h2
    exact h2.2
  · intro g hg
    rw [submittedData_append, retiredData_append, (hq g.key (hnot g hg)).1,
      (hq g.key (hnot g hg)).2]
    simpa using h3 g (List.mem_cons_of_mem _ hg)
  · intro key hk
    rw [submittedData_append, retiredData_append]
    by_cases hkf : key = f.key
    · subst hkf
      rw [h3 f (List.mem_cons_self _ _), List.append_assoc, hb]
    · rw [(hq key hkf).1, (hq key hkf).2]
      have := h4 key (by
        intro g hg
        rcases List.mem_cons.mp hg with rfl | hg
        · exact fun heq => hkf heq.symm
        · exact hk g hg)
      simpa using this

theorem enqueued_quiet (key k : FunctionKey) (data : Nat) (rest : List Event) (hk : k ≠ key)
    (hrest : submittedData k rest = [] ∧ retiredData k rest = []) :
    submittedData k (Event.enqueued key data :: rest) = [] ∧
    retiredData k (Event.enqueued key data :: rest) = [] := by
  have hk' : ¬ key = k := fun h => hk h.symm
  have h1 := hrest.1
  have h2 := hrest.2
  simp only [submittedData, retiredData] at h1 h2 ⊢
  simp [List.filterMap_cons, Event.enqueuedAt, Event.retiredAt, hk', h1, h2]

theorem createOperation_invariant (fd : Int) (m : MethodsRef) (ext : TransferExtension)
    (data : Nat) (a : Alloc) (registry : Option (List FunctionEntry)) (trace : List Event)
    (h : RegistryInvariant (registry.getD []) trace) :
    RegistryInvariant ((createOperation fd m ext data a registry).1.getD [])
      (trace ++ (createOperation fd m ext data a registry).2.2) := by
  rcases createOperation_cases fd m ext data a registry h.1 with ⟨_, h2, h3⟩ |
    ⟨i, f, hf, hk, hc⟩ | ⟨f0, hk, hno, hops, hc⟩
  · rw [h2, h3, List.append_nil]
    exact h
  · rw [hc]
    simp only [Option.getD_some]
    have hp := perm_cons_eraseIdx _ i f hf
    have hi : i < (registry.getD []).length := by
      rcases Nat.lt_or_ge i (registry.getD []).length with h1 | h1
      · exact h1
      · rw [List.getElem?_eq_none h1] at hf; cases hf
    have hp' := perm_cons_eraseIdx ((registry.getD []).set i
      { f with operations := f.operations ++ [⟨ext, data, false, 0⟩] }) i _
      (List.getElem?_set_self hi)
    rw [eraseIdx_set_self] at hp'
    refine registryInvariant_perm hp'.symm ?_
    refine registryInvariant_update (registryInvariant_perm hp h) rfl (by simp) ?_ ?_
    · intro k hkne
      exact enqueued_quiet _ k data [] (hk ▸ hkne) ⟨rfl, rfl⟩
    · simp [submittedData, retiredData, Event.enqueuedAt, Event.retiredAt, hk]
  · rw [hc]
    simp only [Option.getD_some]
    refine registryInvariant_perm (List.perm_append_singleton f0 _).symm ?_
    refine registryInvariant_add h (fun f hf => hk ▸ hno f hf) (by simp [hops]) ?_ ?_
    · intro k hkne
      refine enqueued_quiet _ k data _ (hk ▸ hkne) ⟨?_, ?_⟩ <;>
        simp [submittedData, retiredData, Event.enqueuedAt, Event.retiredAt]
    · simp [submittedData, retiredData, Event.enqueuedAt, Event.retiredAt, hk, hops]

theorem tail_quiet (key k : FunctionKey) (evc tail : List Event) (data : Nat)
    (hev : CallEvents key data evc) (hk : k ≠ key)
    (ht : ∀ e ∈ tail, (∃ d, e = Event.retired key d) ∨ (∃ d, e = Event.startOperation key d)) :
    submittedData k (evc ++ tail) = [] ∧ retiredData k (evc ++ tail) = [] := by
  have hk' : ¬ key = k := fun h => hk h.symm
  rw [submittedData_append, retiredData_append, (callEvents_quiet hev k).1,
    (callEvents_quiet hev k).2.1]
  simp only [submittedData, retiredData, List.nil_append, List.filterMap_eq_nil_iff]
  constructor <;>
  · intro e he
    rcases ht e he with ⟨d, rfl⟩ | ⟨d, rfl⟩ <;> simp [Event.enqueuedAt, Event.retiredAt, hk']

theorem dispatch_invariant (sys : Sys) (functions functions1 : List FunctionEntry) (i : Nat)
    (f : FunctionEntry) (trace events events1 : List Event)
    (h : RegistryInvariant functions trace) (hf : functions[i]? = some f)
    (ha : AwaitEvents events)
    (hd : dispatch sys functions i = some (functions1, events1)) :
    RegistryInvariant functions1 (trace ++ (events ++ events1)) := by
  have hne := h.1 f (List.getElem?_mem hf)
  have h0 : RegistryInvariant functions (trace ++ events) :=
    registryInvariant_same h
      (fun k => ⟨(awaitEvents_quiet ha k).1, (awaitEvents_quiet ha k).2.1⟩)
  rw [← List.append_assoc]
  generalize trace ++ events = trace0 at h0
  have hp := perm_cons_eraseIdx _ i f hf
  cases hops : f.operations with
  | nil => exact absurd hops hne
  | cons op rest =>
    obtain ⟨evc, hev, hcases⟩ := dispatch_cases sys functions i f op rest hf hops
    rcases hcases with ⟨op', hop', hd'⟩ | ⟨x, xs, hrest, hd'⟩ | ⟨hrest, hd'⟩
    · rw [hd'] at hd
      simp only [Option.some.injEq, Prod.mk.injEq] at hd
      obtain ⟨rfl, rfl⟩ := hd
      refine registryInvariant_perm (List.perm_append_singleton _ _).symm ?_
      refine registryInvariant_update (registryInvariant_perm hp h0) rfl (by simp) ?_ ?_
      · intro k hk
        exact tail_quiet f.key k evc _ op.data hev hk (by simp)
      · rw [submittedData_append, retiredData_append, (callEvents_quiet hev f.key).1,
          (callEvents_quiet hev f.key).2.1]
        simp [submittedData, retiredData, Event.enqueuedAt, Event.retiredAt, hops, hop']
    · rw [hd'] at hd
      simp only [Option.some.injEq, Prod.mk.injEq] at hd
      obtain ⟨rfl, rfl⟩ := hd
      refine registryInvariant_perm (List.perm_append_singleton _ _).symm ?_
      refine registryInvariant_update (registryInvariant_perm hp h0) rfl (by simp [hrest]) ?_ ?_
      · intro k hk
        exact tail_quiet f.key k evc _ op.data hev hk (by simp)
      · rw [submittedData_append, retiredData_append, (callEvents_quiet hev f.key).1,
          (callEvents_quiet hev f.key).2.1]
        simp [submittedData, retiredData, Event.enqueuedAt, Event.retiredAt, hops]
    · rw [hd'] at hd
      simp only [Option.some.injEq, Prod.mk.injEq] at hd
      obtain ⟨rfl, rfl⟩ := hd
      refine registryInvariant_remove (registryInvariant_perm hp h0) ?_ ?_
      · intro k hk
        exact tail_quiet f.key k evc _ op.data hev hk (by simp)
      · rw [submittedData_append, retiredData_append, (callEvents_quiet hev f.key).1,
          (callEvents_quiet hev f.key).2.1]
        simp [submittedData, retiredData, Event.enqueuedAt, Event.retiredAt, hops, hrest]

/-! ## The alarm queue -/

theorem compareAlarmEntries_ne_zero (alarm1 alarm2 : AlarmEntry) :
    compareAlarmEntries alarm1 alarm2 ≠ 0 ↔ TimeVal.lt alarm1.time alarm2.time := by
  unfold compareAlarmEntries TimeVal.lt
  split_ifs with h1 h2 h3
  · simp; omega
  · simp; omega
  · simp; omega
  · simp; omega

theorem compareAlarmEntries_eq_zero (alarm1 alarm2 : AlarmEntry) :
    compareAlarmEntries alarm1 alarm2 = 0 ↔ TimeVal.le alarm2.time alarm1.time := by
  unfold compareAlarmEntries TimeVal.le
  split_ifs with h1 h2 h3
  · simp; omega
  · simp; omega
  · simp; omega
  · simp; omega

theorem timeVal_le_trans {t1 t2 t3 : TimeVal} (h12 : TimeVal.le t1 t2) (h23 : TimeVal.le t2 t3) :
    TimeVal.le t1 t3 := by
  unfold TimeVal.le at *
  omega

theorem timeVal_le_of_lt {t1 t2 : TimeVal} (h : TimeVal.lt t1 t2) : TimeVal.le t1 t2 := by
  unfold TimeVal.le TimeVal.lt at *
  omega

theorem enqueue_ordered (alarm : AlarmEntry) (alarms : List AlarmEntry)
    (h : AlarmsSorted alarms) :
    AlarmsSorted
      (alarms.takeWhile (fun queued => compareAlarmEntries alarm queued == 0) ++
        alarm :: alarms.drop
          (alarms.takeWhile (fun queued => compareAlarmEntries alarm queued == 0)).length) ∧
    ∀ x ∈ alarms.takeWhile (fun queued => compareAlarmEntries alarm queued == 0) ++
        alarm :: alarms.drop
          (alarms.takeWhile (fun queued => compareAlarmEntries alarm queued == 0)).length,
      x = alarm ∨ x ∈ alarms := by
  unfold AlarmsSorted at *
  induction alarms with
  | nil => simp
  | cons q qs ih =>
    rw [List.pairwise_cons] at h
    obtain ⟨ih1, ih2⟩ := ih h.2
    by_cases hc : compareAlarmEntries alarm q = 0
    · have hq : TimeVal.le q.time alarm.time := (compareAlarmEntries_eq_zero _ _).mp hc
      simp only [List.takeWhile_cons, hc, beq_self_eq_true, if_true, List.cons_append,
        List.length_cons, List.drop_succ_cons]
      constructor
      · rw [List.pairwise_cons]
        refine ⟨?_, ih1⟩
        intro x hx
        rcases ih2 x hx with rfl | hx
        · exact hq
        · exact h.1 x hx
      · intro x hx
        rcases List.mem_cons.mp hx with rfl | hx
        · exact Or.inr (List.mem_cons_self _ _)
        · rcases ih2 x hx with rfl | hx
          · exact Or.inl rfl
          · exact Or.inr (List.mem_cons_of_mem _ hx)
    · have hq : TimeVal.lt alarm.time q.time := (compareAlarmEntries_ne_zero _ _).mp hc
      have hb : (compareAlarmEntries alarm q == 0) = false := by simpa using hc
      simp only [List.takeWhile_cons, hb, Bool.false_eq_true, if_false, List.nil_append,
        List.length_nil, List.drop_zero]
      constructor
      · rw [List.pairwise_cons]
        refine ⟨?_, List.pairwise_cons.mpr h⟩
        intro x hx
        rcases List.mem_cons.mp hx with rfl | hx
        · exact timeVal_le_of_lt hq
        · exact timeVal_le_trans (timeVal_le_of_lt hq) (h.1 x hx)
      · intro x hx
        rcases List.mem_cons.mp hx with rfl | hx
        · exact Or.inl rfl
        · exact Or.inr hx

theorem asyncAbsoluteAlarm_cases (time : TimeVal) (callback data : Nat) (a : AlarmAlloc)
    (engine : Engine) (h : AlarmsSorted engine.alarmEntries) :
    (asyncAbsoluteAlarm time callback data a engine).1.functions = engine.functions ∧
    AlarmsSorted (asyncAbsoluteAlarm time callback data a engine).1.alarmEntries := by
  unfold asyncAbsoluteAlarm
  cases hq : getAlarmQueue true a.alarmQueue engine.alarms with
  | none => exact ⟨rfl, h⟩
  | some alarms =>
    have hal : alarms = engine.alarmEntries := by
      unfold Engine.alarmEntries
      cases hea : engine.alarms with
      | none =>
        rw [hea] at hq
        simp only [getAlarmQueue] at hq
        split_ifs at hq
        simp at hq
        simp [hq]
      | some q =>
        rw [hea] at hq
        simp [getAlarmQueue] at hq
        simp [hq]
    simp only []
    cases a.alarm with
    | false => exact ⟨rfl, by simpa [Engine.alarmEntries, hal] using h⟩
    | true =>
      cases a.alarmElement with
      | false => exact ⟨rfl, by simpa [Engine.alarmEntries, hal] using h⟩
      | true =>
        refine ⟨rfl, ?_⟩
        simp only [enqueueItem, if_true, Engine.alarmEntries, Option.getD_some]
        rw [hal]
        exact (enqueue_ordered _ _ h).1

/-! ## Runs -/

theorem createTransferOperation_eq (fd : Int) (m : MethodsRef) (direction : TransferDirectionUnion)
    (size : Nat) (buffer : Option (List Nat)) (data : Nat) (a : Alloc)
    (registry : Option (List FunctionEntry)) :
    createTransferOperation fd m direction size buffer data a registry = (registry, 0, []) ∨
    ∃ ext : TransferExtension, ext.length = 0 ∧ ext.size = size ∧ ext.direction = direction ∧
      createTransferOperation fd m direction size buffer data a registry =
        createOperation fd m ext data a registry := by
  unfold createTransferOperation
  cases a.extension with
  | false => left; rfl
  | true => right; exact ⟨_, rfl, rfl, rfl, rfl⟩

theorem createTransferOperation_invariant (fd : Int) (m : MethodsRef)
    (direction : TransferDirectionUnion) (size : Nat) (buffer : Option (List Nat)) (data : Nat)
    (a : Alloc) (registry : Option (List FunctionEntry)) (trace : List Event)
    (h : RegistryInvariant (registry.getD []) trace) :
    RegistryInvariant ((createTransferOperation fd m direction size buffer data a registry).1.getD [])
      (trace ++ (createTransferOperation fd m direction size buffer data a registry).2.2) := by
  rcases createTransferOperation_eq fd m direction size buffer data a registry with hc |
    ⟨ext, _, _, _, hc⟩
  · rw [hc]
    simpa using h
  · rw [hc]
    exact createOperation_invariant fd m ext data a registry trace h

theorem initial_invariant : EngineInvariant Engine.initial [] := by
  refine ⟨⟨?_, ?_, ?_, ?_⟩, ?_⟩ <;>
    simp [Engine.initial, Engine.entries, Engine.alarmEntries, submittedData, retiredData,
      AlarmsSorted]

theorem step_invariant (action : Action) (engine : Engine) (trace : List Event)
    (h : EngineInvariant engine trace) :
    ∃ engine1 events, step action engine = some (engine1, events) ∧
      EngineInvariant engine1 (trace ++ events) := by
  obtain ⟨hreg, hal⟩ := h
  cases action with
  | createOperation fd m ext data a =>
    exact ⟨_, _, rfl, createOperation_invariant fd m ext data a engine.functions trace hreg, hal⟩
  | asyncRead fd size callback data a =>
    exact ⟨_, _, rfl, createTransferOperation_invariant fd .read _ size none data a
      engine.functions trace hreg, hal⟩
  | asyncWrite fd buffer size callback data a =>
    exact ⟨_, _, rfl, createTransferOperation_invariant fd .write _ size buffer data a
      engine.functions trace hreg, hal⟩
  | asyncAbsoluteAlarm time callback data a =>
    obtain ⟨h1, h2⟩ := asyncAbsoluteAlarm_cases time callback data a engine hal
    refine ⟨_, _, rfl, ?_, h2⟩
    rw [List.append_nil]
    unfold Engine.entries
    rw [h1]
    exact hreg
  | iteration duration elapsed start env =>
    rcases asyncWaitIteration_cases duration elapsed start env engine hreg.1 with
      ⟨alarm, rest, ha, hit⟩ | ⟨events, hev, hit⟩ |
      ⟨i, f, functions1, events, events1, hf, hev, hd, hit⟩
    · refine ⟨_, _, hit, ?_, ?_⟩
      · refine registryInvariant_same hreg ?_
        intro k
        simp [submittedData, retiredData, Event.enqueuedAt, Event.retiredAt]
      · have : engine.alarmEntries = alarm :: rest := by simp [Engine.alarmEntries, ha]
        unfold AlarmsSorted at hal ⊢
        rw [this, List.pairwise_cons] at hal
        exact hal.2
    · exact ⟨_, _, hit, registryInvariant_same hreg
        (fun k => ⟨(awaitEvents_quiet hev k).1, (awaitEvents_quiet hev k).2.1⟩), hal⟩
    · exact ⟨_, _, hit, dispatch_invariant env.sys _ functions1 i f trace events events1 hreg hf
        hev hd, hal⟩

theorem run_invariant (actions : List Action) (engine : Engine) (trace : List Event)
    (h : EngineInvariant engine trace) :
    ∃ engine1 trace1, run engine trace actions = some (engine1, trace1) ∧
      EngineInvariant engine1 trace1 := by
  induction actions generalizing engine trace with
  | nil => exact ⟨engine, trace, rfl, h⟩
  | cons action actions ih =>
    obtain ⟨engine1, events, hs, hinv⟩ := step_invariant action engine trace h
    obtain ⟨engine2, trace2, hr, hinv2⟩ := ih engine1 (trace ++ events) hinv
    exact ⟨engine2, trace2, by simp [run, hs, hr], hinv2⟩

theorem reachable_invariant (actions : List Action) :
    ∃ engine trace, run Engine.initial [] actions = some (engine, trace) ∧
      EngineInvariant engine trace :=
  run_invariant actions Engine.initial [] initial_invariant

theorem createOperation_failure (fd : Int) (m : MethodsRef) (ext : TransferExtension)
    (data : Nat) (a : Alloc) (registry : Option (List FunctionEntry))
    (hinv : ∀ f ∈ registry.getD [], f.operations ≠ [])
    (hfail : (createOperation fd m ext data a registry).2.1 = 0) :
    ((createOperation fd m ext data a registry).1 = registry ∨
      (registry = none ∧ (createOperation fd m ext data a registry).1 = some [])) ∧
    (createOperation fd m ext data a registry).2.2 = [] := by
  rcases createOperation_cases_any fd m ext data a registry with ⟨_, h2, h3⟩ |
    ⟨i, f, hf, hk, hc⟩ | ⟨f0, _, _, _, hc⟩
  · refine ⟨?_, h2⟩
    rcases h3 with h3 | h3 | ⟨i, f, hf, hemp, _⟩
    · exact Or.inl h3
    · cases registry with
      | none => right; exact ⟨rfl, h3⟩
      | some q => left; exact h3
    · exact absurd hemp (hinv f (List.getElem?_mem hf))
  · rw [hc] at hfail
    simp at hfail
  · rw [hc] at hfail
    simp at hfail

theorem createTransferOperation_failure (fd : Int) (m : MethodsRef)
    (direction : TransferDirectionUnion) (size : Nat) (buffer : Option (List Nat)) (data : Nat)
    (a : Alloc) (registry : Option (List FunctionEntry))
    (hinv : ∀ f ∈ registry.getD [], f.operations ≠ [])
    (hfail : (createTransferOperation fd m direction size buffer data a registry).2.1 = 0) :
    (createTransferOperation fd m direction size buffer data a registry).1 = registry ∨
      (registry = none ∧
        (createTransferOperation fd m direction size buffer data a registry).1 = some []) := by
  rcases createTransferOperation_eq fd m direction size buffer data a registry with hc |
    ⟨ext, _, _, _, hc⟩
  · rw [hc]
    exact Or.inl rfl
  · rw [hc] at hfail ⊢
    exact (createOperation_failure fd m ext data a registry hinv hfail).1

theorem entries_of_unwound (engine : Engine) (functions : Option (List FunctionEntry))
    (h : functions = engine.functions ∨ (engine.functions = none ∧ functions = some [])) :
    functions.getD [] = engine.entries := by
  unfold Engine.entries
  rcases h with h | ⟨h1, h2⟩
  · rw [h]
  · rw [h1, h2]
    rfl

theorem callEvents_callback {key : FunctionKey} {data : Nat} {events : List Event}
    (h : CallEvents key data events) (k : FunctionKey) (d : Nat) (e : Event) (he : e ∈ events)
    (hc : Event.callbackAt k e = some d) : k = key ∧ d = data := by
  rcases h e he with rfl | ⟨r, rfl, hr⟩ | ⟨r, rfl, hr⟩
  · simp [Event.callbackAt] at hc
  · simp only [Event.callbackAt] at hc
    split_ifs at hc with hk
    simp at hc
    exact ⟨hk.symm, by rw [← hc, hr]⟩
  · simp only [Event.callbackAt] at hc
    split_ifs at hc with hk
    simp at hc
    exact ⟨hk.symm, by rw [← hc, hr]⟩

theorem dispatch_callbacks (sys : Sys) (functions functions1 : List FunctionEntry) (i : Nat)
    (f : FunctionEntry) (op : OperationEntry) (rest : List OperationEntry)
    (events1 : List Event) (hf : functions[i]? = some f) (hops : f.operations = op :: rest)
    (hd : dispatch sys functions i = some (functions1, events1)) :
    ∀ e ∈ events1, ∀ k d, Event.callbackAt k e = some d → k = f.key ∧ d = op.data := by
  obtain ⟨evc, hev, hcases⟩ := dispatch_cases sys functions i f op rest hf hops
  intro e he k d hc
  have key : ∀ tail : List Event, events1 = evc ++ tail →
      (∀ x ∈ tail, ∀ k d, Event.callbackAt k x ≠ some d) → k = f.key ∧ d = op.data := by
    intro tail htail hquiet
    rw [htail] at he
    rcases List.mem_append.mp he with he | he
    · exact callEvents_callback hev k d e he hc
    · exact absurd hc (hquiet e he k d)
  rcases hcases with ⟨op', _, hd'⟩ | ⟨x, xs, _, hd'⟩ | ⟨_, hd'⟩ <;>
  · rw [hd'] at hd
    simp only [Option.some.injEq, Prod.mk.injEq] at hd
    refine key _ hd.2.symm ?_
    intro x hx k d
    simp only [List.mem_cons, List.mem_singleton, List.not_mem_nil, or_false] at hx
    rcases hx with rfl | rfl <;> simp [Event.callbackAt]

theorem iteration_callbacks (duration elapsed : Int) (start : TimeVal) (env : IterEnv)
    (engine : Engine) (trace : List Event) (h : EngineInvariant engine trace) :
    ∃ engine1 events, asyncWaitIteration duration elapsed start env engine =
        some (engine1, events) ∧
      ∀ e ∈ events, ∀ key d, Event.callbackAt key e = some d →
        ∃ later, submittedData key trace = retiredData key trace ++ d :: later := by
  rcases asyncWaitIteration_cases duration elapsed start env engine h.1.1 with
    ⟨alarm, rest, ha, hit⟩ | ⟨events, hev, hit⟩ |
    ⟨i, f, functions1, events, events1, hf, hev, hd, hit⟩
  · refine ⟨_, _, hit, ?_⟩
    intro e he key d hc
    simp only [List.mem_singleton] at he
    subst he
    simp [Event.callbackAt] at hc
  · refine ⟨_, _, hit, ?_⟩
    intro e he key d hc
    rw [(awaitEvents_quiet hev key).2.2.2 e he] at hc
    cases hc
  · refine ⟨_, _, hit, ?_⟩
    intro e he key d hc
    rcases List.mem_append.mp he with he | he
    · rw [(awaitEvents_quiet hev key).2.2.2 e he] at hc
      cases hc
    · have hmem := List.getElem?_mem hf
      have hne := h.1.1 f hmem
      cases hops : f.operations with
      | nil => exact absurd hops hne
      | cons op rest =>
        obtain ⟨rfl, rfl⟩ := dispatch_callbacks env.sys _ functions1 i f op rest events1 hf hops hd
          e he key d hc
        refine ⟨rest.map (·.data), ?_⟩
        rw [h.1.2.2.1 f hmem, hops]
        rfl

theorem startedOperations_append (t1 t2 : List Event) :
    startedOperations (t1 ++ t2) = startedOperations t1 ++ startedOperations t2 := by
  simp [startedOperations]

theorem dispatch_starts (sys : Sys) (functions : List FunctionEntry) (i : Nat)
    (f : FunctionEntry) (op : OperationEntry) (rest : List OperationEntry)
    (hf : functions[i]? = some f) (hops : f.operations = op :: rest) :
    ∃ functions1 events, dispatch sys functions i = some (functions1, events) ∧
      ((retiredData f.key events = [] ∧ startedOperations events = [(f.key, op.data)]) ∨
        (retiredData f.key events = [op.data] ∧
          startedOperations events = (rest.head?.map (fun x => (f.key, x.data))).toList)) := by
  obtain ⟨evc, hev, hcases⟩ := dispatch_cases sys functions i f op rest hf hops
  have hq := callEvents_quiet hev f.key
  rcases hcases with ⟨op', _, hd⟩ | ⟨x, xs, hrest, hd⟩ | ⟨hrest, hd⟩
  · refine ⟨_, _, hd, Or.inl ⟨?_, ?_⟩⟩
    · rw [retiredData_append, hq.2.1]
      simp [retiredData, Event.retiredAt]
    · rw [startedOperations_append, hq.2.2]
      simp [startedOperations, Event.started]
  · refine ⟨_, _, hd, Or.inr ⟨?_, ?_⟩⟩
    · rw [retiredData_append, hq.2.1]
      simp [retiredData, Event.retiredAt]
    · rw [startedOperations_append, hq.2.2, hrest]
      simp [startedOperations, Event.started]
  · refine ⟨_, _, hd, Or.inr ⟨?_, ?_⟩⟩
    · rw [retiredData_append, hq.2.1]
      simp [retiredData, Event.retiredAt]
    · rw [startedOperations_append, hq.2.2, hrest]
      simp [startedOperations, Event.started]

theorem createOperation_starts (fd : Int) (m : MethodsRef) (ext : TransferExtension)
    (data : Nat) (a : Alloc) (registry : Option (List FunctionEntry))
    (hinv : ∀ f ∈ registry.getD [], f.operations ≠ []) :
    (((createOperation fd m ext data a registry).2.1 ≠ 0 ∧
        ∀ f ∈ registry.getD [], f.key ≠ ⟨fd, m⟩) →
      startedOperations (createOperation fd m ext data a registry).2.2 = [(⟨fd, m⟩, data)]) ∧
    (((createOperation fd m ext data a registry).2.1 = 0 ∨
        ∃ f ∈ registry.getD [], f.key = ⟨fd, m⟩) →
      startedOperations (createOperation fd m ext data a registry).2.2 = []) := by
  rcases createOperation_cases fd m ext data a registry hinv with ⟨h1, h2, _⟩ |
    ⟨i, f, hf, hk, hc⟩ | ⟨f0, _, hno, _, hc⟩
  · constructor
    · intro h
      exact absurd h1 h.1
    · intro _
      rw [h2]
      rfl
  · constructor
    · intro h
      exact absurd hk (h.2 f (List.getElem?_mem hf))
    · intro _
      rw [hc]
      rfl
  · constructor
    · intro _
      rw [hc]
      rfl
    · intro h
      rcases h with h | ⟨f, hf, hk⟩
      · rw [hc] at h
        simp at h
      · exact absurd hk (hno f hf)

theorem iteration_starts (duration elapsed : Int) (start : TimeVal) (env : IterEnv)
    (engine : Engine) (hinv : ∀ f ∈ engine.entries, f.operations ≠ []) :
    ∃ engine1 events, asyncWaitIteration duration elapsed start env engine =
        some (engine1, events) ∧
      (startedOperations events = [] ∨
        ∃ i f functions1 events1, engine.entries[i]? = some f ∧
          dispatch env.sys engine.entries i = some (functions1, events1) ∧
          startedOperations events = startedOperations events1) := by
  rcases asyncWaitIteration_cases duration elapsed start env engine hinv with
    ⟨alarm, rest, ha, hit⟩ | ⟨events, hev, hit⟩ |
    ⟨i, f, functions1, events, events1, hf, hev, hd, hit⟩
  · exact ⟨_, _, hit, Or.inl rfl⟩
  · exact ⟨_, _, hit, Or.inl (awaitEvents_quiet hev ⟨0, .read⟩).2.2.1⟩
  · refine ⟨_, _, hit, Or.inr ⟨i, f, functions1, events1, hf, hd, ?_⟩⟩
    rw [startedOperations_append, (awaitEvents_quiet hev ⟨0, .read⟩).2.2.1]
    rfl

theorem setUnixTransferResult_bound (errno : Int) (operation : OperationEntry) (count : Int)
    (hwf : operation.extension.length ≤ operation.extension.size)
    (hsize : operation.extension.size < SIZE_MODULUS) (hlo : -1 ≤ count)
    (hhi : count ≤ (operation.extension.size : Int) - operation.extension.length) :
    (setUnixTransferResult errno operation count).extension.length ≤
      (setUnixTransferResult errno operation count).extension.size := by
  unfold setUnixTransferResult
  simp only []
  split_ifs with h1 h2
  · exact hwf
  · exact hwf
  · simp only []
    have hnn : (0:Int) ≤ (operation.extension.length : Int) + count := by omega
    have hlt : (operation.extension.length : Int) + count < (SIZE_MODULUS : Int) := by
      have : ((operation.extension.size : Nat) : Int) < (SIZE_MODULUS : Int) := by
        exact_mod_cast hsize
      omega
    rw [Int.emod_eq_of_lt hnn hlt]
    omega

theorem invokeInputCallback_bound (function : FunctionEntry) (operation : OperationEntry)
    (hwf : operation.extension.length ≤ operation.extension.size)
    (hsize : operation.extension.size < SIZE_MODULUS)
    (hcb : ∀ callback, operation.extension.direction.inputCallback = some callback →
      callback (inputResult operation) ≤ operation.extension.length) :
    (invokeInputCallback function operation).1.extension.length ≤
      (invokeInputCallback function operation).1.extension.size := by
  rw [invokeInputCallback_operation]
  have hc : consumedCount operation ≤ operation.extension.length := by
    unfold consumedCount
    cases h : operation.extension.direction.inputCallback with
    | none => exact le_refl _
    | some callback => exact le_trans (Nat.mod_le _ _) (hcb callback h)
  simp only []
  split_ifs with h
  · simp only []
    rw [sizeSub_eq _ _ hc (by omega)]
    omega
  · exact hwf

theorem invokeOutputCallback_extension (function : FunctionEntry) (operation : OperationEntry) :
    (invokeOutputCallback function operation).1.extension = operation.extension := by
  unfold invokeOutputCallback
  simp only []
  split_ifs <;> rfl

/-! ## Relative alarms -/

theorem tdiv_tmod_thousand (a : Int) :
    a = 1000 * a.tdiv 1000 + a.tmod 1000 ∧
    (0 ≤ a → 0 ≤ a.tmod 1000 ∧ a.tmod 1000 < 1000) ∧
    (a < 0 → -1000 < a.tmod 1000 ∧ a.tmod 1000 ≤ 0) := by
  have hsum := Int.tdiv_add_tmod a 1000
  refine ⟨hsum.symm, ?_, ?_⟩
  · intro h
    exact ⟨Int.tmod_nonneg 1000 h, Int.tmod_lt_of_pos a (by decide)⟩
  · intro h
    have hq : a.tdiv 1000 = -((-a) / 1000) := by
      have h1 : (-(-a)).tdiv 1000 = -((-a).tdiv 1000) := Int.neg_tdiv (-a) 1000
      rw [Int.neg_neg] at h1
      rw [h1, Int.tdiv_eq_ediv (by omega) (by decide)]
    rw [hq] at hsum
    omega

theorem normalizeTime_of_nonneg (time : TimeVal) (h : 0 ≤ time.tv_usec) :
    normalizeTime time =
      { tv_sec := time.tv_sec + time.tv_usec / 1000000, tv_usec := time.tv_usec % 1000000 } := by
  unfold normalizeTime
  rw [Int.tdiv_eq_ediv h (by decide), Int.tmod_eq_emod h (by decide)]

/-! ## Timeouts and the order of the registry -/

theorem awaitTimeouts_append (e1 e2 : List Event) :
    awaitTimeouts (e1 ++ e2) = awaitTimeouts e1 ++ awaitTimeouts e2 := by
  simp [awaitTimeouts]

theorem awaitFunction_timeouts (timeout elapsed : Int) (poll : Option (List Int))
    (functions : Option (List FunctionEntry)) (found : Option Nat) (monitors : List MonitorEntry)
    (element : Option Nat) (events : List Event)
    (h : awaitFunction timeout elapsed poll functions found monitors = some (element, events)) :
    awaitTimeouts events = [] ∨ awaitTimeouts events = [toInt32 (timeout - elapsed)] := by
  unfold awaitFunction at h
  cases found with
  | some i =>
    simp only [Option.some.injEq, Prod.mk.injEq] at h
    left
    rw [← h.2]
    rfl
  | none =>
    simp only [] at h
    split_ifs at h with hr
    · split at h
      · cases h
      · simp only [Option.some.injEq, Prod.mk.injEq] at h
        right
        rw [← h.2]
        rfl
    · simp only [Option.some.injEq, Prod.mk.injEq] at h
      right
      rw [← h.2]
      rfl

theorem dispatch_timeouts (sys : Sys) (functions functions1 : List FunctionEntry) (i : Nat)
    (events : List Event) (hinv : ∀ f ∈ functions, f.operations ≠ [])
    (hd : dispatch sys functions i = some (functions1, events)) :
    awaitTimeouts events = [] := by
  have hi : i < functions.length := by
    rcases Nat.lt_or_ge i functions.length with h | h
    · exact h
    · unfold dispatch at hd
      rw [List.getElem?_eq_none h] at hd
      cases hd
  have hf : functions[i]? = some functions[i] := List.getElem?_eq_getElem hi
  cases hops : (functions[i]).operations with
  | nil => exact absurd hops (hinv _ (List.getElem?_mem hf))
  | cons op rest =>
    obtain ⟨evc, hev, hcases⟩ := dispatch_cases sys functions i _ op rest hf hops
    have hq : awaitTimeouts evc = [] := by
      simp only [awaitTimeouts, List.filterMap_eq_nil_iff]
      intro e he
      rcases hev e he with rfl | ⟨r, rfl, _⟩ | ⟨r, rfl, _⟩ <;> rfl
    rcases hcases with ⟨op', _, hd'⟩ | ⟨x, xs, _, hd'⟩ | ⟨_, hd'⟩ <;>
    · rw [hd'] at hd
      simp only [Option.some.injEq, Prod.mk.injEq] at hd
      rw [← hd.2, awaitTimeouts_append, hq]
      rfl

theorem awaitAndDispatch_timeouts (timeout elapsed : Int) (env : IterEnv) (engine engine1 : Engine)
    (events : List Event) (hinv : ∀ f ∈ engine.entries, f.operations ≠ [])
    (h : awaitAndDispatch timeout elapsed env engine = some (engine1, events)) :
    ∀ t ∈ awaitTimeouts events, t = toInt32 (timeout - elapsed) := by
  unfold awaitAndDispatch at h
  simp only [getFunctionQueue_false] at h
  split at h
  · cases h
  · rename_i functionElement monitors hm
    split at h
    · cases h
    · rename_i evs ha
      simp only [Option.some.injEq, Prod.mk.injEq] at h
      rw [← h.2]
      intro t ht
      rcases awaitFunction_timeouts _ _ _ _ _ _ _ _ ha with h0 | h0
      · rw [h0] at ht
        cases ht
      · rw [h0] at ht
        simpa using ht
    · rename_i element evs ha
      split at h
      · cases h
      · rename_i functions1 events1 hd
        simp only [Option.some.injEq, Prod.mk.injEq] at h
        rw [← h.2, awaitTimeouts_append, dispatch_timeouts _ _ _ _ _ hinv hd, List.append_nil]
        intro t ht
        rcases awaitFunction_timeouts _ _ _ _ _ _ _ _ ha with h0 | h0
        · rw [h0] at ht
          cases ht
        · rw [h0] at ht
          simpa using ht

theorem iteration_timeouts (duration elapsed : Int) (start : TimeVal) (env : IterEnv)
    (engine engine1 : Engine) (events : List Event)
    (hinv : ∀ f ∈ engine.entries, f.operations ≠ [])
    (h : asyncWaitIteration duration elapsed start env engine = some (engine1, events)) :
    ∀ t ∈ awaitTimeouts events,
      t = toInt32 (min duration (alarmHorizon duration start engine) - elapsed) ∧
      (elapsed < duration → 0 < min duration (alarmHorizon duration start engine) - elapsed) := by
  unfold asyncWaitIteration at h
  unfold alarmHorizon
  split at h
  · rename_i alarm rest ha
    split_ifs at h with h1 h2
    · simp only [Option.some.injEq, Prod.mk.injEq] at h
      rw [← h.2]
      intro t ht
      simp [awaitTimeouts] at ht
    · intro t ht
      have := awaitAndDispatch_timeouts _ _ _ _ _ _ hinv h t ht
      rw [min_eq_right (by omega)]
      exact ⟨this, fun _ => by omega⟩
    · intro t ht
      have := awaitAndDispatch_timeouts _ _ _ _ _ _ hinv h t ht
      rw [min_eq_left (by omega)]
      exact ⟨this, fun _ => by omega⟩
  · rename_i hno
    intro t ht
    have := awaitAndDispatch_timeouts _ _ _ _ _ _ hinv h t ht
    rw [min_self]
    exact ⟨this, fun _ => by omega⟩

theorem iteration_timeouts_exact (duration elapsed : Int) (start : TimeVal) (env : IterEnv)
    (engine engine1 : Engine) (events : List Event)
    (hinv : ∀ f ∈ engine.entries, f.operations ≠ [])
    (h : asyncWaitIteration duration elapsed start env engine = some (engine1, events))
    (hlow : -2147483648 ≤ min duration (alarmHorizon duration start engine) - elapsed)
    (hhigh : min duration (alarmHorizon duration start engine) - elapsed < 2147483648) :
    ∀ t ∈ awaitTimeouts events,
      t = min duration (alarmHorizon duration start engine) - elapsed ∧
      t ≤ duration - elapsed ∧ (elapsed < duration → 0 < t) := by
  intro t ht
  obtain ⟨ht1, ht2⟩ := iteration_timeouts duration elapsed start env engine engine1 events hinv h
    t ht
  rw [toInt32_of_range _ (by omega) (by omega)] at ht1
  have hmin := min_le_left duration (alarmHorizon duration start engine)
  refine ⟨ht1, by omega, fun hel => ?_⟩
  have := ht2 hel
  omega

theorem asyncWaitLoop_timeouts (duration : Int) (start : TimeVal) (turns : List Turn)
    (elapsed : Int) (engine : Engine) (trace : List Event) (hinv : EngineInvariant engine trace)
    (hel : elapsed < duration) (hfit : duration - elapsed < 2147483648)
    (hturns : ∀ turn ∈ turns, duration - turn.elapsedAfter < 2147483648) :
    ∃ engine1 events, asyncWaitLoop duration start elapsed turns engine = some (engine1, events) ∧
      ∀ t ∈ awaitTimeouts events, 0 < t := by
  induction turns generalizing elapsed engine trace with
  | nil => exact ⟨engine, [], rfl, by simp [awaitTimeouts]⟩
  | cons turn turns ih =>
    obtain ⟨engine1, events1, hs, hinv1⟩ :=
      step_invariant (.iteration duration elapsed start turn.env) engine trace hinv
    have hs' : asyncWaitIteration duration elapsed start turn.env engine =
        some (engine1, events1) := hs
    have hpos : ∀ t ∈ awaitTimeouts events1, 0 < t := by
      intro t ht
      obtain ⟨ht1, ht2⟩ := iteration_timeouts duration elapsed start turn.env engine engine1
        events1 hinv.1.1 hs' t ht
      have hmin := min_le_left duration (alarmHorizon duration start engine)
      have hv := ht2 hel
      rw [toInt32_of_range _ (by omega) (by omega)] at ht1
      omega
    by_cases hc : turn.elapsedAfter < duration
    · obtain ⟨engine2, events2, hl, hpos2⟩ := ih turn.elapsedAfter engine1 _ hinv1 hc
        (hturns turn (List.mem_cons_self _ _))
        (fun t ht => hturns t (List.mem_cons_of_mem _ ht))
      refine ⟨engine2, events1 ++ events2, by simp [asyncWaitLoop, hs', hc, hl], ?_⟩
      intro t ht
      rw [awaitTimeouts_append] at ht
      rcases List.mem_append.mp ht with ht | ht
      · exact hpos t ht
      · exact hpos2 t ht
    · exact ⟨engine1, events1, by simp [asyncWaitLoop, hs', hc], hpos⟩

/-! ## Reads and the end of the stream -/

theorem createOperation_members_methods (fd : Int) (m : MethodsRef) (ext : TransferExtension)
    (data : Nat) (a : Alloc) (registry : Option (List FunctionEntry)) :
    ∀ f ∈ (createOperation fd m ext data a registry).1.getD [], ∀ op ∈ f.operations,
      (∃ g ∈ registry.getD [], g.methods = f.methods ∧ op ∈ g.operations) ∨
        op = ⟨ext, data, false, 0⟩ := by
  intro f hf op hop
  rcases createOperation_cases_any fd m ext data a registry with ⟨_, _, h3⟩ |
    ⟨i, g, hg, hk, hc⟩ | ⟨f0, _, _, hops, hc⟩
  · rcases h3 with h3 | h3 | ⟨i, g, hg, _, h3⟩
    · rw [h3] at hf
      exact Or.inl ⟨f, hf, rfl, hop⟩
    · rw [h3] at hf
      exact Or.inl ⟨f, hf, rfl, hop⟩
    · rw [h3] at hf
      exact Or.inl ⟨f, List.mem_of_mem_eraseIdx hf, rfl, hop⟩
  · rw [hc] at hf
    simp only [Option.getD_some] at hf
    rcases List.mem_or_eq_of_mem_set hf with hf | rfl
    · exact Or.inl ⟨f, hf, rfl, hop⟩
    · simp only [List.mem_append, List.mem_singleton] at hop
      rcases hop with hop | rfl
      · exact Or.inl ⟨g, List.getElem?_mem hg, rfl, hop⟩
      · exact Or.inr rfl
  · rw [hc] at hf
    simp only [Option.getD_some, List.mem_append, List.mem_singleton] at hf
    rcases hf with hf | rfl
    · exact Or.inl ⟨f, hf, rfl, hop⟩
    · rw [hops] at hop
      simp only [List.mem_singleton] at hop
      exact Or.inr hop

theorem createOperation_keeps_reads (fd : Int) (m : MethodsRef) (ext : TransferExtension)
    (data : Nat) (a : Alloc) (registry : Option (List FunctionEntry))
    (hlen : ext.length = 0) (h : UnfinishedReadsEmpty (registry.getD [])) :
    UnfinishedReadsEmpty ((createOperation fd m ext data a registry).1.getD []) := by
  intro f hf op hop
  rcases createOperation_members_methods fd m ext data a registry f hf op hop with
    ⟨g, hg, hm, hmem⟩ | rfl
  · rw [← hm]
    exact h g hg op hmem
  · exact ⟨rfl, fun _ _ => hlen⟩

theorem setUnixTransferResult_finished (errno : Int) (operation : OperationEntry) (count : Int) :
    (setUnixTransferResult errno operation count).finished = true := by
  unfold setUnixTransferResult
  simp only []
  split_ifs <;> rfl

theorem invokeInputCallback_finished (function : FunctionEntry) (operation : OperationEntry) :
    (invokeInputCallback function operation).1.finished = operation.finished := by
  rw [invokeInputCallback_operation]

theorem dispatchHead_kept (sys : Sys) (f : FunctionEntry) (op : OperationEntry)
    (rest operations : List OperationEntry) (events : List Event)
    (hops : f.operations = op :: rest)
    (hd : dispatchHead sys f = some (operations, events)) :
    operations = rest ∨ ∃ op' : OperationEntry, operations = op' :: rest ∧ op'.error = 0 ∧
      (f.methods = .read → op'.finished = true) := by
  unfold dispatchHead at hd
  simp only [hops] at hd
  have hfin : f.methods = .read →
      (if (!op.finished) = true then finishOperation sys f op else (op, [])).1.finished
        = true := by
    intro hm
    cases hfo : op.finished <;>
      simp [hfo, finishOperation, hm, MethodsRef.deref, finishUnixRead,
        setUnixTransferResult_finished]
  generalize (if (!op.finished) = true then finishOperation sys f op else (op, [])) = fin
    at hd hfin
  cases hm : f.methods with
  | read =>
    simp only [hm, MethodsRef.deref] at hd
    split_ifs at hd with hr
    · right
      simp only [Option.some.injEq, Prod.mk.injEq] at hd
      refine ⟨_, hd.1.symm, rfl, fun _ => ?_⟩
      simp only [invokeInputCallback_finished]
      exact hfin hm
    · left
      simp only [Option.some.injEq, Prod.mk.injEq] at hd
      exact hd.1.symm
  | write =>
    simp only [hm, MethodsRef.deref] at hd
    split_ifs at hd with hr
    · right
      simp only [Option.some.injEq, Prod.mk.injEq] at hd
      exact ⟨_, hd.1.symm, rfl, fun h => by cases h⟩
    · left
      simp only [Option.some.injEq, Prod.mk.injEq] at hd
      exact hd.1.symm

theorem dispatch_keeps_reads (sys : Sys) (functions functions1 : List FunctionEntry) (i : Nat)
    (events : List Event) (h : UnfinishedReadsEmpty functions)
    (hd : dispatch sys functions i = some (functions1, events)) :
    UnfinishedReadsEmpty functions1 := by
  unfold dispatch at hd
  cases hf : functions[i]? with
  | none => simp [hf] at hd
  | some f =>
    simp only [hf] at hd
    cases hh : dispatchHead sys f with
    | none => simp [hh] at hd
    | some r =>
      obtain ⟨operations, events0⟩ := r
      simp only [hh] at hd
      have hfmem := List.getElem?_mem hf
      cases hfo : f.operations with
      | nil =>
        unfold dispatchHead at hh
        simp [hfo] at hh
      | cons op rest =>
        have hkept := dispatchHead_kept sys f op rest operations events0 hfo hh
        have hrest : ∀ x ∈ rest, x.error = 0 ∧
            (f.methods = .read → x.finished = false → x.extension.length = 0) := by
          intro x hx
          exact h f hfmem x (by rw [hfo]; exact List.mem_cons_of_mem _ hx)
        cases operations with
        | nil =>
          simp only [Option.some.injEq, Prod.mk.injEq] at hd
          rw [← hd.1]
          intro g hg
          exact h g (List.mem_of_mem_eraseIdx hg)
        | cons x xs =>
          simp only [startOperation_eq, requeueElement_set _ _ _ _ hf, Option.some.injEq,
            Prod.mk.injEq] at hd
          rw [← hd.1]
          intro g hg
          rcases List.mem_append.mp hg with hg | hg
          · exact h g (List.mem_of_mem_eraseIdx hg)
          · simp only [List.mem_singleton] at hg
            subst hg
            intro y hy
            simp only at hy ⊢
            rcases hkept with hk | ⟨op', hk, he, hfin⟩
            · rw [hk] at hy
              exact hrest y hy
            · rw [hk] at hy
              rcases List.mem_cons.mp hy with rfl | hy
              · refine ⟨he, fun hm hnot => ?_⟩
                rw [hfin hm] at hnot
                cases hnot
              · exact hrest y hy

theorem step_keeps_reads (action : Action) (engine engine1 : Engine) (events : List Event)
    (hfresh : Action.fresh action) (hne : ∀ f ∈ engine.entries, f.operations ≠ [])
    (h : UnfinishedReadsEmpty engine.entries)
    (hs : step action engine = some (engine1, events)) :
    UnfinishedReadsEmpty engine1.entries := by
  cases action with
  | createOperation fd m ext data a =>
    simp only [step, Option.some.injEq, Prod.mk.injEq] at hs
    rw [← hs.1]
    exact createOperation_keeps_reads fd m ext data a engine.functions hfresh h
  | asyncRead fd size callback data a =>
    simp only [step, Option.some.injEq, Prod.mk.injEq] at hs
    rw [← hs.1]
    rcases createTransferOperation_eq fd .read (.input callback false) size none data a
      engine.functions with hc | ⟨ext, hlen, _, _, hc⟩
    · simp only [asyncRead, createInputOperation, hc]
      exact h
    · simp only [asyncRead, createInputOperation, hc]
      exact createOperation_keeps_reads fd .read ext data a engine.functions hlen h
  | asyncWrite fd buffer size callback data a =>
    simp only [step, Option.some.injEq, Prod.mk.injEq] at hs
    rw [← hs.1]
    rcases createTransferOperation_eq fd .write (.output callback) size buffer data a
      engine.functions with hc | ⟨ext, hlen, _, _, hc⟩
    · simp only [asyncWrite, createOutputOperation, hc]
      exact h
    · simp only [asyncWrite, createOutputOperation, hc]
      exact createOperation_keeps_reads fd .write ext data a engine.functions hlen h
  | asyncAbsoluteAlarm time callback data a =>
    simp only [step, Option.some.injEq, Prod.mk.injEq] at hs
    rw [← hs.1]
    have hsame : (asyncAbsoluteAlarm time callback data a engine).1.functions =
        engine.functions := by
      unfold asyncAbsoluteAlarm
      cases getAlarmQueue true a.alarmQueue engine.alarms with
      | none => rfl
      | some alarms =>
        simp only []
        cases a.alarm with
        | false => rfl
        | true =>
          simp only [if_true]
          cases enqueueItem (some compareAlarmEntries) a.alarmElement alarms
            ⟨time, callback, data⟩ with
          | none => rfl
          | some r => rfl
    unfold Engine.entries at h ⊢
    rw [hsame]
    exact h
  | iteration duration elapsed start env =>
    have hs' : asyncWaitIteration duration elapsed start env engine = some (engine1, events) := hs
    rcases asyncWaitIteration_cases duration elapsed start env engine hne with
      ⟨alarm, rest, ha, hit⟩ | ⟨evs, hev, hit⟩ |
      ⟨i, f, functions1, evs, events1, hf, hev, hd, hit⟩
    · rw [hit] at hs'
      simp only [Option.some.injEq, Prod.mk.injEq] at hs'
      rw [← hs'.1]
      exact h
    · rw [hit] at hs'
      simp only [Option.some.injEq, Prod.mk.injEq] at hs'
      rw [← hs'.1]
      exact h
    · rw [hit] at hs'
      simp only [Option.some.injEq, Prod.mk.injEq] at hs'
      rw [← hs'.1]
      exact dispatch_keeps_reads env.sys _ functions1 i events1 h hd

theorem run_keeps_reads (actions : List Action) (engine : Engine) (trace : List Event)
    (hfresh : ∀ a ∈ actions, Action.fresh a) (hinv : EngineInvariant engine trace)
    (h : UnfinishedReadsEmpty engine.entries) :
    ∃ engine1 trace1, run engine trace actions = some (engine1, trace1) ∧
      EngineInvariant engine1 trace1 ∧ UnfinishedReadsEmpty engine1.entries := by
  induction actions generalizing engine trace with
  | nil => exact ⟨engine, trace, rfl, hinv, h⟩
  | cons action actions ih =>
    obtain ⟨engine1, events, hs, hinv1⟩ := step_invariant action engine trace hinv
    have h1 := step_keeps_reads action engine engine1 events
      (hfresh action (List.mem_cons_self _ _)) hinv.1.1 h hs
    obtain ⟨engine2, trace2, hr, hinv2, h2⟩ := ih engine1 (trace ++ events)
      (fun a ha => hfresh a (List.mem_cons_of_mem _ ha)) hinv1 h1
    exact ⟨engine2, trace2, by simp [run, hs, hr], hinv2, h2⟩

theorem finishUnixRead_end (sys : Sys) (f : FunctionEntry) (op : OperationEntry)
    (hres : sys.result = 0) :
    finishUnixRead sys f op =
      { op with
        extension := { op.extension with direction := op.extension.direction.setInputEnd }
        finished := true } := by
  unfold finishUnixRead setUnixTransferResult
  simp [hres, toInt32, storeBytes]

theorem dispatchHead_end_of_stream (sys : Sys) (f : FunctionEntry) (op : OperationEntry)
    (rest : List OperationEntry) (hm : f.methods = .read) (hops : f.operations = op :: rest)
    (hfin : op.finished = false) (herr : op.error = 0) (hlen : op.extension.length = 0)
    (hres : sys.result = 0)
    (hcb : ∀ callback, op.extension.direction.inputCallback = some callback →
      callback (inputResult (finishUnixRead sys f op)) ≤
        (finishUnixRead sys f op).extension.length) :
    dispatchHead sys f =
      some (rest, Event.finishOperation f.key op.data ::
        ((match op.extension.direction.inputCallback with
          | some _ => [Event.inputCallback f.key (inputResult (finishUnixRead sys f op))]
          | none => []) ++ [Event.retired f.key op.data])) ∧
    (inputResult (finishUnixRead sys f op)).length = 0 ∧
    (inputResult (finishUnixRead sys f op)).error = 0 ∧
    (∀ callback e, op.extension.direction = .input callback e →
      (inputResult (finishUnixRead sys f op)).end_ = true) := by
  have hE := finishUnixRead_end sys f op hres
  have hlenE : (finishUnixRead sys f op).extension.length = 0 := by rw [hE]; exact hlen
  have herrE : (finishUnixRead sys f op).error = 0 := by rw [hE]; exact herr
  have hcbE : (finishUnixRead sys f op).extension.direction.inputCallback =
      op.extension.direction.inputCallback := by
    rw [hE]
    cases op.extension.direction <;> rfl
  have hdataE : (finishUnixRead sys f op).data = op.data := by rw [hE]
  have hcount : consumedCount (finishUnixRead sys f op) = 0 := by
    unfold consumedCount
    rw [hcbE]
    cases hc : op.extension.direction.inputCallback with
    | none => exact hlenE
    | some callback =>
      have := hcb callback hc
      rw [hlenE] at this
      simp only []
      have h0 : callback (inputResult (finishUnixRead sys f op)) = 0 := by omega
      rw [h0]
      rfl
  have hop : (invokeInputCallback f (finishUnixRead sys f op)).1 = finishUnixRead sys f op := by
    rw [invokeInputCallback_operation, hcount]
    rfl
  have hres0 : (invokeInputCallback f (finishUnixRead sys f op)).2.1 = 0 := by
    rw [invokeInputCallback_result, hop, herrE]
    simp [hlenE]
  have hev : (invokeInputCallback f (finishUnixRead sys f op)).2.2 =
      (match op.extension.direction.inputCallback with
        | some _ => [Event.inputCallback f.key (inputResult (finishUnixRead sys f op))]
        | none => []) := by
    unfold invokeInputCallback
    simp only []
    rw [hcbE]
    split_ifs <;> rfl
  refine ⟨?_, ?_, ?_, ?_⟩
  · unfold dispatchHead
    simp only [hops, hm, MethodsRef.deref, hfin, Bool.not_false, if_true, finishOperation]
    simp only [hres0, hev, hop, hdataE]
    simp
  · exact hlenE
  · exact herrE
  · intro callback e hdir
    rw [hE]
    simp [inputResult, hdir, TransferDirectionUnion.setInputEnd, TransferDirectionUnion.inputEnd]

theorem inputCallback_some (direction : TransferDirectionUnion) (callback : InputCallback)
    (h : direction.inputCallback = some callback) : ∃ e, direction = .input (some callback) e := by
  cases direction with
  | input cb e =>
    simp only [TransferDirectionUnion.inputCallback] at h
    exact ⟨e, by rw [h]⟩
  | output cb => simp [TransferDirectionUnion.inputCallback] at h

theorem dispatch_end_of_stream (sys : Sys) (functions : List FunctionEntry) (i : Nat)
    (f : FunctionEntry) (op : OperationEntry) (rest : List OperationEntry)
    (hf : functions[i]? = some f) (hm : f.methods = .read) (hops : f.operations = op :: rest)
    (hfin : op.finished = false) (herr : op.error = 0) (hlen : op.extension.length = 0)
    (hres : sys.result = 0)
    (hcb : ∀ callback, op.extension.direction.inputCallback = some callback →
      callback (inputResult (finishUnixRead sys f op)) ≤
        (finishUnixRead sys f op).extension.length) :
    ∃ functions1 events, dispatch sys functions i = some (functions1, events) ∧
      retiredData f.key events = [op.data] ∧
      (∀ r, Event.inputCallback f.key r ∈ events →
        r.end_ = true ∧ r.error = 0 ∧ r.length = 0) ∧
      (∀ callback, op.extension.direction.inputCallback = some callback →
        Event.inputCallback f.key (inputResult (finishUnixRead sys f op)) ∈ events) ∧
      (rest = [] → functions1 = functions.eraseIdx i) ∧
      (rest ≠ [] → functions1 = functions.eraseIdx i ++ [{ f with operations := rest }]) := by
  obtain ⟨hd, h1, h2, h3⟩ := dispatchHead_end_of_stream sys f op rest hm hops hfin herr hlen hres hcb
  obtain ⟨calls, hd, hcalls, hin, hquiet⟩ : ∃ calls, dispatchHead sys f = some (rest,
      Event.finishOperation f.key op.data :: (calls ++ [Event.retired f.key op.data])) ∧
      (∀ r, Event.inputCallback f.key r ∈ calls → r.end_ = true ∧ r.error = 0 ∧ r.length = 0) ∧
      (∀ callback, op.extension.direction.inputCallback = some callback →
        Event.inputCallback f.key (inputResult (finishUnixRead sys f op)) ∈ calls) ∧
      (∀ e ∈ calls, Event.retiredAt f.key e = none) := by
    refine ⟨_, hd, ?_, ?_, ?_⟩
    · intro r hr
      cases hc : op.extension.direction.inputCallback with
      | none => simp [hc] at hr
      | some callback =>
        simp only [hc, List.mem_singleton, Event.inputCallback.injEq, true_and] at hr
        subst hr
        obtain ⟨e, hdir⟩ := inputCallback_some _ _ hc
        exact ⟨h3 _ e hdir, h2, h1⟩
    · intro callback hc
      simp [hc]
    · intro e he
      cases hc : op.extension.direction.inputCallback with
      | none => simp [hc] at he
      | some callback =>
        simp only [hc, List.mem_singleton] at he
        subst he
        rfl
  have hret : ∀ tail : List Event, (∀ e ∈ tail, Event.retiredAt f.key e = none) →
      (∀ e ∈ calls, Event.retiredAt f.key e = none) →
      retiredData f.key (Event.finishOperation f.key op.data ::
        (calls ++ [Event.retired f.key op.data]) ++ tail) = [op.data] := by
    intro tail htail hc
    have ht : List.filterMap (Event.retiredAt f.key) tail = [] :=
      List.filterMap_eq_nil_iff.mpr htail
    have hc' : List.filterMap (Event.retiredAt f.key) calls = [] :=
      List.filterMap_eq_nil_iff.mpr hc
    simp [retiredData, Event.retiredAt, ht, hc']
  cases rest with
  | nil =>
    refine ⟨functions.eraseIdx i,
      Event.finishOperation f.key op.data :: (calls ++ [Event.retired f.key op.data]),
      by simp only [dispatch, hf, hd, deleteElement], ?_, ?_, ?_,
      fun _ => rfl, fun h => absurd rfl h⟩
    · simpa using hret [] (by simp) hquiet
    · intro r hr
      simp at hr
      exact hcalls r hr
    · intro callback hc
      simp only [List.mem_cons, List.mem_append, List.mem_singleton]
      exact Or.inr (Or.inl (hin callback hc))
  | cons x xs =>
    refine ⟨functions.eraseIdx i ++ [({ f with operations := x :: xs } : FunctionEntry)],
      Event.finishOperation f.key op.data :: (calls ++ [Event.retired f.key op.data]) ++
        [Event.startOperation f.key x.data],
      by simp only [dispatch, hf, hd, startOperation_eq, requeueElement_set _ _ _ _ hf]; rfl,
      ?_, ?_, ?_, fun h => (by cases h), fun _ => rfl⟩
    · exact hret [Event.startOperation f.key x.data] (by simp [Event.retiredAt]) hquiet
    · intro r hr
      simp at hr
      exact hcalls r hr
    · intro callback hc
      simp only [List.mem_cons, List.mem_append, List.mem_singleton]
      exact Or.inl (Or.inr (Or.inl (hin callback hc)))

/-! ## Writes drained over several turns -/

theorem toInt32_hundred : toInt32 (100 - 0) = 100 := by decide

theorem writeTurn_single (count : Nat) (f : FunctionEntry) (op : OperationEntry)
    (rest : List OperationEntry) (hops : f.operations = op :: rest)
    (hfin : op.finished = false) :
    step (writeTurn count) ⟨some [f], none⟩ =
      (dispatch ⟨count, 0, []⟩ [f] 0).map
        (fun r => (⟨some r.1, none⟩, Event.awaitOperation 1 100 :: r.2)) := by
  simp only [step, writeTurn, asyncWaitIteration, awaitAndDispatch, getFunctionQueue_false,
    monitorFunctions, processQueue, addMonitor, hops, hfin]
  simp [awaitFunction, awaitOperation, setRevents, testMonitor, processQueue, findMonitor,
    initializeMonitor, toInt32_hundred]
  cases dispatch ⟨count, 0, []⟩ [f] 0 <;> rfl

theorem finishUnixWrite_progress (f : FunctionEntry) (callback : OutputCallback)
    (size length count : Nat) (buffer : List Nat) (data : Nat)
    (hint : count < 2147483648) (hpos : 0 < count) (hfit : length + count < SIZE_MODULUS) :
    finishUnixWrite ⟨count, 0, []⟩ f (writeOperation callback size length buffer data) =
      { writeOperation callback size (length + count) buffer data with finished := true } := by
  have ht : toInt32 (count : Int) = count :=
    toInt32_of_range _ (by omega) (by omega)
  have h1 : ((count : Nat) : Int) ≠ -1 := by omega
  have h2 : ((count : Nat) : Int) ≠ 0 := by omega
  have hmod : (((length : Int) + (count : Int)) % (SIZE_MODULUS : Int)).toNat = length + count := by
    have hnn : (0 : Int) ≤ (length : Int) + (count : Int) := by omega
    have hlt : (length : Int) + (count : Int) < (SIZE_MODULUS : Int) := by exact_mod_cast hfit
    rw [Int.emod_eq_of_lt hnn hlt]
    omega
  unfold finishUnixWrite setUnixTransferResult
  simp only [ht, h1, h2, if_false, writeOperation, hmod]

theorem dispatch_single_retire (sys : Sys) (f : FunctionEntry) (events : List Event)
    (h : dispatchHead sys f = some ([], events)) :
    dispatch sys [f] 0 = some ([], events) := by
  unfold dispatch
  simp only [List.getElem?_cons_zero, h]
  rfl

theorem dispatch_single_keep (sys : Sys) (f : FunctionEntry) (x : OperationEntry)
    (xs : List OperationEntry) (events : List Event)
    (h : dispatchHead sys f = some (x :: xs, events)) :
    dispatch sys [f] 0 =
      some ([{ f with operations := x :: xs }],
        events ++ [Event.startOperation f.key x.data]) := by
  unfold dispatch
  simp only [List.getElem?_cons_zero, h, startOperation_eq]
  rfl

theorem dispatch_write (fd events : Int) (callback : OutputCallback)
    (size length count : Nat) (buffer : List Nat) (data : Nat)
    (hint : count < 2147483648) (hpos : 0 < count) (hsize : size < SIZE_MODULUS)
    (hle : length + count ≤ size) :
    dispatch ⟨count, 0, []⟩ [⟨fd, .write, [writeOperation callback size length buffer data], events⟩] 0 =
      if length + count < size then
        some ([⟨fd, .write, [writeOperation callback size (length + count) buffer data], events⟩],
          [Event.finishOperation ⟨fd, .write⟩ data,
            Event.outputCallback ⟨fd, .write⟩ ⟨data, buffer, size, 0, length + count⟩,
            Event.startOperation ⟨fd, .write⟩ data])
      else
        some ([],
          [Event.finishOperation ⟨fd, .write⟩ data,
            Event.outputCallback ⟨fd, .write⟩ ⟨data, buffer, size, 0, length + count⟩,
            Event.retired ⟨fd, .write⟩ data]) := by
  have hfinish := finishUnixWrite_progress
    ⟨fd, .write, [writeOperation callback size length buffer data], events⟩ callback size length
    count buffer data hint hpos (by omega)
  have hhead : dispatchHead ⟨count, 0, []⟩
      ⟨fd, .write, [writeOperation callback size length buffer data], events⟩ =
      if length + count < size then
        some ([writeOperation callback size (length + count) buffer data],
          [Event.finishOperation ⟨fd, .write⟩ data,
            Event.outputCallback ⟨fd, .write⟩ ⟨data, buffer, size, 0, length + count⟩])
      else
        some ([],
          [Event.finishOperation ⟨fd, .write⟩ data,
            Event.outputCallback ⟨fd, .write⟩ ⟨data, buffer, size, 0, length + count⟩,
            Event.retired ⟨fd, .write⟩ data]) := by
    rw [dispatchHead_write]
    simp only [finishOperation, MethodsRef.deref]
    have hf0 : (writeOperation callback size length buffer data).finished = false := rfl
    simp only [hf0, Bool.not_false, if_true, hfinish]
    by_cases hlt : length + count < size
    · simp [hlt, invokeOutputCallback, writeOperation, TransferDirectionUnion.outputCallback,
        outputResult, FunctionEntry.key]
    · simp [hlt, invokeOutputCallback, writeOperation, TransferDirectionUnion.outputCallback,
        outputResult, FunctionEntry.key]
  by_cases hlt : length + count < size
  · rw [if_pos hlt] at hhead ⊢
    exact dispatch_single_keep _ _ _ _ _ hhead
  · rw [if_neg hlt] at hhead ⊢
    exact dispatch_single_retire _ _ _ hhead

theorem submit_write_initial (fd : Int) (buffer : List Nat) (size : Nat)
    (callback : OutputCallback) (data : Nat) :
    ∃ stored,
    step (.asyncWrite fd (some buffer) size (some callback) data allAllocated) Engine.initial =
      some (⟨some [⟨fd, .write, [writeOperation callback size 0 stored data], 4⟩], none⟩,
        [Event.enqueued ⟨fd, .write⟩ data, Event.startOperation ⟨fd, .write⟩ data]) := by
  refine ⟨buffer.take size ++ (List.replicate size 0).drop (min size buffer.length), ?_⟩
  simp [step, asyncWrite, createOutputOperation, createTransferOperation, allAllocated,
    Engine.initial, createOperation, getFunctionElement, getFunctionQueue, writeOperation,
    startOperation_eq, processQueue, enqueueItem, MethodsRef.deref, FunctionEntry.key, beginUnixOutputFunction]

theorem partialSums_getLast (counts : List Nat) :
    ∀ total, counts ≠ [] → (partialSums total counts).getLast? = some (total + counts.sum) := by
  induction counts with
  | nil => intro total h; exact absurd rfl h
  | cons c cs ih =>
    intro total _
    cases cs with
    | nil => simp [partialSums]
    | cons d ds =>
      have := ih (total + c) (by simp)
      simp only [partialSums, List.sum_cons] at this ⊢
      rw [List.getLast?_cons_cons, this]
      congr 1
      omega

theorem partialSums_length (counts : List Nat) :
    ∀ total, (partialSums total counts).length = counts.length := by
  induction counts with
  | nil => intro total; rfl
  | cons c cs ih => intro total; simp [partialSums, ih]

theorem run_writeTurn (count : Nat) (f : FunctionEntry) (op : OperationEntry)
    (rest : List OperationEntry) (hops : f.operations = op :: rest)
    (hfin : op.finished = false) (trace : List Event) (actions : List Action)
    (entries : List FunctionEntry) (events : List Event)
    (hd : dispatch ⟨count, 0, []⟩ [f] 0 = some (entries, events)) :
    run ⟨some [f], none⟩ trace (writeTurn count :: actions) =
      run ⟨some entries, none⟩ (trace ++ Event.awaitOperation 1 100 :: events) actions := by
  simp only [run, writeTurn_single count f op rest hops hfin, hd, Option.map_some']

theorem write_drain (fd events : Int) (callback : OutputCallback) (size : Nat)
    (buffer : List Nat) (data : Nat) (hsize : size < SIZE_MODULUS) (counts : List Nat) :
    ∀ (length : Nat) (trace : List Event), counts ≠ [] →
      (∀ count ∈ counts, 0 < count ∧ count < 2147483648) → length + counts.sum = size →
      ∃ calls, run ⟨some [⟨fd, .write, [writeOperation callback size length buffer data], events⟩],
            none⟩ trace (counts.map writeTurn) = some (⟨some [], none⟩, trace ++ calls) ∧
        outputCalls ⟨fd, .write⟩ calls =
          (partialSums length counts).map (fun total => ⟨data, buffer, size, 0, total⟩) ∧
        retiredData ⟨fd, .write⟩ calls = [data] := by
  induction counts with
  | nil => intro _ _ h; exact absurd rfl h
  | cons count counts ih =>
    intro length trace _ hcounts hsum
    have hc := hcounts count (List.mem_cons_self _ _)
    simp only [List.sum_cons] at hsum
    have hd := dispatch_write fd events callback size length count buffer data hc.2 hc.1 hsize
      (by omega)
    cases counts with
    | nil =>
      simp only [List.sum_nil, Nat.add_zero] at hsum
      rw [if_neg (by omega)] at hd
      refine ⟨Event.awaitOperation 1 100 ::
          [Event.finishOperation ⟨fd, .write⟩ data,
            Event.outputCallback ⟨fd, .write⟩ ⟨data, buffer, size, 0, length + count⟩,
            Event.retired ⟨fd, .write⟩ data], ?_, ?_, ?_⟩
      · simp only [List.map_cons, List.map_nil]
        rw [run_writeTurn count _ _ [] rfl rfl trace [] _ _ hd]
        rfl
      · simp [outputCalls, Event.outputAt, partialSums]
      · simp [retiredData, Event.retiredAt]
    | cons next more =>
      have hn := hcounts next (by simp)
      have hlt : length + count < size := by
        simp only [List.sum_cons] at hsum
        omega
      rw [if_pos hlt] at hd
      obtain ⟨calls, hrun, hout, hret⟩ := ih (length + count)
        (trace ++ Event.awaitOperation 1 100 ::
          [Event.finishOperation ⟨fd, .write⟩ data,
            Event.outputCallback ⟨fd, .write⟩ ⟨data, buffer, size, 0, length + count⟩,
            Event.startOperation ⟨fd, .write⟩ data]) (by simp)
        (fun c h => hcounts c (List.mem_cons_of_mem _ h)) (by omega)
      refine ⟨Event.awaitOperation 1 100 ::
          [Event.finishOperation ⟨fd, .write⟩ data,
            Event.outputCallback ⟨fd, .write⟩ ⟨data, buffer, size, 0, length + count⟩,
            Event.startOperation ⟨fd, .write⟩ data] ++ calls, ?_, ?_, ?_⟩
      · rw [List.map_cons, run_writeTurn count _ _ [] rfl rfl trace _ _ _ hd, hrun]
        simp
      · have : outputCalls ⟨fd, .write⟩ (Event.awaitOperation 1 100 ::
            [Event.finishOperation ⟨fd, .write⟩ data,
              Event.outputCallback ⟨fd, .write⟩ ⟨data, buffer, size, 0, length + count⟩,
              Event.startOperation ⟨fd, .write⟩ data] ++ calls) =
            ⟨data, buffer, size, 0, length + count⟩ :: outputCalls ⟨fd, .write⟩ calls := by
          simp [outputCalls, Event.outputAt]
        rw [this, hout]
        rfl
      · have : retiredData ⟨fd, .write⟩ (Event.awaitOperation 1 100 ::
            [Event.finishOperation ⟨fd, .write⟩ data,
              Event.outputCallback ⟨fd, .write⟩ ⟨data, buffer, size, 0, length + count⟩,
              Event.startOperation ⟨fd, .write⟩ data] ++ calls) =
            retiredData ⟨fd, .write⟩ calls := by
          simp [retiredData, Event.retiredAt]
        rw [this, hret]

/-- A write of `size` bytes submitted to the idle engine and drained by turns
of the loop that write `counts` is called back once in each turn and retired
in the last one. -/
theorem single_write_drained (fd : Int) (buffer : List Nat) (size : Nat)
    (callback : OutputCallback) (data : Nat) (counts : List Nat)
    (hsize : size < SIZE_MODULUS) (hne : counts ≠ [])
    (hcounts : ∀ count ∈ counts, 0 < count ∧ count < 2147483648)
    (hsum : counts.sum = size) :
    ∃ trace,
      run Engine.initial []
        (.asyncWrite fd (some buffer) size (some callback) data allAllocated ::
          counts.map writeTurn) = some (⟨some [], none⟩, trace) ∧
      (outputCalls ⟨fd, .write⟩ trace).map (fun r => (r.count, r.error)) =
        (partialSums 0 counts).map (fun total => (total, 0)) ∧
      (outputCalls ⟨fd, .write⟩ trace).length = counts.length ∧
      ((outputCalls ⟨fd, .write⟩ trace).getLast?).map (fun r => r.count) = some size ∧
      retiredData ⟨fd, .write⟩ trace = [data] := by
  obtain ⟨stored, hstep⟩ := submit_write_initial fd buffer size callback data
  obtain ⟨calls, hrun, hout, hret⟩ := write_drain fd 4 callback size stored data hsize counts 0
    ([] ++ [Event.enqueued ⟨fd, .write⟩ data, Event.startOperation ⟨fd, .write⟩ data]) hne
    hcounts (by omega)
  have hcalls : outputCalls ⟨fd, .write⟩
      ([] ++ [Event.enqueued ⟨fd, .write⟩ data, Event.startOperation ⟨fd, .write⟩ data] ++ calls) =
      (partialSums 0 counts).map (fun total => ⟨data, stored, size, 0, total⟩) := by
    rw [← hout]
    simp [outputCalls, Event.outputAt]
  refine ⟨[] ++ [Event.enqueued ⟨fd, .write⟩ data, Event.startOperation ⟨fd, .write⟩ data] ++
    calls, ?_, ?_, ?_, ?_, ?_⟩
  · simp only [run, hstep]
    exact hrun
  · rw [hcalls, List.map_map]
    rfl
  · rw [hcalls, List.length_map, partialSums_length]
  · rw [hcalls, List.getLast?_map, partialSums_getLast counts 0 hne, hsum]
    simp
  · rw [← hret]
    simp [retiredData, Event.retiredAt]

/-! ## Writes in any registry -/

theorem createOperation_keeps_writes (fd : Int) (m : MethodsRef) (ext : TransferExtension)
    (data : Nat) (a : Alloc) (registry : Option (List FunctionEntry))
    (h : WritesUnfinished (registry.getD [])) :
    WritesUnfinished ((createOperation fd m ext data a registry).1.getD []) := by
  intro f hf hm op hop
  rcases createOperation_members_methods fd m ext data a registry f hf op hop with
    ⟨g, hg, hgm, hmem⟩ | rfl
  · exact h g hg (hgm.trans hm) op hmem
  · exact ⟨rfl, rfl⟩

theorem dispatchHead_kept_write (sys : Sys) (f : FunctionEntry) (op : OperationEntry)
    (rest operations : List OperationEntry) (events : List Event)
    (hm : f.methods = .write) (hops : f.operations = op :: rest)
    (hd : dispatchHead sys f = some (operations, events)) :
    operations = rest ∨ ∃ op' : OperationEntry, operations = op' :: rest ∧ op'.error = 0 ∧
      op'.finished = false := by
  unfold dispatchHead at hd
  simp only [hops, hm, MethodsRef.deref] at hd
  generalize (if (!op.finished) = true then finishOperation sys f op else (op, [])) = fin at hd
  split_ifs at hd with hr
  · right
    simp only [Option.some.injEq, Prod.mk.injEq] at hd
    refine ⟨_, hd.1.symm, rfl, ?_⟩
    unfold invokeOutputCallback at hr ⊢
    simp only [] at hr ⊢
    split_ifs at hr ⊢ <;> first | rfl | (simp at hr)
  · left
    simp only [Option.some.injEq, Prod.mk.injEq] at hd
    exact hd.1.symm

theorem dispatch_keeps_writes (sys : Sys) (functions functions1 : List FunctionEntry) (i : Nat)
    (events : List Event) (h : WritesUnfinished functions)
    (hd : dispatch sys functions i = some (functions1, events)) :
    WritesUnfinished functions1 := by
  unfold dispatch at hd
  cases hf : functions[i]? with
  | none => simp [hf] at hd
  | some f =>
    simp only [hf] at hd
    cases hh : dispatchHead sys f with
    | none => simp [hh] at hd
    | some r =>
      obtain ⟨operations, events0⟩ := r
      simp only [hh] at hd
      have hfmem := List.getElem?_mem hf
      cases hfo : f.operations with
      | nil =>
        unfold dispatchHead at hh
        simp [hfo] at hh
      | cons op rest =>
        cases operations with
        | nil =>
          simp only [Option.some.injEq, Prod.mk.injEq] at hd
          rw [← hd.1]
          intro g hg
          exact h g (List.mem_of_mem_eraseIdx hg)
        | cons x xs =>
          simp only [startOperation_eq, requeueElement_set _ _ _ _ hf, Option.some.injEq,
            Prod.mk.injEq] at hd
          rw [← hd.1]
          intro g hg
          rcases List.mem_append.mp hg with hg | hg
          · exact h g (List.mem_of_mem_eraseIdx hg)
          · simp only [List.mem_singleton] at hg
            subst hg
            intro hm y hy
            simp only at hm hy ⊢
            have hrest : ∀ z ∈ rest, z.finished = false ∧ z.error = 0 := by
              intro z hz
              exact h f hfmem hm z (by rw [hfo]; exact List.mem_cons_of_mem _ hz)
            rcases dispatchHead_kept_write sys f op rest (x :: xs) events0 hm hfo hh with
              hk | ⟨op', hk, he, hfin⟩
            · rw [hk] at hy
              exact hrest y hy
            · rw [hk] at hy
              rcases List.mem_cons.mp hy with rfl | hy
              · exact ⟨hfin, he⟩
              · exact hrest y hy

theorem step_keeps_writes (action : Action) (engine engine1 : Engine) (events : List Event)
    (hne : ∀ f ∈ engine.entries, f.operations ≠ [])
    (h : WritesUnfinished engine.entries)
    (hs : step action engine = some (engine1, events)) :
    WritesUnfinished engine1.entries := by
  cases action with
  | createOperation fd m ext data a =>
    simp only [step, Option.some.injEq, Prod.mk.injEq] at hs
    rw [← hs.1]
    exact createOperation_keeps_writes fd m ext data a engine.functions h
  | asyncRead fd size callback data a =>
    simp only [step, Option.some.injEq, Prod.mk.injEq] at hs
    rw [← hs.1]
    rcases createTransferOperation_eq fd .read (.input callback false) size none data a
      engine.functions with hc | ⟨ext, hlen, _, _, hc⟩
    · simp only [asyncRead, createInputOperation, hc]
      exact h
    · simp only [asyncRead, createInputOperation, hc]
      exact createOperation_keeps_writes fd .read ext data a engine.functions h
  | asyncWrite fd buffer size callback data a =>
    simp only [step, Option.some.injEq, Prod.mk.injEq] at hs
    rw [← hs.1]
    rcases createTransferOperation_eq fd .write (.output callback) size buffer data a
      engine.functions with hc | ⟨ext, hlen, _, _, hc⟩
    · simp only [asyncWrite, createOutputOperation, hc]
      exact h
    · simp only [asyncWrite, createOutputOperation, hc]
      exact createOperation_keeps_writes fd .write ext data a engine.functions h
  | asyncAbsoluteAlarm time callback data a =>
    simp only [step, Option.some.injEq, Prod.mk.injEq] at hs
    rw [← hs.1]
    have hsame : (asyncAbsoluteAlarm time callback data a engine).1.functions =
        engine.functions := by
      unfold asyncAbsoluteAlarm
      cases getAlarmQueue true a.alarmQueue engine.alarms with
      | none => rfl
      | some alarms =>
        simp only []
        cases a.alarm with
        | false => rfl
        | true =>
          simp only [if_true]
          cases enqueueItem (some compareAlarmEntries) a.alarmElement alarms
            ⟨time, callback, data⟩ with
          | none => rfl
          | some r => rfl
    unfold Engine.entries at h ⊢
    rw [hsame]
    exact h
  | iteration duration elapsed start env =>
    have hs' : asyncWaitIteration duration elapsed start env engine = some (engine1, events) := hs
    rcases asyncWaitIteration_cases duration elapsed start env engine hne with
      ⟨alarm, rest, ha, hit⟩ | ⟨evs, hev, hit⟩ |
      ⟨i, f, functions1, evs, events1, hf, hev, hd, hit⟩
    · rw [hit] at hs'
      simp only [Option.some.injEq, Prod.mk.injEq] at hs'
      rw [← hs'.1]
      exact h
    · rw [hit] at hs'
      simp only [Option.some.injEq, Prod.mk.injEq] at hs'
      rw [← hs'.1]
      exact h
    · rw [hit] at hs'
      simp only [Option.some.injEq, Prod.mk.injEq] at hs'
      rw [← hs'.1]
      exact dispatch_keeps_writes env.sys _ functions1 i events1 h hd

theorem run_keeps_writes (actions : List Action) (engine : Engine) (trace : List Event)
    (hinv : EngineInvariant engine trace) (h : WritesUnfinished engine.entries) :
    ∃ engine1 trace1, run engine trace actions = some (engine1, trace1) ∧
      EngineInvariant engine1 trace1 ∧ WritesUnfinished engine1.entries := by
  induction actions generalizing engine trace with
  | nil => exact ⟨engine, trace, rfl, hinv, h⟩
  | cons action actions ih =>
    obtain ⟨engine1, events, hs, hinv1⟩ := step_invariant action engine trace hinv
    have h1 := step_keeps_writes action engine engine1 events hinv.1.1 h hs
    obtain ⟨engine2, trace2, hr, hinv2, h2⟩ := ih engine1 (trace ++ events) hinv1 h1
    exact ⟨engine2, trace2, by simp [run, hs, hr], hinv2, h2⟩

theorem finishUnixWrite_count (f : FunctionEntry) (op : OperationEntry) (count : Nat)
    (hint : count < 2147483648) (hpos : 0 < count)
    (hfit : op.extension.length + count < SIZE_MODULUS) :
    finishUnixWrite ⟨count, 0, []⟩ f op = { op.advanced count with finished := true } := by
  have ht : toInt32 (count : Int) = count :=
    toInt32_of_range _ (by omega) (by omega)
  have h1 : ((count : Nat) : Int) ≠ -1 := by omega
  have h2 : ((count : Nat) : Int) ≠ 0 := by omega
  have hmod : (((op.extension.length : Int) + (count : Int)) % (SIZE_MODULUS : Int)).toNat =
      op.extension.length + count := by
    have hnn : (0 : Int) ≤ (op.extension.length : Int) + (count : Int) := by omega
    have hlt : (op.extension.length : Int) + (count : Int) < (SIZE_MODULUS : Int) := by
      exact_mod_cast hfit
    rw [Int.emod_eq_of_lt hnn hlt]
    omega
  unfold finishUnixWrite setUnixTransferResult
  simp only [ht, h1, h2, if_false, hmod, OperationEntry.advanced]

theorem dispatchHead_write_count (f : FunctionEntry) (op : OperationEntry)
    (rest : List OperationEntry) (callback : OutputCallback) (count : Nat)
    (hm : f.methods = .write) (hops : f.operations = op :: rest)
    (hfin : op.finished = false) (herr : op.error = 0)
    (hcb : op.extension.direction.outputCallback = some callback)
    (hsize : op.extension.size < SIZE_MODULUS)
    (hint : count < 2147483648) (hpos : 0 < count)
    (hle : op.extension.length + count ≤ op.extension.size) :
    dispatchHead ⟨count, 0, []⟩ f =
      if op.extension.length + count < op.extension.size then
        some (op.advanced count :: rest,
          [Event.finishOperation f.key op.data,
            Event.outputCallback f.key ⟨op.data, op.extension.buffer, op.extension.size, 0,
              op.extension.length + count⟩])
      else
        some (rest,
          [Event.finishOperation f.key op.data,
            Event.outputCallback f.key ⟨op.data, op.extension.buffer, op.extension.size, 0,
              op.extension.length + count⟩,
            Event.retired f.key op.data]) := by
  have hfinish := finishUnixWrite_count f op count hint hpos (by omega)
  unfold dispatchHead
  simp only [hops, hm, MethodsRef.deref, hfin, Bool.not_false, if_true, finishOperation, hfinish]
  by_cases hlt : op.extension.length + count < op.extension.size
  · simp [hlt, invokeOutputCallback, OperationEntry.advanced, hcb, herr, hfin, outputResult]
  · simp [hlt, invokeOutputCallback, OperationEntry.advanced, hcb, herr, hfin, outputResult]

theorem dispatch_write_kept (functions : List FunctionEntry) (i : Nat) (f : FunctionEntry)
    (op : OperationEntry) (rest : List OperationEntry) (callback : OutputCallback) (count : Nat)
    (hf : functions[i]? = some f)
    (hm : f.methods = .write) (hops : f.operations = op :: rest)
    (hfin : op.finished = false) (herr : op.error = 0)
    (hcb : op.extension.direction.outputCallback = some callback)
    (hsize : op.extension.size < SIZE_MODULUS)
    (hint : count < 2147483648) (hpos : 0 < count)
    (hlt : op.extension.length + count < op.extension.size) :
    ∃ events,
      dispatch (accepted count) functions i =
        some (functions.eraseIdx i ++ [{ f with operations := op.advanced count :: rest }],
          events) ∧
      outputCalls f.key events =
        [⟨op.data, op.extension.buffer, op.extension.size, 0, op.extension.length + count⟩] ∧
      retiredData f.key events = [] := by
  have hhead := dispatchHead_write_count f op rest callback count hm hops hfin herr hcb hsize
    hint hpos (by omega)
  rw [if_pos hlt] at hhead
  refine ⟨[Event.finishOperation f.key op.data, Event.outputCallback f.key
      ⟨op.data, op.extension.buffer, op.extension.size, 0, op.extension.length + count⟩] ++
    [Event.startOperation f.key op.data], ?_, ?_, ?_⟩
  rotate_left
  · simp [outputCalls, Event.outputAt]
  · simp [retiredData, Event.retiredAt]
  · simp only [dispatch, accepted, hf, hhead, startOperation_eq, requeueElement_set _ _ _ _ hf]
    rfl

theorem dispatch_write_retired (functions : List FunctionEntry) (i : Nat) (f : FunctionEntry)
    (op : OperationEntry) (rest : List OperationEntry) (callback : OutputCallback) (count : Nat)
    (hf : functions[i]? = some f)
    (hm : f.methods = .write) (hops : f.operations = op :: rest)
    (hfin : op.finished = false) (herr : op.error = 0)
    (hcb : op.extension.direction.outputCallback = some callback)
    (hsize : op.extension.size < SIZE_MODULUS)
    (hint : count < 2147483648) (hpos : 0 < count)
    (heq : op.extension.length + count = op.extension.size) :
    ∃ events,
      dispatch (accepted count) functions i =
        some (functions.eraseIdx i ++ f.remaining rest, events) ∧
      outputCalls f.key events =
        [⟨op.data, op.extension.buffer, op.extension.size, 0, op.extension.size⟩] ∧
      retiredData f.key events = [op.data] := by
  have hhead := dispatchHead_write_count f op rest callback count hm hops hfin herr hcb hsize
    hint hpos (by omega)
  rw [if_neg (by omega), heq] at hhead
  cases rest with
  | nil =>
    refine ⟨[Event.finishOperation f.key op.data, Event.outputCallback f.key
        ⟨op.data, op.extension.buffer, op.extension.size, 0, op.extension.size⟩,
      Event.retired f.key op.data], ?_, ?_, ?_⟩
    rotate_left
    · simp [outputCalls, Event.outputAt]
    · simp [retiredData, Event.retiredAt]
    · simp only [dispatch, accepted, hf, hhead, deleteElement, FunctionEntry.remaining,
        List.append_nil]
  | cons x xs =>
    refine ⟨[Event.finishOperation f.key op.data, Event.outputCallback f.key
        ⟨op.data, op.extension.buffer, op.extension.size, 0, op.extension.size⟩,
      Event.retired f.key op.data] ++ [Event.startOperation f.key x.data], ?_, ?_, ?_⟩
    rotate_left
    · simp [outputCalls, Event.outputAt]
    · simp [retiredData, Event.retiredAt]
    · simp only [dispatch, accepted, hf, hhead, startOperation_eq,
        requeueElement_set _ _ _ _ hf, FunctionEntry.remaining]
      rfl

theorem dispatch_write_once (functions : List FunctionEntry) (i : Nat) (f : FunctionEntry)
    (op : OperationEntry) (rest : List OperationEntry) (callback : OutputCallback) (count : Nat)
    (hf : functions[i]? = some f)
    (hm : f.methods = .write) (hops : f.operations = op :: rest)
    (hfin : op.finished = false) (herr : op.error = 0)
    (hcb : op.extension.direction.outputCallback = some callback)
    (hsize : op.extension.size < SIZE_MODULUS)
    (hint : count < 2147483648) (hpos : 0 < count)
    (hle : op.extension.length + count ≤ op.extension.size) :
    ∃ functions1 events, dispatch (accepted count) functions i = some (functions1, events) ∧
      outputCalls f.key events =
        [⟨op.data, op.extension.buffer, op.extension.size, 0, op.extension.length + count⟩] ∧
      (op.extension.length + count < op.extension.size →
        functions1 = functions.eraseIdx i ++
          [{ f with operations := op.advanced count :: rest }] ∧
        retiredData f.key events = []) ∧
      (op.extension.length + count = op.extension.size →
        functions1 = functions.eraseIdx i ++ f.remaining rest ∧
        retiredData f.key events = [op.data]) := by
  rcases Nat.lt_or_ge (op.extension.length + count) op.extension.size with hlt | hge
  · obtain ⟨events, hd, hout, hret⟩ := dispatch_write_kept functions i f op rest callback count
      hf hm hops hfin herr hcb hsize hint hpos hlt
    exact ⟨_, events, hd, hout, fun _ => ⟨rfl, hret⟩, fun h => absurd h (by omega)⟩
  · have heq : op.extension.length + count = op.extension.size := by omega
    obtain ⟨events, hd, hout, hret⟩ := dispatch_write_retired functions i f op rest callback
      count hf hm hops hfin herr hcb hsize hint hpos heq
    refine ⟨_, events, hd, ?_, fun h => absurd h (by omega), fun _ => ⟨rfl, hret⟩⟩
    rw [hout, heq]

theorem positionOf_eq (functions : List FunctionEntry) :
    ∀ (i : Nat) (f : FunctionEntry), functions[i]? = some f →
      (∀ g ∈ functions.eraseIdx i, g.key ≠ f.key) → positionOf f.key functions = some i := by
  induction functions with
  | nil => intro i f hf; simp at hf
  | cons g gs ih =>
    intro i f hf hothers
    cases i with
    | zero =>
      simp only [List.getElem?_cons_zero, Option.some.injEq] at hf
      subst hf
      simp [positionOf]
    | succ j =>
      simp only [List.getElem?_cons_succ] at hf
      simp only [List.eraseIdx_cons_succ, List.mem_cons, forall_eq_or_imp] at hothers
      simp only [positionOf, hothers.1, if_false, ih j f hf hothers.2, Option.map_some']

theorem others_of_nodup (functions : List FunctionEntry) :
    ∀ (i : Nat) (f : FunctionEntry), (functions.map FunctionEntry.key).Nodup →
      functions[i]? = some f → ∀ g ∈ functions.eraseIdx i, g.key ≠ f.key := by
  induction functions with
  | nil => intro i f _ hf; simp at hf
  | cons h t ih =>
    intro i f hnd hf
    simp only [List.map_cons, List.nodup_cons, List.mem_map, not_exists, not_and] at hnd
    cases i with
    | zero =>
      simp only [List.getElem?_cons_zero, Option.some.injEq] at hf
      subst hf
      intro g hg
      simp only [List.eraseIdx_cons_zero] at hg
      exact hnd.1 g hg
    | succ j =>
      simp only [List.getElem?_cons_succ] at hf
      intro g hg
      simp only [List.eraseIdx_cons_succ, List.mem_cons] at hg
      rcases hg with rfl | hg
      · exact fun hk => hnd.1 f (List.getElem?_mem hf) hk.symm
      · exact ih j f hnd.2 hf g hg

theorem eraseIdx_append_length {α : Type} (l : List α) (x : α) :
    (l ++ [x]).eraseIdx l.length = l := by
  induction l with
  | nil => rfl
  | cons a l ih => simp [List.eraseIdx_cons_succ, ih]

theorem getElem?_append_length {α : Type} (l : List α) (x : α) :
    (l ++ [x])[l.length]? = some x := by
  induction l with
  | nil => rfl
  | cons a l ih => simp

theorem remaining_same (f : FunctionEntry) (operations rest : List OperationEntry) :
    FunctionEntry.remaining { f with operations := operations } rest = f.remaining rest := by
  cases rest <;> rfl

theorem dispatchEach_cons (key : FunctionKey) (sys : Sys) (outcomes : List Sys)
    (functions functions1 : List FunctionEntry) (i : Nat) (events : List Event)
    (hp : positionOf key functions = some i)
    (hd : dispatch sys functions i = some (functions1, events)) :
    dispatchEach key (sys :: outcomes) functions =
      (dispatchEach key outcomes functions1).map (fun r => (r.1, events :: r.2)) := by
  simp only [dispatchEach, hp, hd]
  cases dispatchEach key outcomes functions1 <;> rfl

theorem dispatchEach_write (callback : OutputCallback) (counts : List Nat) :
    ∀ (functions : List FunctionEntry) (i : Nat) (f : FunctionEntry) (op : OperationEntry)
      (rest : List OperationEntry),
      functions[i]? = some f → (∀ g ∈ functions.eraseIdx i, g.key ≠ f.key) →
      f.methods = .write → f.operations = op :: rest → op.finished = false → op.error = 0 →
      op.extension.direction.outputCallback = some callback →
      op.extension.size < SIZE_MODULUS → counts ≠ [] →
      (∀ count ∈ counts, 0 < count ∧ count < 2147483648) →
      op.extension.length + counts.sum = op.extension.size →
      ∃ calls, dispatchEach f.key (counts.map accepted) functions =
          some (functions.eraseIdx i ++ f.remaining rest, calls) ∧
        calls.map (outputCalls f.key) = (partialSums op.extension.length counts).map
          (fun total => [⟨op.data, op.extension.buffer, op.extension.size, 0, total⟩]) ∧
        calls.map (retiredData f.key) =
          List.replicate (counts.length - 1) [] ++ [[op.data]] := by
  induction counts with
  | nil => intro _ _ _ _ _ _ _ _ _ _ _ _ _ h; exact absurd rfl h
  | cons count counts ih =>
    intro functions i f op rest hf hothers hm hops hfin herr hcb hsize _ hcounts hsum
    have hc := hcounts count (List.mem_cons_self _ _)
    have hposn := positionOf_eq functions i f hf hothers
    simp only [List.sum_cons] at hsum
    cases counts with
    | nil =>
      simp only [List.sum_nil, Nat.add_zero] at hsum
      obtain ⟨events, hd, hout, hret⟩ := dispatch_write_retired functions i f op rest callback
        count hf hm hops hfin herr hcb hsize hc.2 hc.1 hsum
      refine ⟨[events], ?_, ?_, ?_⟩
      · rw [List.map_cons, dispatchEach_cons _ _ _ _ _ _ _ hposn hd]
        rfl
      · simp only [List.map_cons, List.map_nil, hout, partialSums, hsum]
      · simp only [List.map_cons, List.map_nil, hret]
        rfl
    | cons next more =>
      have hlt : op.extension.length + count < op.extension.size := by
        have := (hcounts next (by simp)).1
        simp only [List.sum_cons] at hsum
        omega
      obtain ⟨events, hd, hout, hret⟩ := dispatch_write_kept functions i f op rest callback
        count hf hm hops hfin herr hcb hsize hc.2 hc.1 hlt
      obtain ⟨calls, heach, houts, hrets⟩ := ih
        (functions.eraseIdx i ++ [{ f with operations := op.advanced count :: rest }])
        (functions.eraseIdx i).length { f with operations := op.advanced count :: rest }
        (op.advanced count) rest (getElem?_append_length _ _)
        (by rw [eraseIdx_append_length]; exact hothers) hm rfl hfin herr hcb hsize (by simp)
        (fun c h => hcounts c (List.mem_cons_of_mem _ h))
        (by simp only [OperationEntry.advanced]; omega)
      rw [eraseIdx_append_length, remaining_same] at heach
      refine ⟨events :: calls, ?_, ?_, ?_⟩
      · have hkey : FunctionEntry.key { f with operations := op.advanced count :: rest } =
            f.key := rfl
        rw [hkey] at heach
        rw [List.map_cons, dispatchEach_cons _ _ _ _ _ _ _ hposn hd, heach]
        rfl
      · rw [List.map_cons, hout]
        exact congrArg _ houts
      · rw [List.map_cons, hret]
        exact congrArg _ hrets

/-! ## Claims on the transfer state machine -/

/-- C1: when `invokeInputCallback` runs on an operation with filled length `L`
(held in a buffer of at least `L` bytes) and the installed callback returns
`n ≤ L`, the length becomes `L - n` and byte `i` of the buffer, for every
`i < L - n`, is the old byte `n + i`; with no callback installed the length
becomes 0. -/
theorem invokeInputCallback_consumes (function : FunctionEntry) (operation : OperationEntry)
    (hlen : operation.extension.length ≤ operation.extension.buffer.length)
    (hsize : operation.extension.length < SIZE_MODULUS) :
    (∀ callback, operation.extension.direction.inputCallback = some callback →
      callback (inputResult operation) ≤ operation.extension.length →
      (invokeInputCallback function operation).1.extension.length =
        operation.extension.length - callback (inputResult operation) ∧
      ∀ i, i < operation.extension.length - callback (inputResult operation) →
        (invokeInputCallback function operation).1.extension.buffer[i]? =
          operation.extension.buffer[callback (inputResult operation) + i]?) ∧
    (operation.extension.direction.inputCallback = none →
      (invokeInputCallback function operation).1.extension.length = 0) := by
  rw [invokeInputCallback_operation]
  constructor
  · intro callback hcb hn
    have hc : consumedCount operation = callback (inputResult operation) := by
      simp only [consumedCount, hcb]
      exact Nat.mod_eq_of_lt (by omega)
    rw [hc, sizeSub_eq _ _ hn hsize]
    by_cases hz : callback (inputResult operation) = 0
    · simp [hz]
    · simp only [ne_eq, hz, not_false_eq_true, if_true, true_and]
      intro i hi
      exact memmove_getElem? _ _ _ i hi (by omega)
  · intro hcb
    have hc : consumedCount operation = operation.extension.length := by
      simp only [consumedCount, hcb]
    rw [hc, sizeSub_eq _ _ (le_refl _) hsize]
    by_cases hz : operation.extension.length = 0
    · simp [hz]
    · simp [hz]

/-- Witness of C1: a callback consuming 2 of 3 filled bytes leaves length 1
and the old third byte in front. -/
theorem invokeInputCallback_consumes_witness :
    (sampleInput.extension.length ≤ sampleInput.extension.buffer.length ∧
      sampleInput.extension.length < SIZE_MODULUS) ∧
    (invokeInputCallback sampleReader sampleInput).1.extension.length = 1 ∧
    (invokeInputCallback sampleReader sampleInput).1.extension.buffer[0]? = some 12 :=
  have h := (invokeInputCallback_consumes sampleReader sampleInput (by decide) (by decide)).1
    (fun _ => 2) rfl (by decide)
  ⟨⟨by decide, by decide⟩, h.1, h.2 0 (by decide)⟩

/-- C2: in a dispatch on a read function the head is deleted from the queue
exactly when `invokeInputCallback` returns 0, which it does exactly when the
error is nonzero or the length left after consumption is 0; otherwise the
head stays, with its error cleared. -/
theorem dispatchHead_input_retires (sys : Sys) (fd events : Int) (operation : OperationEntry)
    (rest : List OperationEntry) :
    let function : FunctionEntry := ⟨fd, .read, operation :: rest, events⟩
    let finished : OperationEntry :=
      if operation.finished then operation else finishUnixRead sys function operation
    let called := invokeInputCallback function finished
    (called.2.1 = 0 ↔ (called.1.error ≠ 0 ∨ called.1.extension.length = 0)) ∧
    ((dispatchHead sys function).map (·.1) = some rest ↔ called.2.1 = 0) ∧
    ((dispatchHead sys function).map (·.1) = some rest ↔
      (called.1.error ≠ 0 ∨ called.1.extension.length = 0)) ∧
    (called.2.1 ≠ 0 →
      (dispatchHead sys function).map (·.1) = some ({ called.1 with error := 0 } :: rest)) := by
  intro function finished called
  have hfin : (if !operation.finished then finishOperation sys function operation
      else (operation, [])).1 = finished := by
    cases h : operation.finished <;> simp [finished, h, finishOperation, MethodsRef.deref, function]
  have hres : called.2.1 = 0 ↔ (called.1.error ≠ 0 ∨ called.1.extension.length = 0) := by
    show (invokeInputCallback function finished).2.1 = 0 ↔ _
    rw [invokeInputCallback_result]
    split_ifs with h1 h2
    · simp [called, h1]
    · simp [called, h2]
    · simp [called, h1, h2]
  have hdel : (dispatchHead sys function).map (·.1) = some rest ↔ called.2.1 = 0 := by
    show (dispatchHead sys ⟨fd, .read, operation :: rest, events⟩).map (·.1) = _ ↔ _
    rw [dispatchHead_read]
    simp only [hfin]
    by_cases h : called.2.1 = 0
    · simp [called] at h
      simp [called, h]
    · simp only [called] at h
      simp [called, h, cons_ne_self]
  refine ⟨hres, hdel, hdel.trans hres, ?_⟩
  intro h
  show (dispatchHead sys ⟨fd, .read, operation :: rest, events⟩).map (·.1) = _
  rw [dispatchHead_read]
  simp only [hfin]
  simp only [called] at h
  simp [called, h]

/-- C3: in a dispatch on a write function whose head satisfies
`length ≤ size` when its callback runs, the head is deleted exactly when its
error is nonzero or `length = size`; otherwise it stays the head with
`finished` cleared (and its error 0). -/
theorem dispatchHead_output_retires (sys : Sys) (fd events : Int) (operation : OperationEntry)
    (rest : List OperationEntry) :
    let function : FunctionEntry := ⟨fd, .write, operation :: rest, events⟩
    let finished : OperationEntry :=
      if operation.finished then operation else finishUnixWrite sys function operation
    finished.extension.length ≤ finished.extension.size →
    ((dispatchHead sys function).map (·.1) = some rest ↔
      (finished.error ≠ 0 ∨ finished.extension.length = finished.extension.size)) ∧
    (¬(finished.error ≠ 0 ∨ finished.extension.length = finished.extension.size) →
      (dispatchHead sys function).map (·.1) =
        some ({ finished with finished := false, error := 0 } :: rest)) := by
  intro function finished hinv
  have hfin : (if !operation.finished then finishOperation sys function operation
      else (operation, [])).1 = finished := by
    cases h : operation.finished <;> simp [finished, h, finishOperation, MethodsRef.deref, function]
  constructor
  · show (dispatchHead sys ⟨fd, .write, operation :: rest, events⟩).map (·.1) = _ ↔ _
    rw [dispatchHead_write]
    simp only [hfin, invokeOutputCallback]
    by_cases he : finished.error = 0
    · by_cases hl : finished.extension.length < finished.extension.size
      · have : finished.extension.length ≠ finished.extension.size := by omega
        simp [he, hl, this, cons_ne_self]
      · have : finished.extension.length = finished.extension.size := by omega
        simp [he, this]
    · simp [he]
  · intro hn
    show (dispatchHead sys ⟨fd, .write, operation :: rest, events⟩).map (·.1) = _
    rw [dispatchHead_write]
    simp only [hfin, invokeOutputCallback]
    have he : finished.error = 0 := by
      by_contra h
      exact hn (Or.inl h)
    have hl : finished.extension.length < finished.extension.size := by
      have : finished.extension.length ≠ finished.extension.size := fun h => hn (Or.inr h)
      omega
    simp [he, hl]

/-- Witness of C3: a write of 8 bytes with 3 written, on which `write` accepts
3 more, is at length 6 when its callback runs and stays queued. -/
theorem dispatchHead_output_retires_witness :
    (finishUnixWrite threeBytes ⟨3, .write, [sampleOutput], 4⟩ sampleOutput).extension.length ≤
      (finishUnixWrite threeBytes ⟨3, .write, [sampleOutput], 4⟩ sampleOutput).extension.size ∧
    ((dispatchHead threeBytes ⟨3, .write, [sampleOutput], 4⟩).map (·.1) = some [] ↔
      ((finishUnixWrite threeBytes ⟨3, .write, [sampleOutput], 4⟩ sampleOutput).error ≠ 0 ∨
        (finishUnixWrite threeBytes ⟨3, .write, [sampleOutput], 4⟩ sampleOutput).extension.length =
          (finishUnixWrite threeBytes ⟨3, .write, [sampleOutput], 4⟩ sampleOutput).extension.size)) :=
  ⟨by decide, (dispatchHead_output_retires threeBytes 3 4 sampleOutput [] (by decide)).1⟩

/-- C4: on a read operation, for a result of `read` that is -1 or a count of
at most `size - length` bytes and fits the `int` holding it, `finishUnixRead`
marks the operation finished and: a count above 0 is added to `length`; a
count of 0 sets `end` and leaves `length`; a negative result stores `errno`
as the error and leaves `length`. -/
theorem finishUnixRead_result (sys : Sys) (function : FunctionEntry) (operation : OperationEntry)
    (callback : Option InputCallback) (e : Bool)
    (hdir : operation.extension.direction = .input callback e)
    (hsize : operation.extension.size < SIZE_MODULUS)
    (hlo : -1 ≤ sys.result)
    (hhi : sys.result ≤ (operation.extension.size : Int) - operation.extension.length)
    (hint : sys.result < 2 ^ 31) :
    (finishUnixRead sys function operation).finished = true ∧
    (0 < sys.result →
      ((finishUnixRead sys function operation).extension.length : Int) =
        operation.extension.length + sys.result ∧
      (finishUnixRead sys function operation).extension.direction.inputEnd = e ∧
      (finishUnixRead sys function operation).error = operation.error) ∧
    (sys.result = 0 →
      (finishUnixRead sys function operation).extension.direction.inputEnd = true ∧
      (finishUnixRead sys function operation).extension.length = operation.extension.length ∧
      (finishUnixRead sys function operation).error = operation.error) ∧
    (sys.result < 0 →
      (finishUnixRead sys function operation).error = sys.errno ∧
      (finishUnixRead sys function operation).extension.length = operation.extension.length ∧
      (finishUnixRead sys function operation).extension.direction.inputEnd = e) := by
  have ht : toInt32 sys.result = sys.result := toInt32_of_range _ (by omega) hint
  unfold finishUnixRead
  simp only [ht]
  unfold setUnixTransferResult
  simp only [hdir]
  refine ⟨?_, ?_, ?_, ?_⟩
  · split_ifs <;> rfl
  · intro hpos
    have h1 : sys.result ≠ -1 := by omega
    have h2 : sys.result ≠ 0 := by omega
    simp only [h1, h2, if_false]
    refine And.intro ?_ (by simp [TransferDirectionUnion.inputEnd])
    have hnn : (0:Int) ≤ (operation.extension.length : Int) + sys.result := by omega
    have hlt : (operation.extension.length : Int) + sys.result < (SIZE_MODULUS : Int) := by
      have : ((operation.extension.size : Nat) : Int) < (SIZE_MODULUS : Int) := by
        exact_mod_cast hsize
      omega
    rw [Int.emod_eq_of_lt hnn hlt]
    exact Int.toNat_of_nonneg hnn
  · intro h0
    simp [h0, TransferDirectionUnion.setInputEnd, TransferDirectionUnion.inputEnd]
  · intro hneg
    have h1 : sys.result = -1 := by omega
    simp [h1, hdir, TransferDirectionUnion.inputEnd]

/-- Witness of C4: a `read` delivering 5 bytes into an empty buffer of 16
leaves the operation finished with length 5. -/
theorem finishUnixRead_result_witness :
    (emptyInput.extension.size < SIZE_MODULUS ∧ -1 ≤ helloBytes.result ∧
      helloBytes.result ≤ (emptyInput.extension.size : Int) - emptyInput.extension.length ∧
      helloBytes.result < 2 ^ 31) ∧
    (finishUnixRead helloBytes sampleReader emptyInput).finished = true ∧
    ((finishUnixRead helloBytes sampleReader emptyInput).extension.length : Int) = 0 + 5 :=
  have h := finishUnixRead_result helloBytes sampleReader emptyInput none false rfl
    (by decide) (by decide) (by decide) (by decide)
  ⟨⟨by decide, by decide, by decide, by decide⟩, h.1, (h.2.1 (by decide)).1⟩

/-! ## Claims on the engine -/

/-- C5: `length ≤ size` holds of every queued operation (lengths are natural
numbers, so `0 ≤ length` always holds).  It holds of the operation
`createTransferOperation` creates (with length 0), so a registry in which it
holds still has it afterwards; `setUnixTransferResult` keeps it for every
result from -1 up to `size - length`; `invokeInputCallback` keeps it when
the callback returns at most `length`; and `invokeOutputCallback` leaves
the extension as it is. -/
theorem transfer_length_within_size :
    (∀ fd m direction size buffer data a registry,
      (∀ f ∈ Option.getD registry [], ∀ op ∈ f.operations,
        op.extension.length ≤ op.extension.size) →
      ∀ f ∈ (createTransferOperation fd m direction size buffer data a registry).1.getD [],
        ∀ op ∈ f.operations, op.extension.length ≤ op.extension.size) ∧
    (∀ errno operation count,
      operation.extension.length ≤ operation.extension.size →
      operation.extension.size < SIZE_MODULUS → -1 ≤ count →
      count ≤ (operation.extension.size : Int) - operation.extension.length →
      (setUnixTransferResult errno operation count).extension.length ≤
        (setUnixTransferResult errno operation count).extension.size) ∧
    (∀ function operation,
      operation.extension.length ≤ operation.extension.size →
      operation.extension.size < SIZE_MODULUS →
      (∀ callback, operation.extension.direction.inputCallback = some callback →
        callback (inputResult operation) ≤ operation.extension.length) →
      (invokeInputCallback function operation).1.extension.length ≤
        (invokeInputCallback function operation).1.extension.size) ∧
    (∀ function operation,
      (invokeOutputCallback function operation).1.extension = operation.extension) := by
  refine ⟨?_, setUnixTransferResult_bound, invokeInputCallback_bound,
    invokeOutputCallback_extension⟩
  intro fd m direction size buffer data a registry hold f hf op hop
  rcases createTransferOperation_eq fd m direction size buffer data a registry with hc |
    ⟨ext, hlen, _, _, hc⟩
  · rw [hc] at hf
    exact hold f hf op hop
  · rw [hc] at hf
    rcases createOperation_members fd m ext data a registry f hf op hop with ⟨g, hg, hmem⟩ | hext
    · exact hold g hg op hmem
    · rw [hext, hlen]
      exact Nat.zero_le _

/-- Witness of C5: a finish step adding 5 bytes to an empty buffer of 16, and a
callback consuming 2 of 3 bytes, both leave `length ≤ size`. -/
theorem transfer_length_within_size_witness :
    (setUnixTransferResult 0 emptyInput 5).extension.length ≤
      (setUnixTransferResult 0 emptyInput 5).extension.size ∧
    (invokeInputCallback sampleReader sampleInput).1.extension.length ≤
      (invokeInputCallback sampleReader sampleInput).1.extension.size :=
  ⟨transfer_length_within_size.2.1 0 emptyInput 5 (by decide) (by decide) (by decide)
      (by decide),
    transfer_length_within_size.2.2.1 sampleReader sampleInput (by decide) (by decide)
      (by intro callback h; cases h; decide)⟩

/-- C6: in every state the engine reaches, a call of `createOperation`
(`asyncRead`, `asyncWrite`) that returns 0 leaves the entries of the
function registry, with their queues, exactly as they were: the static
`functions` is unchanged, unless it was null and is now an empty queue. -/
theorem createOperation_failure_unwinds (actions : List Action) :
    ∃ engine trace, run Engine.initial [] actions = some (engine, trace) ∧
      (∀ fd m ext data a, (createOperation fd m ext data a engine.functions).2.1 = 0 →
        ((createOperation fd m ext data a engine.functions).1 = engine.functions ∨
          (engine.functions = none ∧
            (createOperation fd m ext data a engine.functions).1 = some [])) ∧
        (createOperation fd m ext data a engine.functions).1.getD [] = engine.entries) ∧
      (∀ fd size callback data a, (asyncRead fd size callback data a engine).2.1 = 0 →
        (asyncRead fd size callback data a engine).1.entries = engine.entries ∧
        (asyncRead fd size callback data a engine).1.alarms = engine.alarms) ∧
      (∀ fd buffer size callback data a,
        (asyncWrite fd buffer size callback data a engine).2.1 = 0 →
        (asyncWrite fd buffer size callback data a engine).1.entries = engine.entries ∧
        (asyncWrite fd buffer size callback data a engine).1.alarms = engine.alarms) := by
  obtain ⟨engine, trace, hrun, hinv⟩ := reachable_invariant actions
  refine ⟨engine, trace, hrun, ?_, ?_, ?_⟩
  · intro fd m ext data a hfail
    have h := (createOperation_failure fd m ext data a engine.functions hinv.1.1 hfail).1
    exact ⟨h, entries_of_unwound engine _ h⟩
  · intro fd size callback data a hfail
    exact ⟨entries_of_unwound engine _
      (createTransferOperation_failure fd .read _ size none data a engine.functions hinv.1.1
        hfail), rfl⟩
  · intro fd buffer size callback data a hfail
    exact ⟨entries_of_unwound engine _
      (createTransferOperation_failure fd .write _ size buffer data a engine.functions hinv.1.1
        hfail), rfl⟩

/-- C7: after any sequence of `createOperation` calls (successful or not),
alarm submissions and turns of the loop of `asyncWait`, every step has a
result (no head lookup met an empty queue) and every entry of the function
registry has a non-empty queue. -/
theorem operation_queues_never_empty (actions : List Action) :
    ∃ engine trace, run Engine.initial [] actions = some (engine, trace) ∧
      ∀ function ∈ engine.entries, function.operations ≠ [] := by
  obtain ⟨engine, trace, hrun, hinv⟩ := reachable_invariant actions
  exact ⟨engine, trace, hrun, hinv.1.1⟩

/-- Counterexample to C8: one write of 8 bytes is submitted and one turn of the
loop writes 3 of them; the operation is not retired, and `startOperation`
has been called on it twice. -/
theorem startOperation_called_twice :
    (run Engine.initial [] [submitWrite, partialWriteTurn]).map
      (fun r => (submittedData ⟨3, .write⟩ r.2, retiredData ⟨3, .write⟩ r.2,
        startedOperations r.2)) =
      some ([7], [], [(⟨3, .write⟩, 7), (⟨3, .write⟩, 7)]) := by
  decide

/-- C8, amended: in every state the engine reaches, `createOperation` calls
`startOperation` exactly when it succeeds for a key that has no entry (its
queue is empty), once, on the new operation; a dispatch calls it once on the
operation that is the head afterwards, which is the same operation again
when the head was not retired and the successor, if any, when it was; and
a turn of the loop makes no other such call than its dispatch. -/
theorem startOperation_calls (actions : List Action) :
    ∃ engine trace, run Engine.initial [] actions = some (engine, trace) ∧
      (∀ fd m ext data a,
        (((createOperation fd m ext data a engine.functions).2.1 ≠ 0 ∧
            ∀ f ∈ engine.entries, f.key ≠ ⟨fd, m⟩) →
          startedOperations (createOperation fd m ext data a engine.functions).2.2 =
            [(⟨fd, m⟩, data)]) ∧
        (((createOperation fd m ext data a engine.functions).2.1 = 0 ∨
            ∃ f ∈ engine.entries, f.key = ⟨fd, m⟩) →
          startedOperations (createOperation fd m ext data a engine.functions).2.2 = [])) ∧
      (∀ sys i f op rest, engine.entries[i]? = some f → f.operations = op :: rest →
        ∃ functions1 events, dispatch sys engine.entries i = some (functions1, events) ∧
          ((retiredData f.key events = [] ∧
              startedOperations events = [(f.key, op.data)]) ∨
            (retiredData f.key events = [op.data] ∧
              startedOperations events =
                (rest.head?.map (fun x => (f.key, x.data))).toList))) ∧
      (∀ duration elapsed start env, ∃ engine1 events,
        asyncWaitIteration duration elapsed start env engine = some (engine1, events) ∧
        (startedOperations events = [] ∨
          ∃ i f functions1 events1, engine.entries[i]? = some f ∧
            dispatch env.sys engine.entries i = some (functions1, events1) ∧
            startedOperations events = startedOperations events1)) := by
  obtain ⟨engine, trace, hrun, hinv⟩ := reachable_invariant actions
  exact ⟨engine, trace, hrun,
    fun fd m ext data a => createOperation_starts fd m ext data a engine.functions hinv.1.1,
    fun sys i f op rest hf hops => dispatch_starts sys engine.entries i f op rest hf hops,
    fun duration elapsed start env =>
      iteration_starts duration elapsed start env engine hinv.1.1⟩

/-- C9: after any sequence of actions, the queue of every entry holds, in
submission order, the operations submitted to its key and not retired
(whose retirements are then a front part of the submissions), a key without
entry has none pending, and every callback the next turn of the loop invokes
is for the operation submitted right after the retired ones: all operations
submitted earlier to that key have been retired. -/
theorem callbacks_follow_submission_order (actions : List Action) :
    ∃ engine trace, run Engine.initial [] actions = some (engine, trace) ∧
      (∀ function ∈ engine.entries, submittedData function.key trace =
        retiredData function.key trace ++ function.operations.map (·.data)) ∧
      (∀ key, (∀ function ∈ engine.entries, function.key ≠ key) →
        submittedData key trace = retiredData key trace) ∧
      ∀ duration elapsed start env, ∃ engine1 events,
        asyncWaitIteration duration elapsed start env engine = some (engine1, events) ∧
        ∀ e ∈ events, ∀ key data, Event.callbackAt key e = some data →
          ∃ later, submittedData key trace = retiredData key trace ++ data :: later := by
  obtain ⟨engine, trace, hrun, hinv⟩ := reachable_invariant actions
  exact ⟨engine, trace, hrun, hinv.1.2.2.1, hinv.1.2.2.2,
    fun duration elapsed start env =>
      iteration_callbacks duration elapsed start env engine trace hinv⟩

/-- C10: after any sequence of actions (alarm insertions and turns of the loop,
which delete the head alarm when due), the time of the head of the alarm
queue is lexicographically at most the time of every other queued alarm; and
`compareAlarmEntries` is nonzero exactly when the time of its first alarm is
lexicographically before that of its second. -/
theorem alarm_head_is_earliest (actions : List Action) :
    (∃ engine trace, run Engine.initial [] actions = some (engine, trace) ∧
      ∀ head rest, engine.alarmEntries = head :: rest →
        ∀ alarm ∈ rest, TimeVal.le head.time alarm.time) ∧
    ∀ alarm1 alarm2, compareAlarmEntries alarm1 alarm2 ≠ 0 ↔
      TimeVal.lt alarm1.time alarm2.time := by
  refine ⟨?_, compareAlarmEntries_ne_zero⟩
  obtain ⟨engine, trace, hrun, hinv⟩ := reachable_invariant actions
  refine ⟨engine, trace, hrun, ?_⟩
  intro head rest hal alarm hmem
  have h := hinv.2
  unfold AlarmsSorted at h
  rw [hal, List.pairwise_cons] at h
  exact h.1 alarm hmem

/-! ## Claims on alarms, the loop turn and the registry order -/

/-- C11: for a time with `0 ≤ tv_usec < 1000000` and any interval in
milliseconds, of either sign, `adjustTime` yields a time with
`0 ≤ tv_usec < 1000000` whose `tv_sec * 1000000 + tv_usec` is that of the
given time plus `1000 * interval`; `asyncRelativeAlarm` submits the alarm for
the current time so adjusted. -/
theorem adjustTime_normalized (time : TimeVal) (amount : Int)
    (h0 : 0 ≤ time.tv_usec) (h1 : time.tv_usec < 1000000) :
    0 ≤ (adjustTime time amount).tv_usec ∧ (adjustTime time amount).tv_usec < 1000000 ∧
    (adjustTime time amount).tv_sec * 1000000 + (adjustTime time amount).tv_usec =
      time.tv_sec * 1000000 + time.tv_usec + amount * 1000 ∧
    ∀ callback data a engine,
      asyncRelativeAlarm amount callback data a time engine =
        asyncAbsoluteAlarm (adjustTime time amount) callback data a engine := by
  obtain ⟨hsum, hpos, hneg⟩ := tdiv_tmod_thousand amount
  refine ⟨?_, ?_, ?_, fun _ _ _ _ => rfl⟩ <;>
  · unfold adjustTime
    simp only []
    rcases Int.lt_or_le amount 0 with ha | ha
    · obtain ⟨hr1, hr2⟩ := hneg ha
      by_cases hr : amount.tmod 1000 < 0
      · simp only [hr, if_true]
        rw [normalizeTime_of_nonneg _ (by simp only []; omega)]
        simp only []
        omega
      · simp only [hr, if_false]
        rw [normalizeTime_of_nonneg _ (by simp only []; omega)]
        simp only []
        omega
    · obtain ⟨hr1, hr2⟩ := hpos ha
      have hr : ¬ amount.tmod 1000 < 0 := by omega
      simp only [hr, if_false]
      rw [normalizeTime_of_nonneg _ (by simp only []; omega)]
      simp only []
      omega

/-- Witness of C11: 1501 ms before 10.999500 s is 9.498500 s. -/
theorem adjustTime_normalized_witness :
    (0 ≤ sampleTime.tv_usec ∧ sampleTime.tv_usec < 1000000) ∧
    adjustTime sampleTime (-1501) = ⟨9, 498500⟩ ∧
    0 ≤ (adjustTime sampleTime (-1501)).tv_usec ∧
    (adjustTime sampleTime (-1501)).tv_usec < 1000000 :=
  have h := adjustTime_normalized sampleTime (-1501) (by decide) (by decide)
  ⟨⟨by decide, by decide⟩, by decide, h.1, h.2.1⟩

/-- C12: in a turn of the loop of `asyncWait` in which the head of the alarm
queue is due (`millisecondsBetween start` its time is at most `elapsed`), the
only call made is the callback of that alarm, once; the alarm queue loses its
head, and everything else of the engine, the function registry included, is
as before: no `awaitOperation`, no finish and no transfer callback. -/
theorem due_alarm_fires_alone (duration elapsed : Int) (start : TimeVal) (env : IterEnv)
    (engine : Engine) (alarm : AlarmEntry) (rest : List AlarmEntry)
    (hhead : engine.alarms = some (alarm :: rest))
    (hdue : millisecondsBetween start alarm.time ≤ elapsed) :
    asyncWaitIteration duration elapsed start env engine =
      some ({ engine with alarms := some rest },
        [Event.alarmCallback alarm.callback alarm.data]) := by
  unfold asyncWaitIteration
  simp only [hhead, hdue, if_true]

/-- Witness of C12: with an alarm at 70 ms and 70 ms elapsed, the turn makes the
one call of the callback of that alarm. -/
theorem due_alarm_fires_alone_witness :
    (alarmedEngine.alarms = some [⟨⟨0, 70000⟩, 0, 3⟩] ∧
      millisecondsBetween ⟨0, 0⟩ (⟨⟨0, 70000⟩, 0, 3⟩ : AlarmEntry).time ≤ 70) ∧
    (asyncWaitIteration 100 70 ⟨0, 0⟩ idleEnv alarmedEngine).map (·.2) =
      some [Event.alarmCallback 0 3] :=
  ⟨⟨rfl, by decide⟩,
    by rw [due_alarm_fires_alone 100 70 ⟨0, 0⟩ idleEnv alarmedEngine ⟨⟨0, 70000⟩, 0, 3⟩ [] rfl
      (by decide)]; rfl⟩

/-- C16, as stated, fails: `asyncWait(100)` on the idle engine whose clock reads
30 days less after the first turn passes, in its second turn, the timeout
-1702967196: the difference 2592000100 does not arrive in the `int`
parameter of `awaitOperation`, and the timeout is not positive. -/
theorem await_timeout_wraps :
    (asyncWait 100 ⟨0, 0⟩ clockSetBack Engine.initial).map (fun r => awaitTimeouts r.2) =
      some [100, -1702967196] ∧
    (asyncWaitIteration 100 (-2592000000) ⟨0, 0⟩ timedOut Engine.initial).map
      (fun r => awaitTimeouts r.2) = some [-1702967196] ∧
    min 100 (alarmHorizon 100 ⟨0, 0⟩ Engine.initial) - (-2592000000) = 2592000100 := by
  decide

/-- C16 (amended): in every state the engine reaches, a turn of the loop has a
result, and when `min duration M - elapsed` is a value of `int`, where `M` is
the milliseconds from the start time to the head alarm (`duration` without
alarm), every call of `awaitOperation` of the turn passes exactly that
value; it is at most `duration - elapsed`, and positive when
`elapsed < duration`.  In a whole `asyncWait duration` with `0 < duration`,
which has a result however the turns go, every timeout passed is positive
when `duration - elapsed` is a value of `int` at every reading of the
clock. -/
theorem await_timeout_clamped (actions : List Action) :
    ∃ engine trace, run Engine.initial [] actions = some (engine, trace) ∧
      (∀ duration elapsed start env, ∃ engine1 events,
        asyncWaitIteration duration elapsed start env engine = some (engine1, events) ∧
        (-2147483648 ≤ min duration (alarmHorizon duration start engine) - elapsed →
          min duration (alarmHorizon duration start engine) - elapsed < 2147483648 →
          ∀ t ∈ awaitTimeouts events,
            t = min duration (alarmHorizon duration start engine) - elapsed ∧
            t ≤ duration - elapsed ∧ (elapsed < duration → 0 < t))) ∧
      (∀ duration start turns, 0 < duration → duration < 2147483648 →
        (∀ turn ∈ turns, duration - turn.elapsedAfter < 2147483648) →
        ∃ engine1 events,
          asyncWait duration start turns engine = some (engine1, events) ∧
          ∀ t ∈ awaitTimeouts events, 0 < t) := by
  obtain ⟨engine, trace, hrun, hinv⟩ := reachable_invariant actions
  refine ⟨engine, trace, hrun, ?_, ?_⟩
  · intro duration elapsed start env
    obtain ⟨engine1, events1, hs, _⟩ :=
      step_invariant (.iteration duration elapsed start env) engine trace hinv
    exact ⟨engine1, events1, hs, fun hlow hhigh =>
      iteration_timeouts_exact duration elapsed start env engine engine1 events1 hinv.1.1 hs
        hlow hhigh⟩
  · intro duration start turns hpos hint hturns
    exact asyncWaitLoop_timeouts duration start turns 0 engine trace hinv hpos (by omega) hturns

/-- Witness of C16 (amended): `asyncWait(100)` on the idle engine, with the
clock at 40 ms after the first turn, passes the timeouts 100 and 60. -/
theorem await_timeout_clamped_witness :
    ((0 : Int) < 100 ∧ (100 : Int) < 2147483648 ∧
      ∀ turn ∈ steadyClock, 100 - turn.elapsedAfter < 2147483648) ∧
    (asyncWait 100 ⟨0, 0⟩ steadyClock Engine.initial).map (fun r => awaitTimeouts r.2) =
      some [100, 60] ∧
    ∃ engine1 events,
      asyncWait 100 ⟨0, 0⟩ steadyClock Engine.initial = some (engine1, events) ∧
      ∀ t ∈ awaitTimeouts events, 0 < t := by
  have hturns : ∀ turn ∈ steadyClock, 100 - turn.elapsedAfter < 2147483648 := by decide
  obtain ⟨engine, trace, hrun, _, hwait⟩ := await_timeout_clamped []
  have heng : engine = Engine.initial := (Prod.mk.inj (Option.some.inj hrun)).1.symm
  subst heng
  exact ⟨⟨by decide, by decide, hturns⟩, by decide,
    hwait 100 ⟨0, 0⟩ steadyClock (by decide) (by decide) hturns⟩

/-- C17: in every state the engine reaches, a dispatch on the entry at position
`i` has a result; when the queue of the entry is non-empty afterwards, the
registry is the old one without position `i`, followed by the entry (with
its new queue) as last element; when the queue is empty, it is the old one
without position `i`; the other entries keep their order. -/
theorem dispatch_requeues_last (actions : List Action) :
    ∃ engine trace, run Engine.initial [] actions = some (engine, trace) ∧
      ∀ sys i f, engine.entries[i]? = some f →
        ∃ operations events0 functions1 events,
          dispatchHead sys f = some (operations, events0) ∧
          dispatch sys engine.entries i = some (functions1, events) ∧
          (operations ≠ [] →
            functions1 = engine.entries.eraseIdx i ++ [{ f with operations := operations }]) ∧
          (operations = [] → functions1 = engine.entries.eraseIdx i) ∧
          engine.entries.eraseIdx i = engine.entries.take i ++ engine.entries.drop (i + 1) := by
  obtain ⟨engine, trace, hrun, hinv⟩ := reachable_invariant actions
  refine ⟨engine, trace, hrun, ?_⟩
  intro sys i f hf
  have hne := hinv.1.1 f (List.getElem?_mem hf)
  cases hops : f.operations with
  | nil => exact absurd hops hne
  | cons op rest =>
    obtain ⟨evc, _, hcases⟩ := dispatchHead_cases sys f op rest hops
    have hhead : ∃ operations events0, dispatchHead sys f = some (operations, events0) := by
      rcases hcases with ⟨op', _, hd⟩ | hd
      · exact ⟨_, _, hd⟩
      · exact ⟨_, _, hd⟩
    obtain ⟨operations, events0, hd⟩ := hhead
    cases hq : operations with
    | nil =>
      subst hq
      refine ⟨[], events0, deleteElement engine.entries i, events0, hd,
        by simp [dispatch, hf, hd], by simp, fun _ => rfl,
        List.eraseIdx_eq_take_drop_succ _ _⟩
    | cons x xs =>
      subst hq
      refine ⟨x :: xs, events0, engine.entries.eraseIdx i ++ [{ f with operations := x :: xs }],
        events0 ++ [Event.startOperation f.key x.data], hd, ?_, fun _ => rfl, by simp,
        List.eraseIdx_eq_take_drop_succ _ _⟩
      simp only [dispatch, hf, hd, startOperation_eq, requeueElement_set _ _ _ _ hf]
      rfl

/-- C13: after any sequence of submissions (each handing in an operation with
nothing transferred yet), alarms and turns of the loop, a dispatch on a read
function whose head is not finished and whose `read` returns 0 has a result
in which: the head is retired; every input callback called got `end` set,
error 0 (and length 0); the callback, when one is installed and keeps to
returning at most the length, is called; and the function entry leaves the
registry when the head was its only operation, else it moves to the tail
with the rest of its queue. -/
theorem end_of_stream_retires (actions : List Action)
    (hfresh : ∀ action ∈ actions, Action.fresh action) :
    ∃ engine trace, run Engine.initial [] actions = some (engine, trace) ∧
      ∀ sys i f op rest, engine.entries[i]? = some f → f.methods = .read →
        f.operations = op :: rest → op.finished = false → sys.result = 0 →
        (∀ callback, op.extension.direction.inputCallback = some callback →
          callback (inputResult (finishUnixRead sys f op)) ≤
            (finishUnixRead sys f op).extension.length) →
        ∃ functions1 events, dispatch sys engine.entries i = some (functions1, events) ∧
          retiredData f.key events = [op.data] ∧
          (∀ r, Event.inputCallback f.key r ∈ events →
            r.end_ = true ∧ r.error = 0 ∧ r.length = 0) ∧
          (∀ callback, op.extension.direction.inputCallback = some callback →
            Event.inputCallback f.key (inputResult (finishUnixRead sys f op)) ∈ events) ∧
          (rest = [] → functions1 = engine.entries.eraseIdx i) ∧
          (rest ≠ [] →
            functions1 = engine.entries.eraseIdx i ++ [{ f with operations := rest }]) := by
  obtain ⟨engine, trace, hrun, _, hreads⟩ := run_keeps_reads actions Engine.initial [] hfresh
    initial_invariant (by intro f hf; simp [Engine.initial, Engine.entries] at hf)
  refine ⟨engine, trace, hrun, ?_⟩
  intro sys i f op rest hf hm hops hfin hres hcb
  have hmem : op ∈ f.operations := by rw [hops]; exact List.mem_cons_self _ _
  obtain ⟨herr, hlen⟩ := hreads f (List.getElem?_mem hf) op hmem
  exact dispatch_end_of_stream sys engine.entries i f op rest hf hm hops hfin herr
    (hlen hm hfin) hres hcb

/-- Witness of C13: after `asyncRead(5, 16, callback, 9)` alone, a dispatch whose
`read` returns 0 retires the operation and empties the registry. -/
theorem end_of_stream_retires_witness :
    (∀ action ∈ [submitRead], Action.fresh action) ∧
    run Engine.initial [] [submitRead] =
      some (⟨some [readerEntry], none⟩,
        [Event.enqueued ⟨5, .read⟩ 9, Event.startOperation ⟨5, .read⟩ 9]) ∧
    ∃ functions1 events, dispatch endOfStream [readerEntry] 0 = some (functions1, events) ∧
      retiredData ⟨5, .read⟩ events = [9] ∧ functions1 = [] := by
  have hfresh : ∀ action ∈ [submitRead], Action.fresh action := by
    intro action h
    simp only [List.mem_singleton] at h
    subst h
    trivial
  have hE : run Engine.initial [] [submitRead] =
      some (⟨some [readerEntry], none⟩,
        [Event.enqueued ⟨5, .read⟩ 9, Event.startOperation ⟨5, .read⟩ 9]) := rfl
  obtain ⟨engine, trace, hrun, h⟩ := end_of_stream_retires [submitRead] hfresh
  rw [hE] at hrun
  have heng : engine = ⟨some [readerEntry], none⟩ := (Prod.mk.inj (Option.some.inj hrun)).1.symm
  subst heng
  obtain ⟨functions1, events, hd, hret, _, _, hnil, _⟩ :=
    h endOfStream 0 readerEntry pendingRead [] rfl rfl rfl rfl rfl
      (by intro callback hc; cases hc; decide)
  exact ⟨hfresh, hE, functions1, events, hd, hret, hnil rfl⟩

/-- C14, as stated, fails: the write `asyncWrite(3, "ABCDEFGH", 8, callback, 7)`
drained by three readiness events that write 3, 3 and 2 bytes has its output
callback called three times, with counts 3, 6 and 8, before it is retired. -/
theorem output_callback_called_thrice :
    (run Engine.initial [] [submitWrite, partialWriteTurn, partialWriteTurn, finalWriteTurn]).map
      (fun r => ((outputCalls ⟨3, .write⟩ r.2).map (fun o => (o.count, o.error)),
        retiredData ⟨3, .write⟩ r.2)) =
      some ([(3, 0), (6, 0), (8, 0)], [7]) := by
  decide

/-- C14 (amended): in every state the engine reaches, whatever else is queued,
for a write operation at the head of its function with an output callback
installed: every dispatch in which `write` accepts a part of what is left of
its `size` bytes calls the callback exactly once, with error 0 and as count
the bytes written so far; the dispatch retires the operation when that count
is `size`, and else keeps it at the head with the count as its length and
moves the function to the tail.  So a write that completes over `k ≥ 1`
successive dispatches (`counts`) has its callback called once in each of
the `k` dispatches, the last call has count `size`, and the operation is
retired in that last dispatch and in no earlier one; the function then stays
in the registry only with the rest of its queue. -/
theorem output_callback_every_dispatch (actions : List Action) :
    ∃ engine trace, run Engine.initial [] actions = some (engine, trace) ∧
      ∀ (i : Nat) (f : FunctionEntry) (op : OperationEntry) (rest : List OperationEntry)
        (callback : OutputCallback),
        engine.entries[i]? = some f → f.methods = .write → f.operations = op :: rest →
        op.extension.direction.outputCallback = some callback →
        op.extension.size < SIZE_MODULUS →
        (∀ count, 0 < count → count < 2147483648 →
          op.extension.length + count ≤ op.extension.size →
          ∃ functions1 events,
            dispatch (accepted count) engine.entries i = some (functions1, events) ∧
            outputCalls f.key events =
              [⟨op.data, op.extension.buffer, op.extension.size, 0,
                op.extension.length + count⟩] ∧
            (op.extension.length + count < op.extension.size →
              functions1 = engine.entries.eraseIdx i ++
                [{ f with operations := op.advanced count :: rest }] ∧
              retiredData f.key events = []) ∧
            (op.extension.length + count = op.extension.size →
              functions1 = engine.entries.eraseIdx i ++ f.remaining rest ∧
              retiredData f.key events = [op.data])) ∧
        (∀ counts : List Nat, counts ≠ [] →
          (∀ count ∈ counts, 0 < count ∧ count < 2147483648) →
          op.extension.length + counts.sum = op.extension.size →
          ∃ calls,
            dispatchEach f.key (counts.map accepted) engine.entries =
              some (engine.entries.eraseIdx i ++ f.remaining rest, calls) ∧
            calls.length = counts.length ∧
            calls.map (outputCalls f.key) = (partialSums op.extension.length counts).map
              (fun total => [⟨op.data, op.extension.buffer, op.extension.size, 0, total⟩]) ∧
            (partialSums op.extension.length counts).getLast? = some op.extension.size ∧
            calls.map (retiredData f.key) =
              List.replicate (counts.length - 1) [] ++ [[op.data]]) := by
  obtain ⟨engine, trace, hrun, hinv, hwrites⟩ := run_keeps_writes actions Engine.initial []
    initial_invariant (by intro f hf; simp [Engine.initial, Engine.entries] at hf)
  refine ⟨engine, trace, hrun, ?_⟩
  intro i f op rest callback hf hm hops hcb hsize
  have hmem : op ∈ f.operations := by rw [hops]; exact List.mem_cons_self _ _
  obtain ⟨hfin, herr⟩ := hwrites f (List.getElem?_mem hf) hm op hmem
  refine ⟨?_, ?_⟩
  · intro count hpos hint hle
    exact dispatch_write_once engine.entries i f op rest callback count hf hm hops hfin herr
      hcb hsize hint hpos hle
  · intro counts hne hcounts hsum
    obtain ⟨calls, heach, hout, hret⟩ := dispatchEach_write callback counts engine.entries i f
      op rest hf (others_of_nodup engine.entries i f hinv.1.2.1 hf) hm hops hfin herr hcb hsize
      hne hcounts hsum
    refine ⟨calls, heach, ?_, hout, ?_, hret⟩
    · have := congrArg List.length hout
      simpa [partialSums_length] using this
    · rw [partialSums_getLast counts _ hne, hsum]

/-- Witness of C14 (amended): after `asyncRead(5, 16, callback, 9)` and
`asyncWrite(3, "ABCDEFGH", 8, callback, 7)`, three dispatches on the writer
that write 3, 3 and 2 bytes call its callback with counts 3, 6 and 8, one
call in each, and the last retires the write. -/
theorem output_callback_every_dispatch_witness :
    run Engine.initial [] [submitRead, submitWrite] =
      some (⟨some [readerEntry, writerEntry], none⟩,
        [Event.enqueued ⟨5, .read⟩ 9, Event.startOperation ⟨5, .read⟩ 9,
          Event.enqueued ⟨3, .write⟩ 7, Event.startOperation ⟨3, .write⟩ 7]) ∧
    ((8 : Nat) < SIZE_MODULUS ∧ [3, 3, 2] ≠ ([] : List Nat) ∧
      (∀ count ∈ [3, 3, 2], 0 < count ∧ count < 2147483648) ∧ 0 + [3, 3, 2].sum = 8) ∧
    ∃ calls,
      dispatchEach ⟨3, .write⟩ ([3, 3, 2].map accepted) [readerEntry, writerEntry] =
        some ([readerEntry], calls) ∧
      calls.map (fun events => (outputCalls ⟨3, .write⟩ events).map
        (fun r => (r.count, r.error))) = [[(3, 0)], [(6, 0)], [(8, 0)]] ∧
      calls.map (retiredData ⟨3, .write⟩) = [[], [], [7]] := by
  have hE : run Engine.initial [] [submitRead, submitWrite] =
      some (⟨some [readerEntry, writerEntry], none⟩,
        [Event.enqueued ⟨5, .read⟩ 9, Event.startOperation ⟨5, .read⟩ 9,
          Event.enqueued ⟨3, .write⟩ 7, Event.startOperation ⟨3, .write⟩ 7]) := rfl
  have h1 : (8 : Nat) < SIZE_MODULUS := by decide
  have h2 : [3, 3, 2] ≠ ([] : List Nat) := by decide
  have h3 : ∀ count ∈ [3, 3, 2], 0 < count ∧ count < 2147483648 := by decide
  have h4 : 0 + [3, 3, 2].sum = 8 := by decide
  obtain ⟨engine, trace, hrun, h⟩ := output_callback_every_dispatch [submitRead, submitWrite]
  rw [hE] at hrun
  have heng : engine = ⟨some [readerEntry, writerEntry], none⟩ :=
    (Prod.mk.inj (Option.some.inj hrun)).1.symm
  subst heng
  obtain ⟨calls, heach, _, hout, _, hret⟩ := (h 1 writerEntry
    (writeOperation (fun _ => ()) 8 0 [65, 66, 67, 68, 69, 70, 71, 72] 7) [] (fun _ => ())
    rfl rfl rfl rfl h1).2 [3, 3, 2] h2 h3 h4
  refine ⟨hE, ⟨h1, h2, h3, h4⟩, calls, heach, ?_, hret⟩
  have := congrArg (List.map (List.map (fun r : OutputResult => (r.count, r.error)))) hout
  simpa [List.map_map] using this

/-- C15 fails on the code: `invokeInputCallback` does not clear `finished`
(`invokeOutputCallback` does).  After `asyncRead(5, 16, callback, 9)`, whose
callback consumes 2 bytes, a turn whose `read` delivers 5 bytes leaves the
operation at the head with 3 bytes and `finished` still set; the next turn
calls neither `awaitOperation` nor `finishOperation`: it calls the callback
again on the 3 bytes left and starts the operation again. -/
theorem input_finished_stays_set :
    (run Engine.initial [] [submitChunkedRead, helloTurn]).map
      (fun r => r.1.entries.map (fun f => f.operations.map
        (fun op => (op.data, op.finished, op.extension.length)))) =
      some [[(9, true, 3)]] ∧
    (run Engine.initial [] [submitChunkedRead, helloTurn]).bind
      (fun r => (step quietTurn r.1).map (fun s => s.2)) =
      some [Event.inputCallback ⟨5, .read⟩
          ⟨9, [108, 108, 111, 108, 111, 0, 0, 0, 0, 0, 0, 0, 0, 0, 0, 0], 16, 3, 0, false⟩,
        Event.startOperation ⟨5, .read⟩ 9] := by
  decide

end Async

/-! ## Lock descriptors -/

namespace Lock

/-- C18 fails on the code: when `malloc` succeeds (block 1) and
`constructLockDescriptor` reports failure, `newLockDescriptor` returns the
pointer to the block it has just given to `free`, which is not null, and
`getLockDescriptor` stores that pointer; only a failed `malloc` yields
null. -/
theorem newLockDescriptor_returns_freed :
    newLockDescriptor (some 1) false = ⟨some 1, some 1⟩ ∧
    (newLockDescriptor (some 1) false).lock ≠ none ∧
    getLockDescriptor none (some 1) false = (some 1, some ⟨some 1, some 1⟩) ∧
    newLockDescriptor none false = ⟨none, none⟩ ∧
    newLockDescriptor (some 1) true = ⟨some 1, none⟩ := by
  decide

end Lock

namespace Async

end Async
